import Mathlib

/-! NachOS multi-level file header (`filesys/filehdr.cc`)

A shallow embedding of `FileHeader` (the i-node of the NachOS file system as
extended to a four-level index tree) together with the free-sector bitmap and
the sector disk it talks to.

* machine `int`s are `Int`; every quantity the code computes on the paths
  studied here stays inside the 32-bit range, which is stated where it matters
  (`FileHeader.InRange`);
* the disk is a map from sector numbers to 128-byte sectors; a header is laid
  out in a sector as 32 little-endian two's-complement words;
* a failed `ASSERT` (and an out-of-bounds array read) aborts the run: the
  operations return `Option`, with `none` for the abort;
* `DEBUG` and `printf` output is left out.
-/

namespace NachOS

/-! ## Constants of `filehdr.h` / `disk.h` -/

/-- Modelled from the spec: `SectorSize` (declared in `disk.h`, which is not among
the sources); the spec fixes `sectorSize = 128`. -/
def SectorSize : Int := 128

/-- Modelled from the spec: `NumDirect` (declared in `filehdr.h`, absent); the
number `N = 30` of block pointers that fit in one sector next to the two
counters. The source writes the literal `30` in `MultiLevelAllocate`. -/
def NumDirect : Nat := 30

/-- Modelled from the spec: `MaxFileSize1` (declared in `filehdr.h`, absent);
level-0 capacity, `N` sectors of bytes. -/
def MaxFileSize1 : Int := 128 * 30

/-- Modelled from the spec: `MaxFileSize2` (declared in `filehdr.h`, absent);
level-1 capacity, `N^2` sectors of bytes. -/
def MaxFileSize2 : Int := 128 * 30 ^ 2

/-- Modelled from the spec: `MaxFileSize3` (declared in `filehdr.h`, absent);
level-2 capacity, `N^3` sectors of bytes. -/
def MaxFileSize3 : Int := 128 * 30 ^ 3

/-- Modelled from the spec: `divRoundUp` (a macro of `utility.h`, absent); the
spec reads it as `ceil(n / s)`. For `s > 0` the quotient and remainder below
are those of C whenever `n ≥ 0`. -/
def divRoundUp (n s : Int) : Int := n / s + (if n % s > 0 then 1 else 0)

/-! ## The free-sector bitmap -/

/-- Modelled from the spec: the free-space bitmap (`PersistentBitmap`, not among
the sources) is a bit vector; `true` marks an allocated sector. -/
abbrev Bitmap := List Bool

/-- Modelled from the spec: `NumClear()`, the number of clear bits. -/
def NumClear (bm : Bitmap) : Int := (bm.count false : Nat)

/-- Modelled from the spec: `FindAndSet() -> sector_or_failure`; the lowest
clear bit is set and its index returned, or `-1` when no bit is clear. -/
def FindAndSet (bm : Bitmap) : Int × Bitmap :=
  if bm.indexOf false < bm.length then ((bm.indexOf false : Nat), bm.set (bm.indexOf false) true)
  else (-1, bm)

/-- Modelled from the spec: `Test(sector) -> bool`. A sector number outside the
bitmap is reported as not marked. -/
def Test (bm : Bitmap) (which : Int) : Bool :=
  decide (0 ≤ which) && bm.getD which.toNat false

/-- Modelled from the spec: `Clear(sector)`. -/
def Clear (bm : Bitmap) (which : Int) : Bitmap :=
  if 0 ≤ which then bm.set which.toNat false else bm

/-! ## The header record and its on-disk layout -/

/-- The data members of `FileHeader`: `numBytes`, `numSectors` and the table
`dataSectors[NumDirect]`. -/
structure FileHeader where
  numBytes : Int
  numSectors : Int
  dataSectors : List Int
deriving DecidableEq, Repr

/-- The constructor `FileHeader::FileHeader()`: both counters are `-1` and
`memset` fills the table with `0xFF` bytes, so every entry reads `-1`. -/
def FileHeader.new : FileHeader :=
  { numBytes := -1, numSectors := -1, dataSectors := List.replicate NumDirect (-1) }

/-- A 32-bit `int`. -/
def Int32Range (x : Int) : Prop := -2147483648 ≤ x ∧ x < 2147483648

instance (x : Int) : Decidable (Int32Range x) := by unfold Int32Range; infer_instance

/-- The representation invariant of the C++ object: 32-bit fields and a table
of exactly `NumDirect` entries. -/
def FileHeader.InRange (h : FileHeader) : Prop :=
  Int32Range h.numBytes ∧ Int32Range h.numSectors ∧
    h.dataSectors.length = NumDirect ∧ ∀ x ∈ h.dataSectors, Int32Range x

instance (h : FileHeader) : Decidable h.InRange := by unfold FileHeader.InRange; infer_instance

/-- The four bytes of a 32-bit `int`, least significant first. -/
def int32Bytes (x : Int) : List Nat :=
  let u := (x % 4294967296).toNat
  [u % 256, u / 256 % 256, u / 65536 % 256, u / 16777216 % 256]

/-- The 32-bit `int` stored in the first four bytes of `bs`. -/
def int32Of (bs : List Nat) : Int :=
  let u := bs.getD 0 0 + 256 * bs.getD 1 0 + 65536 * bs.getD 2 0 + 16777216 * bs.getD 3 0
  if u < 2147483648 then (u : Int) else (u : Int) - 4294967296

/-- Consecutive words written out as bytes. -/
def encodeInts : List Int → List Nat
  | [] => []
  | x :: xs => int32Bytes x ++ encodeInts xs

/-- The first `n` words of a byte string. -/
def decodeInts : Nat → List Nat → List Int
  | 0, _ => []
  | n + 1, bs => int32Of bs :: decodeInts n (bs.drop 4)

/-- The object viewed as `(char *)this`: `numBytes`, `numSectors`, then the
table, each a 4-byte word. -/
def FileHeader.toBytes (h : FileHeader) : List Nat :=
  encodeInts (h.numBytes :: h.numSectors :: h.dataSectors)

/-- A sector viewed as a `FileHeader` object. -/
def FileHeader.ofBytes (bs : List Nat) : FileHeader :=
  let w := decodeInts (NumDirect + 2) bs
  { numBytes := w.getD 0 0, numSectors := w.getD 1 0, dataSectors := w.drop 2 }

/-! ## The disk -/

/-- Modelled from the spec: the disk device (`SynchDisk`, absent) is a
sector-addressable store; a sector is its `SectorSize` bytes. -/
abbrev Disk := Int → List Nat

/-- Modelled from the spec: `ReadSector(sectorNumber, outBuffer)`. -/
def ReadSector (disk : Disk) (sector : Int) : List Nat := disk sector

/-- Modelled from the spec: `WriteSector(sectorNumber, inBuffer)`. -/
def WriteSector (disk : Disk) (sector : Int) (data : List Nat) : Disk :=
  fun s => if s = sector then data else disk s

/-- Method `FileHeader::FetchFrom`: the sector is read over the whole object, so the
previous contents of `this` play no part. -/
def FetchFrom (disk : Disk) (sector : Int) : FileHeader :=
  FileHeader.ofBytes (ReadSector disk sector)

/-- Method `FileHeader::WriteBack`. -/
def WriteBack (disk : Disk) (sector : Int) (this : FileHeader) : Disk :=
  WriteSector disk sector this.toBytes

/-! ## Allocation -/

/-- The result of an allocation step: sectors consumed, bitmap, disk, header. -/
abbrev AllocResult := Int × Bitmap × Disk × FileHeader

/-- The leaf `for` loop of `MultiLevelAllocate`: `k` iterations remain, `i` is
the loop counter. A failing `ASSERT(hdr->dataSectors[i] >= 0)` aborts. -/
def leafLoop : Nat → Nat → Bitmap → FileHeader → Option (Bitmap × FileHeader)
  | 0, _, freeMap, hdr => some (freeMap, hdr)
  | k + 1, i, freeMap, hdr =>
    let r := FindAndSet freeMap
    let hdr1 := { hdr with dataSectors := hdr.dataSectors.set i r.1 }
    if r.1 ≥ 0 then leafLoop k (i + 1) r.2 hdr1 else none

/-- The interior `while (left > 0 && time < 30)` loop of `MultiLevelAllocate`,
with `sub` the recursive call one level down on a fresh `subHdr`. `fuel` is
`30 - time`, so it reaches `0` exactly when the test `time < 30` fails. The
child is written back to `hdr->dataSectors[time]`, the sector `FindAndSet` has
just returned. -/
def childLoop (sub : Bitmap → Disk → Int → FileHeader → Option AllocResult) :
    Nat → Nat → Int → Int → Bitmap → Disk → FileHeader → Option AllocResult
  | 0, time, _, use, freeMap, disk, hdr =>
    some (use, freeMap, disk, { hdr with numSectors := time, numBytes := use * 128 })
  | fuel + 1, time, left, use, freeMap, disk, hdr =>
    if left > 0 ∧ time < 30 then
      let r := FindAndSet freeMap
      let hdr1 := { hdr with dataSectors := hdr.dataSectors.set time r.1 }
      match sub r.2 disk left FileHeader.new with
      | none => none
      | some (have_use, freeMap2, disk2, subHdr) =>
        childLoop sub fuel (time + 1) (left - have_use) (use + have_use) freeMap2
          (WriteBack disk2 r.1 subHdr) hdr1
    else
      some (use, freeMap, disk, { hdr with numSectors := time, numBytes := use * 128 })

/-- Method `FileHeader::MultiLevelAllocate`. The level comes first so that the
recursion is structural; `none` is an aborted run. -/
def MultiLevelAllocate : Nat → Bitmap → Disk → Int → FileHeader → Option AllocResult
  | level + 1, freeMap, disk, totalSectors, hdr =>
    childLoop (MultiLevelAllocate level) 30 0 totalSectors 0 freeMap disk hdr
  | 0, freeMap, disk, totalSectors, hdr =>
    let numSectors : Int := if totalSectors > 30 then 30 else totalSectors
    match leafLoop numSectors.toNat 0 freeMap hdr with
    | none => none
    | some (freeMap1, hdr1) =>
      some (numSectors, freeMap1, disk,
        { hdr1 with numSectors := numSectors, numBytes := numSectors * 128 })

/-- The level `FileHeader::Allocate` passes to `MultiLevelAllocate`. -/
def allocLevel (fileSize : Int) : Nat :=
  if fileSize > MaxFileSize3 then 3
  else if fileSize > MaxFileSize2 then 2
  else if fileSize > MaxFileSize1 then 1
  else 0

/-- Method `FileHeader::Allocate`: `some (false, …)` is the `return FALSE`,
`some (true, …)` the `return TRUE`, `none` an aborted run. -/
def Allocate (freeMap : Bitmap) (disk : Disk) (this : FileHeader) (fileSize : Int) :
    Option (Bool × Bitmap × Disk × FileHeader) :=
  let this1 := { this with numBytes := fileSize }
  let totalSectors := divRoundUp fileSize SectorSize
  if NumClear freeMap < totalSectors then some (false, freeMap, disk, this1)
  else
    let r :=
      if fileSize > MaxFileSize3 then MultiLevelAllocate 3 freeMap disk totalSectors this1
      else if fileSize > MaxFileSize2 then MultiLevelAllocate 2 freeMap disk totalSectors this1
      else if fileSize > MaxFileSize1 then MultiLevelAllocate 1 freeMap disk totalSectors this1
      else MultiLevelAllocate 0 freeMap disk totalSectors this1
    match r with
    | none => none
    | some (_, freeMap1, disk1, this2) => some (true, freeMap1, disk1, this2)

/-! ## Deallocation -/

/-- Entry `i` of a table; reading outside the table is undefined in C and
aborts here. -/
def readAt (table : List Int) (i : Int) : Option Int :=
  if 0 ≤ i then table.get? i.toNat else none

/-- The `for` loop of `FileHeader::Deallocate`: `k` iterations remain. -/
def deallocLoop : Nat → Nat → Bitmap → FileHeader → Option Bitmap
  | 0, _, freeMap, _ => some freeMap
  | k + 1, i, freeMap, this =>
    match readAt this.dataSectors i with
    | none => none
    | some s => if Test freeMap s then deallocLoop k (i + 1) (Clear freeMap s) this else none

/-- Method `FileHeader::Deallocate`; `none` when `ASSERT(freeMap->Test(...))` fails. -/
def Deallocate (freeMap : Bitmap) (this : FileHeader) : Option Bitmap :=
  deallocLoop this.numSectors.toNat 0 freeMap this

/-! ## Translation -/

/-- Method `FileHeader::FindSector`. Every recursive call passes `level - 1`, which is
how the recursion is organised here; a level other than 1, 2 or 3 takes the
final `else`. -/
def FindSector (disk : Disk) : Int → Nat → FileHeader → Option Int
  | offset, 0, hdr => readAt hdr.dataSectors offset
  | offset, level + 1, hdr =>
    if level + 1 = 3 then
      match readAt hdr.dataSectors (offset / 27000) with
      | none => none
      | some s => FindSector disk (offset % 27000) level (FetchFrom disk s)
    else if level + 1 = 2 then
      match readAt hdr.dataSectors (offset / 900) with
      | none => none
      | some s => FindSector disk (offset % 900) level (FetchFrom disk s)
    else if level + 1 = 1 then
      match readAt hdr.dataSectors (offset / 30) with
      | none => none
      | some s => FindSector disk (offset % 30) level (FetchFrom disk s)
    else readAt hdr.dataSectors offset

/-- Method `FileHeader::ByteToSector`. -/
def ByteToSector (disk : Disk) (this : FileHeader) (offset : Int) : Option Int :=
  if this.numBytes > MaxFileSize3 then FindSector disk offset 3 this
  else if this.numBytes > MaxFileSize2 then FindSector disk offset 2 this
  else if this.numBytes > MaxFileSize1 then FindSector disk offset 1 this
  else FindSector disk offset 0 this

/-- Method `FileHeader::FileLength`. -/
def FileLength (this : FileHeader) : Int := this.numBytes

/-- A disk whose sectors are all zero. -/
def zeroDisk : Disk := fun _ => List.replicate 128 0

/-! ## The index tree as it lies on disk -/

/-- The leaf data sectors reachable from a node at the given level, in file
order: the first `numSectors` entries of a level-0 table, and below an interior
node the leaves of each child record fetched from disk. -/
def leafSectors (disk : Disk) : Nat → FileHeader → List Int
  | 0, h => h.dataSectors.take h.numSectors.toNat
  | d + 1, h =>
    (h.dataSectors.take h.numSectors.toNat).flatMap
      (fun s => leafSectors disk d (FetchFrom disk s))

/-- The sectors a file of `r` data sectors takes from the bitmap when it is
built at the given level: the data sectors and, for every level below the
root, one sector per index node. -/
def sectorsNeeded : Nat → Int → Int
  | 0, r => r
  | d + 1, r => sectorsNeeded d r + divRoundUp r (30 ^ (d + 1))

/-- Sector `s` was clear in `bm` and is set in `bm1`. -/
def Fresh (bm bm1 : Bitmap) (s : Int) : Prop :=
  0 ≤ s ∧ bm.get? s.toNat = some false ∧ bm1.get? s.toNat = some true

/-- The bitmap `bm1` has the size of `bm` and every bit set in `bm` is still set. -/
def Extends (bm bm1 : Bitmap) : Prop :=
  bm.length = bm1.length ∧ ∀ i, bm.get? i = some true → bm1.get? i = some true

/-- The children named by `ptrs` cover `n` leaf sectors between them: each one
satisfies `T` for `min remaining C` sectors, where `remaining` is what the
earlier children left over, and every pointer satisfies `P`. -/
def Children (disk : Disk) (P : Int → Prop) (T : FileHeader → Int → Prop) (C : Int) :
    List Int → Int → Prop
  | [], n => n = 0
  | p :: ps, n =>
    0 < n ∧ P p ∧ T (FetchFrom disk p) (min n C) ∧ Children disk P T C ps (n - min n C)

/-- The node `h`, read at the given level against `disk`, is the root of a
well-formed index tree covering exactly `n` leaf sectors, all of whose
pointers satisfy `P`. -/
def Tree (disk : Disk) (P : Int → Prop) : Nat → FileHeader → Int → Prop
  | 0, h, n =>
    h.numSectors = n ∧ h.numBytes = n * 128 ∧ 0 ≤ n ∧ n ≤ 30 ∧
      h.dataSectors.length = NumDirect ∧ ∀ p ∈ h.dataSectors.take n.toNat, P p
  | d + 1, h, n =>
    h.numBytes = n * 128 ∧ 0 ≤ h.numSectors ∧ h.numSectors ≤ 30 ∧
      h.dataSectors.length = NumDirect ∧
      Children disk P (Tree disk P d) (30 ^ (d + 1)) (h.dataSectors.take h.numSectors.toNat) n

/-- What a completed run of `MultiLevelAllocate` at level `d`, asked for `r`
sectors on bitmap `bm` and disk `disk` with header `hdr`, has produced. -/
def AllocPost (d : Nat) (bm : Bitmap) (disk : Disk) (r : Int) (hdr : FileHeader)
    (res : AllocResult) : Prop :=
  res.1 = min r (30 ^ (d + 1)) ∧ Extends bm res.2.1 ∧
    NumClear res.2.1 = NumClear bm - sectorsNeeded d res.1 ∧
    (∀ s, ¬ Fresh bm res.2.1 s → res.2.2.1 s = disk s) ∧
    Tree res.2.2.1 (Fresh bm res.2.1) d res.2.2.2 res.1 ∧
    (hdr.InRange → res.2.2.2.InRange)

/-! ## Runs with a record of the calls made

The same operations, returning next to their result the calls they made to the
bitmap and to the disk, in call order. -/

/-- The calls of a run: the results of the `FindAndSet` calls, each tagged
`true` when the leaf loop made it (a data sector) and `false` when the interior
loop made it (an index sector), and the `WriteBack` calls with the sector and
the record written. -/
abbrev Trace := List (Bool × Int) × List (Int × FileHeader)

/-- The leaf `for` loop of `MultiLevelAllocate` as in `leafLoop`, with the
`FindAndSet` results it obtained. -/
def leafLoopTr : Nat → Nat → Bitmap → FileHeader →
    Option (Bitmap × FileHeader × List (Bool × Int))
  | 0, _, freeMap, hdr => some (freeMap, hdr, [])
  | k + 1, i, freeMap, hdr =>
    let r := FindAndSet freeMap
    let hdr1 := { hdr with dataSectors := hdr.dataSectors.set i r.1 }
    if r.1 ≥ 0 then
      (leafLoopTr k (i + 1) r.2 hdr1).map (fun v => (v.1, v.2.1, (true, r.1) :: v.2.2))
    else none

/-- The interior `while` loop of `MultiLevelAllocate` as in `childLoop`, with
the calls made: the `FindAndSet` for the child's sector, the calls of the
child's own run, the `WriteBack` of the child, then the rest of the loop. -/
def childLoopTr (sub : Bitmap → Disk → Int → FileHeader → Option (AllocResult × Trace)) :
    Nat → Nat → Int → Int → Bitmap → Disk → FileHeader → Option (AllocResult × Trace)
  | 0, time, _, use, freeMap, disk, hdr =>
    some ((use, freeMap, disk, { hdr with numSectors := time, numBytes := use * 128 }), ([], []))
  | fuel + 1, time, left, use, freeMap, disk, hdr =>
    if left > 0 ∧ time < 30 then
      let r := FindAndSet freeMap
      let hdr1 := { hdr with dataSectors := hdr.dataSectors.set time r.1 }
      match sub r.2 disk left FileHeader.new with
      | none => none
      | some ((have_use, freeMap2, disk2, subHdr), tr1) =>
        (childLoopTr sub fuel (time + 1) (left - have_use) (use + have_use) freeMap2
          (WriteBack disk2 r.1 subHdr) hdr1).map
          (fun v => (v.1, ((false, r.1) :: (tr1.1 ++ v.2.1), tr1.2 ++ (r.1, subHdr) :: v.2.2)))
    else
      some ((use, freeMap, disk, { hdr with numSectors := time, numBytes := use * 128 }),
        ([], []))

/-- Method `FileHeader::MultiLevelAllocate` as in `MultiLevelAllocate`, with the
calls made. -/
def MultiLevelAllocateTr : Nat → Bitmap → Disk → Int → FileHeader →
    Option (AllocResult × Trace)
  | level + 1, freeMap, disk, totalSectors, hdr =>
    childLoopTr (MultiLevelAllocateTr level) 30 0 totalSectors 0 freeMap disk hdr
  | 0, freeMap, disk, totalSectors, hdr =>
    let numSectors : Int := if totalSectors > 30 then 30 else totalSectors
    match leafLoopTr numSectors.toNat 0 freeMap hdr with
    | none => none
    | some (freeMap1, hdr1, finds) =>
      some ((numSectors, freeMap1, disk,
        { hdr1 with numSectors := numSectors, numBytes := numSectors * 128 }), (finds, []))

/-- Method `FileHeader::Allocate` as in `Allocate`, with the calls made. -/
def AllocateTr (freeMap : Bitmap) (disk : Disk) (this : FileHeader) (fileSize : Int) :
    Option ((Bool × Bitmap × Disk × FileHeader) × Trace) :=
  let this1 := { this with numBytes := fileSize }
  let totalSectors := divRoundUp fileSize SectorSize
  if NumClear freeMap < totalSectors then some ((false, freeMap, disk, this1), ([], []))
  else
    let r :=
      if fileSize > MaxFileSize3 then MultiLevelAllocateTr 3 freeMap disk totalSectors this1
      else if fileSize > MaxFileSize2 then MultiLevelAllocateTr 2 freeMap disk totalSectors this1
      else if fileSize > MaxFileSize1 then MultiLevelAllocateTr 1 freeMap disk totalSectors this1
      else MultiLevelAllocateTr 0 freeMap disk totalSectors this1
    match r with
    | none => none
    | some ((_, freeMap1, disk1, this2), tr) => some ((true, freeMap1, disk1, this2), tr)

/-- Method `FileHeader::FindSector` as in `FindSector`, with the sectors it
fetched (`FetchFrom` calls), in call order. -/
def FindSectorTr (disk : Disk) : Int → Nat → FileHeader → Option (Int × List Int)
  | offset, 0, hdr => (readAt hdr.dataSectors offset).map (fun p => (p, []))
  | offset, level + 1, hdr =>
    if level + 1 = 3 then
      match readAt hdr.dataSectors (offset / 27000) with
      | none => none
      | some s =>
        (FindSectorTr disk (offset % 27000) level (FetchFrom disk s)).map
          (fun v => (v.1, s :: v.2))
    else if level + 1 = 2 then
      match readAt hdr.dataSectors (offset / 900) with
      | none => none
      | some s =>
        (FindSectorTr disk (offset % 900) level (FetchFrom disk s)).map
          (fun v => (v.1, s :: v.2))
    else if level + 1 = 1 then
      match readAt hdr.dataSectors (offset / 30) with
      | none => none
      | some s =>
        (FindSectorTr disk (offset % 30) level (FetchFrom disk s)).map
          (fun v => (v.1, s :: v.2))
    else (readAt hdr.dataSectors offset).map (fun p => (p, []))

/-- Method `FileHeader::ByteToSector` as in `ByteToSector`, with the sectors
fetched. -/
def ByteToSectorTr (disk : Disk) (this : FileHeader) (offset : Int) : Option (Int × List Int) :=
  if this.numBytes > MaxFileSize3 then FindSectorTr disk offset 3 this
  else if this.numBytes > MaxFileSize2 then FindSectorTr disk offset 2 this
  else if this.numBytes > MaxFileSize1 then FindSectorTr disk offset 1 this
  else FindSectorTr disk offset 0 this

/-! ## More views of the tree on disk -/

/-- The block pointers below `numSectors` of every node of the tree, in
pre-order and tagged as in a `Trace`: `(false, p)` for the sector of a child
node, followed by the pointers of that child; `(true, s)` for a data sector. -/
def treeEvents (disk : Disk) : Nat → FileHeader → List (Bool × Int)
  | 0, h => (h.dataSectors.take h.numSectors.toNat).map (fun s => (true, s))
  | d + 1, h =>
    (h.dataSectors.take h.numSectors.toNat).flatMap
      (fun p => (false, p) :: treeEvents disk d (FetchFrom disk p))

/-- All sector numbers stored in the tree: child-node sectors and data sectors. -/
def treeSectors (disk : Disk) (d : Nat) (h : FileHeader) : List Int :=
  (treeEvents disk d h).map Prod.snd

/-- The sectors of the non-root nodes of the tree. -/
def indexSectors (disk : Disk) (d : Nat) (h : FileHeader) : List Int :=
  ((treeEvents disk d h).filter (fun e => !e.1)).map Prod.snd

/-- Every node of the tree has between 0 and 30 valid entries; a level-0 node
has `numBytes = numSectors * 128`; an interior node has `numBytes` equal to the
sum of the `numBytes` of its `numSectors` children, read from disk. -/
def WellFormed (disk : Disk) : Nat → FileHeader → Prop
  | 0, h => 0 ≤ h.numSectors ∧ h.numSectors ≤ 30 ∧ h.numBytes = h.numSectors * 128
  | d + 1, h =>
    0 ≤ h.numSectors ∧ h.numSectors ≤ 30 ∧
      h.numBytes =
        ((h.dataSectors.take h.numSectors.toNat).map (fun p => (FetchFrom disk p).numBytes)).sum ∧
      ∀ p ∈ h.dataSectors.take h.numSectors.toNat, WellFormed disk d (FetchFrom disk p)

/-- The results of `n` successive `FindAndSet` calls on `bm`. -/
def findSeq : Nat → Bitmap → List Int
  | 0, _ => []
  | n + 1, bm => (FindAndSet bm).1 :: findSeq n (FindAndSet bm).2

/-- The bitmap after `n` successive `FindAndSet` calls on `bm`. -/
def findIter : Nat → Bitmap → Bitmap
  | 0, bm => bm
  | n + 1, bm => findIter n (FindAndSet bm).2

/-- The disk after the `WriteBack` calls of a trace, in order. -/
def replayWrites (disk : Disk) (ws : List (Int × FileHeader)) : Disk :=
  ws.foldl (fun dk w => WriteBack dk w.1 w.2) disk

/-- What the record of a run says about its bitmap and disk: the `FindAndSet`
results recorded are those of successive calls on `bm`, which leave the final
bitmap, and the final disk is `disk` after the `WriteBack` calls recorded. -/
def ReplayPost (bm : Bitmap) (disk : Disk) (res : AllocResult) (tr : Trace) : Prop :=
  tr.1.map Prod.snd = findSeq tr.1.length bm ∧ res.2.1 = findIter tr.1.length bm ∧
    res.2.2.1 = replayWrites disk tr.2

/-- What the record of a completed run at level `d` says about the tree: the
`FindAndSet` results recorded are the block pointers of the tree in pre-order,
every record written is the one its sector holds at the end, and the sectors
written are the sectors of the non-root nodes. -/
def TracePost (d : Nat) (res : AllocResult) (tr : Trace) : Prop :=
  tr.1 = treeEvents res.2.2.1 d res.2.2.2 ∧
    (∀ w ∈ tr.2, res.2.2.1 w.1 = w.2.toBytes ∧ FetchFrom res.2.2.1 w.1 = w.2) ∧
    List.Perm (tr.2.map Prod.fst) ((tr.1.filter (fun e => !e.1)).map Prod.snd)

/-! ## Arithmetic of `divRoundUp` -/

theorem divRoundUp_eq_ceil (n : Int) : divRoundUp n 128 = ⌈(n : ℚ) / 128⌉ := by
  symm
  rw [Int.ceil_eq_iff]
  have h1 : ((divRoundUp n 128 : Int) : ℚ) - 1 < (n : ℚ) / 128 ↔
      128 * (divRoundUp n 128 - 1) < n := by
    rw [lt_div_iff₀ (by norm_num : (0 : ℚ) < 128)]
    constructor
    · intro h
      have : (((128 * (divRoundUp n 128 - 1) : Int)) : ℚ) < (n : ℚ) := by push_cast; linarith
      exact_mod_cast this
    · intro h
      have : (((128 * (divRoundUp n 128 - 1) : Int)) : ℚ) < (n : ℚ) := by exact_mod_cast h
      push_cast at this; linarith
  have h2 : (n : ℚ) / 128 ≤ ((divRoundUp n 128 : Int) : ℚ) ↔ n ≤ 128 * divRoundUp n 128 := by
    rw [div_le_iff₀ (by norm_num : (0 : ℚ) < 128)]
    constructor
    · intro h
      have : (n : ℚ) ≤ ((128 * divRoundUp n 128 : Int) : ℚ) := by push_cast; linarith
      exact_mod_cast this
    · intro h
      have : (n : ℚ) ≤ ((128 * divRoundUp n 128 : Int) : ℚ) := by exact_mod_cast h
      push_cast at this; linarith
  rw [h1, h2]
  unfold divRoundUp
  split <;> omega

theorem divRoundUp_128 (n : Int) :
    128 * (divRoundUp n 128 - 1) < n ∧ n ≤ 128 * divRoundUp n 128 := by
  unfold divRoundUp
  split <;> omega

/-! ## The bitmap -/

theorem NumClear_nonneg (bm : Bitmap) : 0 ≤ NumClear bm := by
  unfold NumClear; omega

theorem FindAndSet_full (bm : Bitmap) (h : NumClear bm = 0) : FindAndSet bm = (-1, bm) := by
  have h0 : bm.count false = 0 := by unfold NumClear at h; omega
  have hmem : false ∉ bm := List.count_eq_zero.mp h0
  have : ¬ bm.indexOf false < bm.length := fun hlt => hmem (List.indexOf_lt_length.mp hlt)
  simp [FindAndSet, this]

theorem NumClear_set_true (bm : Bitmap) (i : Nat) (h : bm.get? i = some false) :
    NumClear (bm.set i true) = NumClear bm - 1 := by
  have hi : i < bm.length := by
    rcases Nat.lt_or_ge i bm.length with hlt | hge
    · exact hlt
    · rw [List.get?_eq_none.mpr hge] at h; cases h
  have hget : bm[i] = false := by
    rw [List.get?_eq_getElem?, List.getElem?_eq_getElem hi] at h
    exact Option.some.inj h
  have hpos : 0 < bm.count false := List.count_pos_iff.mpr (hget ▸ List.getElem_mem hi)
  unfold NumClear
  rw [List.count_set _ _ _ _ hi]
  simp [hget]
  omega

theorem FindAndSet_pos (bm : Bitmap) (h : 0 < NumClear bm) :
    ∃ i : Nat, i < bm.length ∧ bm.get? i = some false ∧
      FindAndSet bm = ((i : Int), bm.set i true) := by
  have h0 : 0 < bm.count false := by unfold NumClear at h; omega
  have hmem : false ∈ bm := List.count_pos_iff.mp h0
  have hlt : bm.indexOf false < bm.length := List.indexOf_lt_length.mpr hmem
  refine ⟨bm.indexOf false, hlt, ?_, ?_⟩
  · have := List.indexOf_get hlt
    rw [List.get?_eq_getElem?, List.getElem?_eq_getElem hlt]
    simp [this]
  · simp [FindAndSet, hlt]

theorem FindAndSet_nonneg_iff (bm : Bitmap) : 0 ≤ (FindAndSet bm).1 ↔ 0 < NumClear bm := by
  constructor
  · intro h
    by_contra hn
    have h0 : NumClear bm = 0 := by have := NumClear_nonneg bm; omega
    rw [FindAndSet_full bm h0] at h
    simp at h
  · intro h
    obtain ⟨i, _, _, he⟩ := FindAndSet_pos bm h
    rw [he]; simp

/-! ## The on-disk layout -/

theorem int32Of_int32Bytes (x : Int) (hx : Int32Range x) (rest : List Nat) :
    int32Of (int32Bytes x ++ rest) = x := by
  obtain ⟨h1, h2⟩ := hx
  simp only [int32Of, int32Bytes, List.cons_append, List.nil_append, List.getD_cons_zero,
    List.getD_cons_succ]
  have hu : (((x % 4294967296).toNat : Nat) : Int) = x % 4294967296 :=
    Int.toNat_of_nonneg (Int.emod_nonneg _ (by norm_num))
  generalize (x % 4294967296).toNat = u at hu
  have hlt : (u : Int) < 4294967296 := by rw [hu]; exact Int.emod_lt_of_pos _ (by norm_num)
  have hsum : u % 256 + 256 * (u / 256 % 256) + 65536 * (u / 65536 % 256) +
      16777216 * (u / 16777216 % 256) = u := by omega
  rw [hsum]
  split <;> omega

theorem drop_int32Bytes (x : Int) (rest : List Nat) : (int32Bytes x ++ rest).drop 4 = rest := by
  simp [int32Bytes]

theorem length_encodeInts (xs : List Int) : (encodeInts xs).length = 4 * xs.length := by
  induction xs with
  | nil => rfl
  | cons x xs ih => simp [encodeInts, int32Bytes, ih]; omega

theorem decodeInts_encodeInts (xs : List Int) (hxs : ∀ x ∈ xs, Int32Range x) :
    decodeInts xs.length (encodeInts xs) = xs := by
  induction xs with
  | nil => rfl
  | cons x xs ih =>
    simp only [List.length_cons, decodeInts, encodeInts]
    rw [int32Of_int32Bytes x (hxs x (List.mem_cons_self _ _)), drop_int32Bytes,
      ih (fun y hy => hxs y (List.mem_cons_of_mem _ hy))]

theorem ofBytes_toBytes (h : FileHeader) (hr : h.InRange) : FileHeader.ofBytes h.toBytes = h := by
  obtain ⟨h1, h2, h3, h4⟩ := hr
  have hlen : (h.numBytes :: h.numSectors :: h.dataSectors).length = NumDirect + 2 := by
    simp [h3]
  have hall : ∀ x ∈ h.numBytes :: h.numSectors :: h.dataSectors, Int32Range x := by
    intro x hx
    simp only [List.mem_cons] at hx
    rcases hx with rfl | rfl | hx
    · exact h1
    · exact h2
    · exact h4 x hx
  unfold FileHeader.ofBytes FileHeader.toBytes
  rw [← hlen, decodeInts_encodeInts _ hall]
  cases h
  simp

theorem FetchFrom_WriteBack_same (disk : Disk) (s : Int) (h : FileHeader) (hr : h.InRange) :
    FetchFrom (WriteBack disk s h) s = h := by
  simp [FetchFrom, WriteBack, WriteSector, ReadSector, ofBytes_toBytes h hr]

theorem FetchFrom_congr (disk disk1 : Disk) (s : Int) (h : disk1 s = disk s) :
    FetchFrom disk1 s = FetchFrom disk s := by
  simp [FetchFrom, ReadSector, h]

theorem WriteBack_other (disk : Disk) (s t : Int) (h : FileHeader) (hne : t ≠ s) :
    WriteBack disk s h t = disk t := by
  simp [WriteBack, WriteSector, hne]

theorem FileHeader.new_inRange : FileHeader.new.InRange := by decide

/-! ## Depth selection -/

theorem Allocate_eq_level (freeMap : Bitmap) (disk : Disk) (this : FileHeader) (fileSize : Int) :
    Allocate freeMap disk this fileSize =
      if NumClear freeMap < divRoundUp fileSize SectorSize then
        some (false, freeMap, disk, { this with numBytes := fileSize })
      else
        Option.map (fun r => (true, r.2))
          (MultiLevelAllocate (allocLevel fileSize) freeMap disk (divRoundUp fileSize SectorSize)
            { this with numBytes := fileSize }) := by
  unfold Allocate allocLevel
  by_cases hc : NumClear freeMap < divRoundUp fileSize SectorSize
  · simp [hc]
  · simp only [hc, if_false]
    by_cases h3 : fileSize > MaxFileSize3
    · simp only [h3, if_true]; cases MultiLevelAllocate 3 freeMap disk _ _ <;> rfl
    · by_cases h2 : fileSize > MaxFileSize2
      · simp only [h3, h2, if_true, if_false]; cases MultiLevelAllocate 2 freeMap disk _ _ <;> rfl
      · by_cases h1 : fileSize > MaxFileSize1
        · simp only [h3, h2, h1, if_true, if_false]
          cases MultiLevelAllocate 1 freeMap disk _ _ <;> rfl
        · simp only [h3, h2, h1, if_false]
          cases MultiLevelAllocate 0 freeMap disk _ _ <;> rfl

theorem allocLevel_le (fileSize : Int) : allocLevel fileSize ≤ 3 := by
  unfold allocLevel; split_ifs <;> omega

theorem allocLevel_spec (fileSize : Int) :
    (allocLevel fileSize = 0 ∧ divRoundUp fileSize 128 ≤ 30) ∨
    (allocLevel fileSize = 1 ∧ 30 < divRoundUp fileSize 128 ∧ divRoundUp fileSize 128 ≤ 900) ∨
    (allocLevel fileSize = 2 ∧ 900 < divRoundUp fileSize 128 ∧ divRoundUp fileSize 128 ≤ 27000) ∨
    (allocLevel fileSize = 3 ∧ 27000 < divRoundUp fileSize 128) := by
  have h := divRoundUp_128 fileSize
  unfold allocLevel MaxFileSize1 MaxFileSize2 MaxFileSize3
  split_ifs <;> simp <;> omega

/-! ## Fresh sectors and growing bitmaps -/

theorem Extends.refl (bm : Bitmap) : Extends bm bm := ⟨rfl, fun _ h => h⟩

theorem Extends.trans {a b c : Bitmap} (h1 : Extends a b) (h2 : Extends b c) : Extends a c :=
  ⟨h1.1.trans h2.1, fun i h => h2.2 i (h1.2 i h)⟩

theorem Extends_set_true (bm : Bitmap) (i : Nat) (h : bm.get? i = some false) :
    Extends bm (bm.set i true) := by
  refine ⟨by simp, fun j hj => ?_⟩
  have hne : i ≠ j := by
    rintro rfl
    rw [h] at hj; cases hj
  rw [List.get?_eq_getElem?] at hj ⊢
  rw [List.getElem?_set_ne hne]; exact hj

theorem Extends.clear_of_clear {a b : Bitmap} (h : Extends a b) (i : Nat)
    (hb : b.get? i = some false) : a.get? i = some false := by
  have hi : i < b.length := by
    rcases Nat.lt_or_ge i b.length with hlt | hge
    · exact hlt
    · rw [List.get?_eq_none.mpr hge] at hb; cases hb
  have hia : i < a.length := h.1 ▸ hi
  cases hv : a.get? i with
  | none => rw [List.get?_eq_none] at hv; omega
  | some v =>
    cases v with
    | false => rfl
    | true => have := h.2 i hv; rw [hb] at this; cases this

theorem Fresh.mono {a b c e : Bitmap} (hab : Extends a b) (hce : Extends c e) {s : Int}
    (h : Fresh b c s) : Fresh a e s :=
  ⟨h.1, hab.clear_of_clear _ h.2.1, hce.2 _ h.2.2⟩

theorem Fresh.not_next {a b c : Bitmap} {s : Int} (h : Fresh a b s) : ¬ Fresh b c s := by
  intro h2
  have h3 := h.2.2
  rw [h2.2.1] at h3; cases h3

theorem Fresh.lt_length {a b : Bitmap} {s : Int} (h : Fresh a b s) :
    0 ≤ s ∧ s < (a.length : Int) := by
  refine ⟨h.1, ?_⟩
  have h1 := h.2.1
  have : s.toNat < a.length := by
    rcases Nat.lt_or_ge s.toNat a.length with hlt | hge
    · exact hlt
    · rw [List.get?_eq_none.mpr hge] at h1; cases h1
  have := h.1
  omega

/-- What a successful `FindAndSet` does. -/
theorem FindAndSet_spec (bm : Bitmap) (h : 0 < NumClear bm) :
    ∃ i : Nat, FindAndSet bm = ((i : Int), bm.set i true) ∧ Fresh bm (bm.set i true) i ∧
      Extends bm (bm.set i true) ∧ NumClear (bm.set i true) = NumClear bm - 1 := by
  obtain ⟨i, hi, hget, he⟩ := FindAndSet_pos bm h
  refine ⟨i, he, ⟨by omega, by simpa using hget, ?_⟩, Extends_set_true bm i hget,
    NumClear_set_true bm i hget⟩
  simp only [Int.toNat_ofNat, List.get?_eq_getElem?]
  rw [List.getElem?_set_self hi]

/-! ## The leaf loop -/

/-- The result of the `j`-th successive `FindAndSet` on `bm`, counting from 0. -/
theorem iterate_FindAndSet_succ (bm : Bitmap) (j : Nat) :
    (FindAndSet ((fun b => (FindAndSet b).2)^[j + 1] bm)).1 =
      (FindAndSet ((fun b => (FindAndSet b).2)^[j] (FindAndSet bm).2)).1 := by
  rw [Function.iterate_succ_apply]

theorem leafLoop_spec (k : Nat) : ∀ (i : Nat) (bm : Bitmap) (hdr : FileHeader) (bm1 : Bitmap)
    (hdr1 : FileHeader), leafLoop k i bm hdr = some (bm1, hdr1) → i + k ≤ hdr.dataSectors.length →
    Extends bm bm1 ∧ NumClear bm1 = NumClear bm - k ∧
      hdr1.numBytes = hdr.numBytes ∧ hdr1.numSectors = hdr.numSectors ∧
      hdr1.dataSectors.length = hdr.dataSectors.length ∧
      (∀ j, j < i → hdr1.dataSectors.get? j = hdr.dataSectors.get? j) ∧
      (∀ j, i + k ≤ j → hdr1.dataSectors.get? j = hdr.dataSectors.get? j) ∧
      (∀ j, j < k → hdr1.dataSectors.get? (i + j) =
          some (FindAndSet ((fun b => (FindAndSet b).2)^[j] bm)).1 ∧
        Fresh bm bm1 (FindAndSet ((fun b => (FindAndSet b).2)^[j] bm)).1) := by
  induction k with
  | zero =>
    intro i bm hdr bm1 hdr1 h _
    simp only [leafLoop, Option.some.injEq, Prod.mk.injEq] at h
    obtain ⟨rfl, rfl⟩ := h
    refine ⟨Extends.refl _, by simp, rfl, rfl, rfl, fun _ _ => rfl, fun _ _ => rfl, ?_⟩
    intro j hj; omega
  | succ k ih =>
    intro i bm hdr bm1 hdr1 h hlen
    simp only [leafLoop] at h
    by_cases hs : (FindAndSet bm).1 ≥ 0
    · simp only [hs, if_true] at h
      have hpos : 0 < NumClear bm := (FindAndSet_nonneg_iff bm).mp hs
      obtain ⟨s, he, hfresh, hext, hnum⟩ := FindAndSet_spec bm hpos
      rw [he] at h
      have hlen1 : i + 1 + k ≤
          ({ hdr with dataSectors := hdr.dataSectors.set i (s : Int) } : FileHeader).dataSectors.length := by
        simp; omega
      obtain ⟨e1, e2, e3, e4, e5, e6, e7, e8⟩ := ih (i + 1) _ _ bm1 hdr1 h hlen1
      simp only [List.length_set] at e5
      refine ⟨hext.trans e1, by rw [e2, hnum]; push_cast; ring, e3, e4, e5, ?_, ?_, ?_⟩
      · intro j hj
        rw [e6 j (by omega)]
        simp only [List.get?_eq_getElem?]
        rw [List.getElem?_set_ne (by omega)]
      · intro j hj
        rw [e7 j (by omega)]
        simp only [List.get?_eq_getElem?]
        rw [List.getElem?_set_ne (by omega)]
      · intro j hj
        rcases Nat.eq_zero_or_pos j with rfl | hjpos
        · simp only [Function.iterate_zero, id_eq, Nat.add_zero]
          rw [e6 i (by omega), he]
          refine ⟨?_, hfresh.mono (Extends.refl _) e1⟩
          simp only [List.get?_eq_getElem?]
          rw [List.getElem?_set_self (by omega)]
        · obtain ⟨j, rfl⟩ : ∃ j', j = j' + 1 := ⟨j - 1, by omega⟩
          rw [iterate_FindAndSet_succ, he]
          have := e8 j (by omega)
          rw [show i + (j + 1) = i + 1 + j by omega]
          exact ⟨this.1, this.2.mono hext (Extends.refl _)⟩
    · simp only [hs, if_false] at h
      cases h

theorem leafLoop_isSome (k : Nat) : ∀ (i : Nat) (bm : Bitmap) (hdr : FileHeader),
    (k : Int) ≤ NumClear bm → ∃ r, leafLoop k i bm hdr = some r := by
  induction k with
  | zero => intro i bm hdr _; exact ⟨_, rfl⟩
  | succ k ih =>
    intro i bm hdr hk
    have hpos : 0 < NumClear bm := by push_cast at hk; omega
    obtain ⟨s, he, _, _, hnum⟩ := FindAndSet_spec bm hpos
    simp only [leafLoop]
    have hs : (FindAndSet bm).1 ≥ 0 := (FindAndSet_nonneg_iff bm).mpr hpos
    simp only [hs, if_true]
    rw [he]
    apply ih
    rw [hnum]; push_cast at hk; omega

theorem MultiLevelAllocate_succ (d : Nat) (bm : Bitmap) (disk : Disk) (r : Int)
    (hdr : FileHeader) :
    MultiLevelAllocate (d + 1) bm disk r hdr =
      childLoop (MultiLevelAllocate d) 30 0 r 0 bm disk hdr := rfl

theorem childLoop_succ (sub : Bitmap → Disk → Int → FileHeader → Option AllocResult)
    (fuel time : Nat) (left use : Int) (bm : Bitmap) (disk : Disk) (hdr : FileHeader) :
    childLoop sub (fuel + 1) time left use bm disk hdr =
      if left > 0 ∧ time < 30 then
        match sub (FindAndSet bm).2 disk left FileHeader.new with
        | none => none
        | some (have_use, freeMap2, disk2, subHdr) =>
          childLoop sub fuel (time + 1) (left - have_use) (use + have_use) freeMap2
            (WriteBack disk2 (FindAndSet bm).1 subHdr)
            { hdr with dataSectors := hdr.dataSectors.set time (FindAndSet bm).1 }
      else some (use, bm, disk, { hdr with numSectors := time, numBytes := use * 128 }) := rfl

/-- With no clear sector left and something still to allocate, the run aborts
on the leaf `ASSERT`. -/
theorem MultiLevelAllocate_full (d : Nat) : ∀ (bm : Bitmap) (disk : Disk) (r : Int)
    (hdr : FileHeader), NumClear bm = 0 → 0 < r → MultiLevelAllocate d bm disk r hdr = none := by
  induction d with
  | zero =>
    intro bm disk r hdr h0 hr
    have hk : ∃ k, (if r > 30 then (30 : Int) else r).toNat = k + 1 := by
      refine ⟨(if r > 30 then (30 : Int) else r).toNat - 1, ?_⟩
      split <;> omega
    obtain ⟨k, hk⟩ := hk
    simp only [MultiLevelAllocate, hk, leafLoop, FindAndSet_full bm h0]
    simp
  | succ d ih =>
    intro bm disk r hdr h0 hr
    rw [MultiLevelAllocate_succ, show (30 : Nat) = 29 + 1 from rfl, childLoop_succ]
    have : r > 0 ∧ 0 < 30 := ⟨hr, by norm_num⟩
    simp only [this, and_self, if_true, FindAndSet_full bm h0, ih bm disk r FileHeader.new h0 hr]

/-! ## Counting the sectors a tree needs -/

theorem divRoundUp_zero (c : Int) : divRoundUp 0 c = 0 := by simp [divRoundUp]

theorem divRoundUp_mul_add (q x c : Int) (hc : 0 < c) :
    divRoundUp (q * c + x) c = q + divRoundUp x c := by
  unfold divRoundUp
  rw [show q * c + x = x + q * c by ring, Int.add_mul_ediv_right _ _ (ne_of_gt hc),
    Int.add_mul_emod_self]
  ring

theorem divRoundUp_self_add (x c : Int) (hc : 0 < c) :
    divRoundUp (c + x) c = 1 + divRoundUp x c := by
  have := divRoundUp_mul_add 1 x c hc
  rwa [one_mul] at this

theorem divRoundUp_pos_le (x c : Int) (hx : 0 < x) (hxc : x ≤ c) : divRoundUp x c = 1 := by
  unfold divRoundUp
  rcases lt_or_eq_of_le hxc with hlt | rfl
  · rw [Int.ediv_eq_zero_of_lt (le_of_lt hx) hlt, Int.emod_eq_of_lt (le_of_lt hx) hlt]
    simp [hx]
  · rw [Int.ediv_self (ne_of_gt hx), Int.emod_self]
    simp

theorem divRoundUp_nonneg (x c : Int) (hx : 0 ≤ x) (hc : 0 < c) : 0 ≤ divRoundUp x c := by
  unfold divRoundUp
  have := Int.ediv_nonneg hx (le_of_lt hc)
  split <;> omega

theorem pow30_pos (k : Nat) : (0 : Int) < 30 ^ k := by positivity

theorem sectorsNeeded_zero (d : Nat) : sectorsNeeded d 0 = 0 := by
  induction d with
  | zero => rfl
  | succ d ih => simp [sectorsNeeded, ih, divRoundUp_zero]

theorem sectorsNeeded_nonneg (d : Nat) (r : Int) (hr : 0 ≤ r) : 0 ≤ sectorsNeeded d r := by
  induction d with
  | zero => exact hr
  | succ d ih =>
    simp only [sectorsNeeded]
    have := divRoundUp_nonneg r (30 ^ (d + 1)) hr (pow30_pos _)
    omega

theorem sectorsNeeded_ge (d : Nat) (r : Int) (hr : 0 ≤ r) : r ≤ sectorsNeeded d r := by
  induction d with
  | zero => exact le_refl _
  | succ d ih =>
    simp only [sectorsNeeded]
    have := divRoundUp_nonneg r (30 ^ (d + 1)) hr (pow30_pos _)
    omega

theorem sectorsNeeded_pow_add (e k : Nat) (x : Int) (hek : e ≤ k) :
    sectorsNeeded e (30 ^ k + x) = sectorsNeeded e (30 ^ k) + sectorsNeeded e x := by
  induction e with
  | zero => rfl
  | succ e ih =>
    simp only [sectorsNeeded]
    rw [ih (by omega)]
    have hpow : (30 : Int) ^ k = 30 ^ (k - (e + 1)) * 30 ^ (e + 1) := by
      rw [← pow_add]; congr 1; omega
    have h1 : divRoundUp (30 ^ k + x) (30 ^ (e + 1)) =
        30 ^ (k - (e + 1)) + divRoundUp x (30 ^ (e + 1)) := by
      rw [hpow]; exact divRoundUp_mul_add _ _ _ (pow30_pos _)
    have h2 : divRoundUp (30 ^ k) (30 ^ (e + 1)) = 30 ^ (k - (e + 1)) := by
      have := divRoundUp_mul_add (30 ^ (k - (e + 1))) 0 (30 ^ (e + 1)) (pow30_pos _)
      rw [add_zero, divRoundUp_zero, add_zero, ← hpow] at this
      exact this
    rw [h1, h2]; ring

theorem sectorsNeeded_step_full (d : Nat) (rest : Int) :
    sectorsNeeded (d + 1) (30 ^ (d + 1) + rest) =
      1 + sectorsNeeded d (30 ^ (d + 1)) + sectorsNeeded (d + 1) rest := by
  simp only [sectorsNeeded]
  rw [sectorsNeeded_pow_add d (d + 1) rest (by omega),
    divRoundUp_self_add _ _ (pow30_pos _)]
  ring

theorem sectorsNeeded_step_last (d : Nat) (left : Int) (h0 : 0 < left)
    (h1 : left ≤ 30 ^ (d + 1)) : sectorsNeeded (d + 1) left = 1 + sectorsNeeded d left := by
  simp only [sectorsNeeded]
  rw [divRoundUp_pos_le _ _ h0 h1]; ring

/-- One turn of the interior loop: the child takes `min left C` sectors and the
rest of the loop what is left, within `X` sectors. -/
theorem sectorsNeeded_loop (d : Nat) (left X : Int) (h0 : 0 < left) (hX : 0 ≤ X) :
    sectorsNeeded (d + 1) (min left (30 ^ (d + 1)) + min (left - min left (30 ^ (d + 1))) X) =
      1 + sectorsNeeded d (min left (30 ^ (d + 1))) +
        sectorsNeeded (d + 1) (min (left - min left (30 ^ (d + 1))) X) := by
  rcases le_or_lt left (30 ^ (d + 1)) with hle | hlt
  · rw [min_eq_left hle, sub_self, min_eq_left hX, add_zero, sectorsNeeded_zero,
      sectorsNeeded_step_last d left h0 hle]
    ring
  · rw [min_eq_right (le_of_lt hlt)]
    exact sectorsNeeded_step_full d _

/-! ## Trees under changes of the disk -/

theorem Children.carry {disk disk1 : Disk} {P Q : Int → Prop}
    {T T1 : FileHeader → Int → Prop} {C : Int}
    (hP : ∀ s, P s → Q s ∧ disk1 s = disk s) (hT : ∀ h n, T h n → T1 h n) :
    ∀ (ptrs : List Int) (n : Int), Children disk P T C ptrs n → Children disk1 Q T1 C ptrs n := by
  intro ptrs
  induction ptrs with
  | nil => intro n h; exact h
  | cons p ps ih =>
    intro n h
    obtain ⟨h1, h2, h3, h4⟩ := h
    refine ⟨h1, (hP p h2).1, ?_, ih _ h4⟩
    rw [FetchFrom_congr disk disk1 p (hP p h2).2]
    exact hT _ _ h3

theorem Tree.transfer {disk disk1 : Disk} {P Q : Int → Prop}
    (hP : ∀ s, P s → Q s ∧ disk1 s = disk s) :
    ∀ (d : Nat) (h : FileHeader) (n : Int), Tree disk P d h n → Tree disk1 Q d h n := by
  intro d
  induction d with
  | zero =>
    intro h n ht
    obtain ⟨h1, h2, h3, h4, h5, h6⟩ := ht
    exact ⟨h1, h2, h3, h4, h5, fun p hp => (hP p (h6 p hp)).1⟩
  | succ d ih =>
    intro h n ht
    obtain ⟨h1, h2, h3, h4, h5⟩ := ht
    exact ⟨h1, h2, h3, h4, Children.carry hP ih _ _ h5⟩
/-! ## The interior loop -/

theorem take_succ_drop {α : Type} (l : List α) (t k : Nat) (p : α) (h : l.get? t = some p) :
    (l.drop t).take (k + 1) = p :: (l.drop (t + 1)).take k := by
  have ht : t < l.length := by
    rcases Nat.lt_or_ge t l.length with hlt | hge
    · exact hlt
    · rw [List.get?_eq_none.mpr hge] at h; cases h
  rw [List.get?_eq_getElem?, List.getElem?_eq_getElem ht] at h
  rw [List.drop_eq_getElem_cons ht, List.take_succ_cons, Option.some.inj h]

theorem childLoop_spec (d : Nat)
    (sub : Bitmap → Disk → Int → FileHeader → Option AllocResult)
    (hsub : ∀ bm disk r res, 0 ≤ r → (bm.length : Int) < 2147483648 →
      sub bm disk r FileHeader.new = some res → AllocPost d bm disk r FileHeader.new res)
    (hfull : ∀ bm disk r, NumClear bm = 0 → 0 < r → sub bm disk r FileHeader.new = none)
    (fuel : Nat) :
    ∀ (time : Nat) (left use : Int) (bm : Bitmap) (disk : Disk) (hdr : FileHeader)
      (res : AllocResult),
      childLoop sub fuel time left use bm disk hdr = some res → time + fuel = 30 → 0 ≤ left →
      (bm.length : Int) < 2147483648 → hdr.dataSectors.length = NumDirect →
      ∃ k : Nat, res.2.2.2.numSectors = (time : Int) + k ∧ k ≤ fuel ∧
        res.2.2.2.numBytes = res.1 * 128 ∧ res.2.2.2.dataSectors.length = NumDirect ∧
        res.1 - use = min left ((fuel : Int) * 30 ^ (d + 1)) ∧
        Extends bm res.2.1 ∧
        NumClear res.2.1 = NumClear bm - sectorsNeeded (d + 1) (res.1 - use) ∧
        (∀ s, ¬ Fresh bm res.2.1 s → res.2.2.1 s = disk s) ∧
        (∀ j, j < time → res.2.2.2.dataSectors.get? j = hdr.dataSectors.get? j) ∧
        Children res.2.2.1 (Fresh bm res.2.1) (Tree res.2.2.1 (Fresh bm res.2.1) d)
          (30 ^ (d + 1)) ((res.2.2.2.dataSectors.drop time).take k) (res.1 - use) ∧
        (∀ x ∈ res.2.2.2.dataSectors,
          x ∈ hdr.dataSectors ∨ (0 ≤ x ∧ x < (bm.length : Int))) := by
  have hC : (0 : Int) < 30 ^ (d + 1) := pow30_pos _
  induction fuel with
  | zero =>
    intro time left use bm disk hdr res h _ hleft _ hlen
    simp only [childLoop, Option.some.injEq] at h
    subst h
    refine ⟨0, by simp, le_refl _, rfl, hlen, ?_, Extends.refl _, ?_, fun _ _ => rfl,
      fun _ _ => rfl, ?_, fun x hx => Or.inl hx⟩
    · simp only [sub_self, Nat.cast_zero, zero_mul]; omega
    · simp [sectorsNeeded_zero]
    · simp [Children]
  | succ fuel ih =>
    intro time left use bm disk hdr res h htime hleft hbm hlen
    rw [childLoop_succ] at h
    have hX : (0 : Int) ≤ (fuel : Int) * 30 ^ (d + 1) := by positivity
    have hX1 : ((fuel + 1 : Nat) : Int) * 30 ^ (d + 1) = (fuel : Int) * 30 ^ (d + 1) + 30 ^ (d + 1) := by
      push_cast; ring
    by_cases hc : left > 0 ∧ time < 30
    · simp only [hc, and_self, if_true] at h
      rcases eq_or_lt_of_le (NumClear_nonneg bm) with h0 | hpos
      · rw [FindAndSet_full bm h0.symm, hfull bm disk left h0.symm hc.1] at h
        cases h
      · obtain ⟨i, he, hfresh, hext, hnum⟩ := FindAndSet_spec bm hpos
        rw [he] at h
        simp only at h
        have hbm1 : ((bm.set i true).length : Int) < 2147483648 := by simpa using hbm
        cases hs : sub (bm.set i true) disk left FileHeader.new with
        | none => rw [hs] at h; cases h
        | some r1 =>
          obtain ⟨u, bm2, disk2, subHdr⟩ := r1
          rw [hs] at h
          simp only at h
          obtain ⟨p1, p2, p3, p4, p5, p6⟩ := hsub _ _ _ _ (le_of_lt hc.1) hbm1 hs
          simp only at p1 p2 p3 p4 p5 p6
          have hsubR : subHdr.InRange := p6 FileHeader.new_inRange
          have hbm2 : (bm2.length : Int) < 2147483648 := by rw [← p2.1]; exact hbm1
          have hu : u ≤ left := by rw [p1]; exact min_le_left _ _
          obtain ⟨k, e1, e2, e3, e4, e5, e6, e7, e8, e9, e10, e11⟩ :=
            ih (time + 1) (left - u) (use + u) bm2 (WriteBack disk2 i subHdr)
              { hdr with dataSectors := hdr.dataSectors.set time (i : Int) } res h (by omega)
              (by omega) hbm2 (by simpa using hlen)
          obtain ⟨use1, bm1, disk1, hdr1⟩ := res
          simp only at e1 e2 e3 e4 e5 e6 e7 e8 e9 e10 e11 ⊢
          have hext2 : Extends bm bm2 := hext.trans p2
          have hext1 : Extends (bm.set i true) bm1 := p2.trans e6
          have hfi : Fresh bm bm1 (i : Int) := hfresh.mono (Extends.refl _) hext1
          have huse : use1 - use = u + min (left - u) ((fuel : Int) * 30 ^ (d + 1)) := by omega
          have hmin : min (use1 - use) (30 ^ (d + 1)) = u := by
            rw [huse, p1]
            rcases le_or_lt left (30 ^ (d + 1)) with hle | hlt
            · rw [min_eq_left hle, sub_self, min_eq_left hX, add_zero, min_eq_left hle]
            · rw [min_eq_right (le_of_lt hlt)]
              have : 0 ≤ min (left - 30 ^ (d + 1)) ((fuel : Int) * 30 ^ (d + 1)) :=
                le_min (by omega) hX
              exact min_eq_right (by omega)
          have hdisk1 : ∀ s, Fresh (bm.set i true) bm2 s → disk1 s = disk2 s := by
            intro s hs2
            rw [e8 s hs2.not_next]
            apply WriteBack_other
            rintro rfl
            have h1 := hs2.2.1
            rw [hfresh.2.2] at h1; cases h1
          have hget : hdr1.dataSectors.get? time = some (i : Int) := by
            rw [e9 time (by omega)]
            simp only [List.get?_eq_getElem?]
            rw [List.getElem?_set_self (by rw [hlen]; simp [NumDirect]; omega)]
          refine ⟨k + 1, by rw [e1]; push_cast; ring, by omega, e3, e4, ?_, hext2.trans e6, ?_,
            ?_, ?_, ?_, ?_⟩
          · rw [huse, hX1, p1]
            rcases le_or_lt left (30 ^ (d + 1)) with hle | hlt
            · rw [min_eq_left hle, sub_self, min_eq_left hX, add_zero]
              exact (min_eq_left (by omega)).symm
            · rw [min_eq_right (le_of_lt hlt)]
              rcases le_or_lt (left - 30 ^ (d + 1)) ((fuel : Int) * 30 ^ (d + 1)) with h1 | h1
              · rw [min_eq_left h1, min_eq_left (by omega)]; ring
              · rw [min_eq_right (le_of_lt h1), min_eq_right (by omega)]; ring
          · rw [e7, p3, hnum, huse, p1, sectorsNeeded_loop d left _ hc.1 hX,
              show use1 - (use + min left (30 ^ (d + 1))) =
                min (left - min left (30 ^ (d + 1))) ((fuel : Int) * 30 ^ (d + 1)) by
                  rw [← p1]; exact e5]
            ring
          · intro s hs
            have hs2 : ¬ Fresh bm2 bm1 s := fun hf => hs (hf.mono hext2 (Extends.refl _))
            rw [e8 s hs2]
            have hne : s ≠ (i : Int) := by rintro rfl; exact hs hfi
            rw [WriteBack_other _ _ _ _ hne]
            exact p4 s (fun hf => hs (hf.mono hext e6))
          · intro j hj
            rw [e9 j (by omega)]
            simp only [List.get?_eq_getElem?]
            rw [List.getElem?_set_ne (by omega)]
          · rw [take_succ_drop _ _ _ _ hget]
            have hupos : 0 < u := by rw [p1]; exact lt_min hc.1 hC
            have hrest := le_min (show 0 ≤ left - u by omega) hX
            refine ⟨by omega, hfi, ?_, ?_⟩
            · have hfetch : FetchFrom disk1 (i : Int) = subHdr := by
                have hni : ¬ Fresh bm2 bm1 (i : Int) := by
                  intro hf
                  have h1 := hf.2.1
                  rw [p2.2 _ hfresh.2.2] at h1; cases h1
                rw [FetchFrom_congr _ disk1 (i : Int) (e8 _ hni)]
                exact FetchFrom_WriteBack_same _ _ _ hsubR
              rw [hfetch, hmin]
              exact Tree.transfer (fun s hs => ⟨hs.mono hext e6, hdisk1 s hs⟩) d _ _ p5
            · rw [hmin]
              have hn : use1 - use - u = use1 - (use + u) := by ring
              rw [hn]
              exact Children.carry
                (fun s hs => ⟨hs.mono hext2 (Extends.refl _), rfl⟩)
                (fun h n ht => Tree.transfer
                  (fun s hs => ⟨hs.mono hext2 (Extends.refl _), rfl⟩) d h n ht) _ _ e10
          · intro x hx
            rcases e11 x hx with h1 | h1
            · rcases List.mem_or_eq_of_mem_set h1 with h2 | h2
              · exact Or.inl h2
              · right
                rw [h2]
                exact hfresh.lt_length
            · right
              rw [← hext2.1] at h1
              exact h1
    · simp only [hc, if_false, Option.some.injEq] at h
      subst h
      have hl0 : left = 0 := by
        by_contra hne
        exact hc ⟨by omega, by omega⟩
      refine ⟨0, by simp, by omega, rfl, hlen, ?_, Extends.refl _, ?_, fun _ _ => rfl,
        fun _ _ => rfl, ?_, fun x hx => Or.inl hx⟩
      · simp only [sub_self, hl0]
        rw [hX1]; exact (min_eq_left (by omega)).symm
      · simp [sectorsNeeded_zero]
      · simp [Children]
theorem min_loop_split (left C X : Int) (hX : 0 ≤ X) :
    min left (X + C) = min left C + min (left - min left C) X := by
  rcases le_or_lt left C with hle | hlt
  · rw [min_eq_left hle, sub_self, min_eq_left hX, add_zero]
    exact min_eq_left (by omega)
  · rw [min_eq_right (le_of_lt hlt)]
    rcases le_or_lt (left - C) X with h1 | h1
    · rw [min_eq_left h1, min_eq_left (by omega)]; ring
    · rw [min_eq_right (le_of_lt h1), min_eq_right (by omega)]; ring

theorem mem_take_get? {α : Type} (l : List α) (k : Nat) (p : α) (h : p ∈ l.take k) :
    ∃ j, j < k ∧ l.get? j = some p := by
  obtain ⟨j, hj, hp⟩ := List.getElem_of_mem h
  have hjk : j < k := by
    have := List.length_take_le k l
    omega
  refine ⟨j, hjk, ?_⟩
  rw [List.getElem_take] at hp
  rw [List.get?_eq_getElem?, ← hp]
  exact List.getElem?_eq_getElem _

/-- Everything a completed run of `MultiLevelAllocate` guarantees (levels 0..3). -/
theorem MultiLevelAllocate_post (d : Nat) : d ≤ 3 → ∀ (bm : Bitmap) (disk : Disk) (r : Int)
    (hdr : FileHeader) (res : AllocResult), 0 ≤ r → (bm.length : Int) < 2147483648 →
    hdr.dataSectors.length = NumDirect → MultiLevelAllocate d bm disk r hdr = some res →
    AllocPost d bm disk r hdr res := by
  induction d with
  | zero =>
    intro _ bm disk r hdr res hr hbm hlen h
    simp only [MultiLevelAllocate] at h
    have hn : (if r > 30 then (30 : Int) else r) = min r 30 := by
      split <;> omega
    rw [hn] at h
    cases hl : leafLoop (min r 30).toNat 0 bm hdr with
    | none => rw [hl] at h; cases h
    | some v =>
      obtain ⟨bm1, hdr1⟩ := v
      rw [hl] at h
      simp only [Option.some.injEq] at h
      subst h
      have hn0 : 0 ≤ min r 30 := le_min hr (by norm_num)
      have hn30 : min r 30 ≤ 30 := min_le_right _ _
      obtain ⟨e1, e2, _, _, e5, _, e7, e8⟩ := leafLoop_spec _ 0 bm hdr bm1 hdr1 hl
        (by rw [hlen]; simp [NumDirect])
      have hfresh : ∀ p ∈ hdr1.dataSectors.take (min r 30).toNat, Fresh bm bm1 p := by
        intro p hp
        obtain ⟨j, hj, hjp⟩ := mem_take_get? _ _ _ hp
        have := e8 j hj
        rw [Nat.zero_add, hjp] at this
        rw [Option.some.inj this.1]
        exact this.2
      refine ⟨by norm_num, e1, ?_, fun _ _ => rfl, ⟨rfl, rfl, hn0, hn30, e5.trans hlen, hfresh⟩, ?_⟩
      · simp only [sectorsNeeded]
        rw [e2, Int.toNat_of_nonneg hn0]
      · intro hR
        refine ⟨⟨by simp only; omega, by simp only; omega⟩, ⟨by simp only; omega, by simp only; omega⟩,
          e5.trans hlen, ?_⟩
        intro x hx
        obtain ⟨j, hj, hjx⟩ := List.getElem_of_mem hx
        have hjx1 : hdr1.dataSectors.get? j = some x := by
          rw [List.get?_eq_getElem?, ← hjx]; exact List.getElem?_eq_getElem _
        rcases Nat.lt_or_ge j (min r 30).toNat with hlt | hge
        · have := e8 j hlt
          rw [Nat.zero_add, hjx1] at this
          have hf := this.2
          rw [← Option.some.inj this.1] at hf
          have := hf.lt_length
          exact ⟨by omega, by omega⟩
        · rw [e7 j (by omega)] at hjx1
          exact hR.2.2.2 x (List.get?_mem hjx1)
  | succ d ih =>
    intro hd bm disk r hdr res hr hbm hlen h
    rw [MultiLevelAllocate_succ] at h
    obtain ⟨k, e1, e2, e3, e4, e5, e6, e7, e8, _, e10, e11⟩ :=
      childLoop_spec d (MultiLevelAllocate d)
        (fun bm disk r res h1 h2 h3 => ih (by omega) bm disk r FileHeader.new res h1 h2 rfl h3)
        (fun bm disk r h1 h2 => MultiLevelAllocate_full d bm disk r FileHeader.new h1 h2)
        30 0 r 0 bm disk hdr res h rfl hr hbm hlen
    obtain ⟨use1, bm1, disk1, hdr1⟩ := res
    simp only [sub_zero, Nat.cast_zero, zero_add, List.drop_zero] at e1 e3 e4 e5 e6 e7 e8 e10 e11
    have hpow : (30 : Int) * 30 ^ (d + 1) = 30 ^ (d + 1 + 1) := by ring
    have huse : use1 = min r (30 ^ (d + 1 + 1)) := by
      rw [e5]; push_cast; rw [hpow]
    have hk : hdr1.numSectors.toNat = k := by rw [e1]; simp
    refine ⟨huse, e6, e7, e8, ⟨e3, by rw [e1]; omega, by rw [e1]; omega, e4, ?_⟩, ?_⟩
    · show Children disk1 (Fresh bm bm1) (Tree disk1 (Fresh bm bm1) d) (30 ^ (d + 1))
        (hdr1.dataSectors.take hdr1.numSectors.toNat) use1
      rw [hk]; exact e10
    · intro hR
      have hcap : (30 : Int) ^ (d + 1 + 1) ≤ 30 ^ 4 :=
        pow_le_pow_right₀ (by norm_num) (by omega)
      have hu0 : 0 ≤ use1 := by rw [huse]; exact le_min hr (le_of_lt (pow30_pos _))
      have hu1 : use1 ≤ 30 ^ (d + 1 + 1) := by rw [huse]; exact min_le_right _ _
      norm_num at hcap
      refine ⟨⟨by show _ ≤ hdr1.numBytes; rw [e3]; omega, by show hdr1.numBytes < _; rw [e3]; omega⟩,
        ⟨by show _ ≤ hdr1.numSectors; rw [e1]; omega, by show hdr1.numSectors < _; rw [e1]; omega⟩,
        e4, ?_⟩
      intro x hx
      rcases e11 x hx with h1 | h1
      · exact hR.2.2.2 x h1
      · exact ⟨by omega, by omega⟩

theorem childLoop_isSome (d : Nat)
    (sub : Bitmap → Disk → Int → FileHeader → Option AllocResult)
    (hsub : ∀ bm disk r res, 0 ≤ r → (bm.length : Int) < 2147483648 →
      sub bm disk r FileHeader.new = some res → AllocPost d bm disk r FileHeader.new res)
    (hsome : ∀ bm disk r, 0 ≤ r → (bm.length : Int) < 2147483648 →
      sectorsNeeded d (min r (30 ^ (d + 1))) ≤ NumClear bm →
      ∃ res, sub bm disk r FileHeader.new = some res)
    (fuel : Nat) :
    ∀ (time : Nat) (left use : Int) (bm : Bitmap) (disk : Disk) (hdr : FileHeader),
      0 ≤ left → (bm.length : Int) < 2147483648 →
      sectorsNeeded (d + 1) (min left ((fuel : Int) * 30 ^ (d + 1))) ≤ NumClear bm →
      ∃ res, childLoop sub fuel time left use bm disk hdr = some res := by
  have hC : (0 : Int) < 30 ^ (d + 1) := pow30_pos _
  induction fuel with
  | zero => intro time left use bm disk hdr _ _ _; exact ⟨_, rfl⟩
  | succ fuel ih =>
    intro time left use bm disk hdr hleft hbm hneed
    rw [childLoop_succ]
    have hX : (0 : Int) ≤ (fuel : Int) * 30 ^ (d + 1) := by positivity
    have hX1 : ((fuel + 1 : Nat) : Int) * 30 ^ (d + 1) = (fuel : Int) * 30 ^ (d + 1) + 30 ^ (d + 1) := by
      push_cast; ring
    by_cases hc : left > 0 ∧ time < 30
    · simp only [hc, and_self, if_true]
      rw [hX1, min_loop_split left _ _ hX, sectorsNeeded_loop d left _ hc.1 hX] at hneed
      have hrest0 : 0 ≤ min (left - min left (30 ^ (d + 1))) ((fuel : Int) * 30 ^ (d + 1)) :=
        le_min (by have := min_le_left left ((30 : Int) ^ (d + 1)); omega) hX
      have hn1 := sectorsNeeded_nonneg (d + 1) _ hrest0
      have hn2 := sectorsNeeded_nonneg d (min left (30 ^ (d + 1))) (le_min hleft (le_of_lt hC))
      obtain ⟨i, he, _, hext, hnum⟩ := FindAndSet_spec bm (by omega)
      rw [he]
      simp only
      have hbm1 : ((bm.set i true).length : Int) < 2147483648 := by simpa using hbm
      obtain ⟨r1, hs⟩ := hsome (bm.set i true) disk left hleft hbm1 (by rw [hnum]; omega)
      obtain ⟨p1, p2, p3, _, _, _⟩ := hsub _ _ _ _ hleft hbm1 hs
      obtain ⟨u, bm2, disk2, subHdr⟩ := r1
      simp only at p1 p2 p3
      rw [hs]
      simp only
      apply ih
      · rw [p1]; have := min_le_left left ((30 : Int) ^ (d + 1)); omega
      · rw [← p2.1]; exact hbm1
      · rw [p3, hnum, p1]; omega
    · simp only [hc, if_false]
      exact ⟨_, rfl⟩

/-- With enough clear sectors for the data and the index nodes, the run
completes (levels 0..3). -/
theorem MultiLevelAllocate_isSome (d : Nat) : d ≤ 3 → ∀ (bm : Bitmap) (disk : Disk) (r : Int)
    (hdr : FileHeader), 0 ≤ r → (bm.length : Int) < 2147483648 →
    sectorsNeeded d (min r (30 ^ (d + 1))) ≤ NumClear bm →
    ∃ res, MultiLevelAllocate d bm disk r hdr = some res := by
  induction d with
  | zero =>
    intro _ bm disk r hdr hr hbm hneed
    simp only [MultiLevelAllocate]
    have hn : (if r > 30 then (30 : Int) else r) = min r 30 := by
      split <;> omega
    rw [hn]
    have hn0 : 0 ≤ min r 30 := le_min hr (by norm_num)
    obtain ⟨v, hv⟩ := leafLoop_isSome (min r 30).toNat 0 bm hdr (by
      rw [Int.toNat_of_nonneg hn0]
      simpa [sectorsNeeded] using hneed)
    rw [hv]
    exact ⟨_, rfl⟩
  | succ d ih =>
    intro hd bm disk r hdr hr hbm hneed
    rw [MultiLevelAllocate_succ]
    apply childLoop_isSome d (MultiLevelAllocate d)
      (fun bm disk r res h1 h2 h3 =>
        MultiLevelAllocate_post d (by omega) bm disk r FileHeader.new res h1 h2 rfl h3)
      (fun bm disk r h1 h2 h3 => ih (by omega) bm disk r FileHeader.new h1 h2 h3)
      30 0 r 0 bm disk hdr hr hbm
    have hpow : ((30 : Nat) : Int) * 30 ^ (d + 1) = 30 ^ (d + 1 + 1) := by push_cast; ring
    rw [hpow]; exact hneed
/-! ## Reading a well-formed tree -/

theorem Children.flatMap_length {disk : Disk} {P : Int → Prop} {T : FileHeader → Int → Prop}
    {C : Int} (f : FileHeader → List Int)
    (hT : ∀ h n, T h n → ((f h).length : Int) = n) :
    ∀ (ptrs : List Int) (n : Int), Children disk P T C ptrs n →
      ((ptrs.flatMap (fun s => f (FetchFrom disk s))).length : Int) = n := by
  intro ptrs
  induction ptrs with
  | nil => intro n h; simp only [Children] at h; simp [h]
  | cons p ps ih =>
    intro n h
    obtain ⟨_, _, h3, h4⟩ := h
    rw [List.flatMap_cons, List.length_append]
    push_cast
    rw [hT _ _ h3, ih _ h4]; ring

theorem Tree.leafSectors_length {disk : Disk} {P : Int → Prop} :
    ∀ (d : Nat) (h : FileHeader) (n : Int), Tree disk P d h n →
      ((leafSectors disk d h).length : Int) = n := by
  intro d
  induction d with
  | zero =>
    intro h n ht
    obtain ⟨h1, _, h3, h4, h5, _⟩ := ht
    simp only [leafSectors, List.length_take, h1, h5, NumDirect]
    omega
  | succ d ih =>
    intro h n ht
    obtain ⟨_, _, _, _, h5⟩ := ht
    exact Children.flatMap_length (leafSectors disk d) ih _ _ h5

theorem FindSector_zero (disk : Disk) (s : Int) (h : FileHeader) :
    FindSector disk s 0 h = readAt h.dataSectors s := rfl

theorem FindSector_succ (disk : Disk) (s : Int) (d : Nat) (hd : d ≤ 2) (h : FileHeader) :
    FindSector disk s (d + 1) h =
      (readAt h.dataSectors (s / 30 ^ (d + 1))).bind
        (fun p => FindSector disk (s % 30 ^ (d + 1)) d (FetchFrom disk p)) := by
  interval_cases d
  · rw [FindSector]; norm_num; cases readAt h.dataSectors (s / 30) <;> rfl
  · rw [FindSector]; norm_num; cases readAt h.dataSectors (s / 900) <;> rfl
  · rw [FindSector]; norm_num; cases readAt h.dataSectors (s / 27000) <;> rfl

theorem get?_of_take {α : Type} (l : List α) (k j : Nat) (p : α)
    (h : (l.take k).get? j = some p) : l.get? j = some p ∧ j < k := by
  rcases Nat.lt_or_ge j k with hlt | hge
  · simp only [List.get?_eq_getElem?] at h ⊢
    rw [List.getElem?_take_of_lt hlt] at h
    exact ⟨h, hlt⟩
  · have : (l.take k).length ≤ j := le_trans (List.length_take_le k l) hge
    rw [List.get?_eq_none.mpr this] at h; cases h

theorem Children.lookup {disk : Disk} {P : Int → Prop} {T : FileHeader → Int → Prop}
    {C : Int} (hC : 0 < C) (F : Int → FileHeader → Option Int) (f : FileHeader → List Int)
    (hlen : ∀ h n, T h n → ((f h).length : Int) = n)
    (hF : ∀ h n s, T h n → 0 ≤ s → s < n → F s h = (f h).get? s.toNat) :
    ∀ (ptrs : List Int) (n s : Int), Children disk P T C ptrs n → 0 ≤ s → s < n →
      ∃ p, ptrs.get? (s / C).toNat = some p ∧
        F (s % C) (FetchFrom disk p) =
          (ptrs.flatMap (fun q => f (FetchFrom disk q))).get? s.toNat := by
  intro ptrs
  induction ptrs with
  | nil =>
    intro n s h h0 h1
    simp only [Children] at h
    omega
  | cons p ps ih =>
    intro n s h h0 h1
    obtain ⟨_, _, h3, h4⟩ := h
    have hl := hlen _ _ h3
    by_cases hs : s < min n C
    · have hsC : s < C := lt_of_lt_of_le hs (min_le_right _ _)
      refine ⟨p, ?_, ?_⟩
      · rw [Int.ediv_eq_zero_of_lt h0 hsC]; rfl
      · rw [Int.emod_eq_of_lt h0 hsC, hF _ _ s h3 h0 hs, List.flatMap_cons]
        simp only [List.get?_eq_getElem?]
        rw [List.getElem?_append_left (by omega)]
    · have hmin : min n C = C := by
        rcases le_or_lt n C with hle | hlt
        · rw [min_eq_left hle] at hs; omega
        · exact min_eq_right (le_of_lt hlt)
      rw [hmin] at hs h4 hl
      have hCs : C ≤ s := by omega
      obtain ⟨q, hq1, hq2⟩ := ih (n - C) (s - C) h4 (by omega) (by omega)
      have hdiv : s / C = (s - C) / C + 1 := by
        have := Int.add_mul_ediv_right (s - C) 1 (ne_of_gt hC)
        rw [one_mul, sub_add_cancel] at this
        exact this
      have hmod : s % C = (s - C) % C := by
        have := @Int.add_mul_emod_self (s - C) 1 C
        rw [one_mul, sub_add_cancel] at this
        exact this
      have hq0 : 0 ≤ (s - C) / C := Int.ediv_nonneg (by omega) (le_of_lt hC)
      refine ⟨q, ?_, ?_⟩
      · rw [hdiv, show ((s - C) / C + 1).toNat = ((s - C) / C).toNat + 1 by omega]
        exact hq1
      · rw [hmod, hq2, List.flatMap_cons]
        simp only [List.get?_eq_getElem?]
        rw [List.getElem?_append_right (by omega)]
        congr 1
        omega

/-- On a well-formed tree `FindSector` at sector index `s` returns entry `s` of
the in-order list of leaf data sectors. -/
theorem Tree.FindSector_eq {disk : Disk} {P : Int → Prop} :
    ∀ (d : Nat), d ≤ 3 → ∀ (h : FileHeader) (n s : Int), Tree disk P d h n → 0 ≤ s → s < n →
      FindSector disk s d h = (leafSectors disk d h).get? s.toNat := by
  intro d
  induction d with
  | zero =>
    intro _ h n s ht h0 h1
    obtain ⟨e1, _, _, _, _, _⟩ := ht
    rw [FindSector_zero]
    simp only [readAt, h0, if_true, leafSectors, List.get?_eq_getElem?]
    rw [List.getElem?_take_of_lt (by omega)]
  | succ d ih =>
    intro hd h n s ht h0 h1
    obtain ⟨_, _, _, _, h5⟩ := ht
    rw [FindSector_succ disk s d (by omega)]
    obtain ⟨p, hp1, hp2⟩ := Children.lookup (pow30_pos (d + 1))
      (fun s h => FindSector disk s d h) (leafSectors disk d)
      (Tree.leafSectors_length d) (fun h n s ht h0 h1 => ih (by omega) h n s ht h0 h1)
      _ n s h5 h0 h1
    have hq0 : 0 ≤ s / 30 ^ (d + 1) := Int.ediv_nonneg h0 (le_of_lt (pow30_pos _))
    simp only [readAt, hq0, if_true, (get?_of_take _ _ _ _ hp1).1, Option.some_bind]
    exact hp2

theorem divRoundUp_pos (x c : Int) (hx : 0 < x) (hc : 0 < c) : 0 < divRoundUp x c := by
  rcases le_or_lt x c with hle | hlt
  · rw [divRoundUp_pos_le x c hx hle]; norm_num
  · have := divRoundUp_self_add (x - c) c hc
    rw [add_sub_cancel] at this
    have h2 := divRoundUp_nonneg (x - c) c (by omega) hc
    omega

/-- The children of an interior node: their number, and what each covers. -/
theorem Children.shape {disk : Disk} {P : Int → Prop} {T : FileHeader → Int → Prop}
    {C : Int} (hC : 0 < C) :
    ∀ (ptrs : List Int) (n : Int), Children disk P T C ptrs n →
      (ptrs.length : Int) = divRoundUp n C ∧
      ∀ (i : Nat) (p : Int), ptrs.get? i = some p →
        T (FetchFrom disk p)
          (if (i : Int) + 1 < (ptrs.length : Int) then C else n - C * ((ptrs.length : Int) - 1)) := by
  intro ptrs
  induction ptrs with
  | nil =>
    intro n h
    simp only [Children] at h
    subst h
    refine ⟨by simp [divRoundUp_zero], ?_⟩
    intro i p hp; simp at hp
  | cons p ps ih =>
    intro n h
    obtain ⟨h1, _, h3, h4⟩ := h
    obtain ⟨e1, e2⟩ := ih _ h4
    rcases le_or_lt n C with hle | hlt
    · rw [min_eq_left hle] at h3 h4 e1 e2
      rw [sub_self, divRoundUp_zero] at e1
      have hps : ps = [] := List.length_eq_zero.mp (by omega)
      subst hps
      refine ⟨by rw [divRoundUp_pos_le n C h1 hle]; simp, ?_⟩
      intro i q hq
      cases i with
      | zero =>
        simp only [List.get?_cons_zero, Option.some.injEq] at hq
        subst hq
        simpa using h3
      | succ i => simp at hq
    · rw [min_eq_right (le_of_lt hlt)] at h3 h4 e1 e2
      have hd := divRoundUp_self_add (n - C) C hC
      rw [add_sub_cancel] at hd
      have hpos := divRoundUp_pos (n - C) C (by omega) hC
      refine ⟨by rw [List.length_cons]; push_cast; omega, ?_⟩
      intro i q hq
      cases i with
      | zero =>
        simp only [List.get?_cons_zero, Option.some.injEq] at hq
        subst hq
        have : ((0 : Nat) : Int) + 1 < (((p :: ps).length : Nat) : Int) := by
          rw [List.length_cons]; push_cast; omega
        rw [if_pos this]
        exact h3
      | succ i =>
        simp only [List.get?_cons_succ] at hq
        have := e2 i q hq
        rw [List.length_cons]
        push_cast
        by_cases hi : (i : Int) + 1 < (ps.length : Int)
        · rw [if_pos hi] at this
          rw [if_pos (by omega)]
          exact this
        · rw [if_neg hi] at this
          rw [if_neg (by omega)]
          have he : n - C * ((ps.length : Int) + 1 - 1) = n - C - C * ((ps.length : Int) - 1) := by
            ring
          rw [he]; exact this

/-- The level `ByteToSector` recomputes from the `numBytes` that `Allocate`
leaves is the level `Allocate` selected. -/
theorem ByteToSector_eq (disk : Disk) (hdr : FileHeader) (s fileSize : Int)
    (h : hdr.numBytes =
      min (divRoundUp fileSize 128) (30 ^ (allocLevel fileSize + 1)) * 128) :
    ByteToSector disk hdr s = FindSector disk s (allocLevel fileSize) hdr := by
  unfold ByteToSector MaxFileSize1 MaxFileSize2 MaxFileSize3
  rcases allocLevel_spec fileSize with hl | hl | hl | hl <;> rw [hl.1] at h ⊢ <;>
    norm_num at h <;> split_ifs <;> first | rfl | (exfalso; omega)
/-! ## `Allocate` as a whole -/

theorem Allocate_post (freeMap : Bitmap) (disk : Disk) (this : FileHeader) (fileSize : Int)
    (bm1 : Bitmap) (disk1 : Disk) (hdr1 : FileHeader) (h0 : 0 ≤ fileSize)
    (hbm : (freeMap.length : Int) < 2147483648) (hlen : this.dataSectors.length = NumDirect)
    (h : Allocate freeMap disk this fileSize = some (true, bm1, disk1, hdr1)) :
    divRoundUp fileSize 128 ≤ NumClear freeMap ∧
    AllocPost (allocLevel fileSize) freeMap disk (divRoundUp fileSize 128)
      { this with numBytes := fileSize }
      (min (divRoundUp fileSize 128) (30 ^ (allocLevel fileSize + 1)), bm1, disk1, hdr1) := by
  rw [Allocate_eq_level] at h
  have hT := divRoundUp_128 fileSize
  by_cases hc : NumClear freeMap < divRoundUp fileSize SectorSize
  · simp [hc] at h
  · simp only [hc, if_false] at h
    cases hm : MultiLevelAllocate (allocLevel fileSize) freeMap disk
        (divRoundUp fileSize SectorSize) { this with numBytes := fileSize } with
    | none => rw [hm] at h; cases h
    | some v =>
      obtain ⟨use, b, dk, hd⟩ := v
      rw [hm] at h
      simp only [Option.map_some', Option.some.injEq, Prod.mk.injEq, true_and] at h
      obtain ⟨rfl, rfl, rfl⟩ := h
      have post := MultiLevelAllocate_post (allocLevel fileSize) (allocLevel_le _) freeMap disk
        (divRoundUp fileSize 128) { this with numBytes := fileSize } _ (by omega) hbm hlen hm
      have huse : use = min (divRoundUp fileSize 128) (30 ^ (allocLevel fileSize + 1)) := post.1
      subst huse
      exact ⟨not_lt.mp hc, post⟩

theorem Allocate_isSome (freeMap : Bitmap) (disk : Disk) (this : FileHeader) (fileSize : Int)
    (h0 : 0 ≤ fileSize) (hbm : (freeMap.length : Int) < 2147483648)
    (hT : divRoundUp fileSize 128 ≤ NumClear freeMap)
    (hfree : sectorsNeeded (allocLevel fileSize)
      (min (divRoundUp fileSize 128) (30 ^ (allocLevel fileSize + 1))) ≤ NumClear freeMap) :
    ∃ bm1 disk1 hdr1, Allocate freeMap disk this fileSize = some (true, bm1, disk1, hdr1) := by
  rw [Allocate_eq_level]
  have hT1 := divRoundUp_128 fileSize
  have hc : ¬ NumClear freeMap < divRoundUp fileSize SectorSize := not_lt.mpr hT
  simp only [hc, if_false]
  obtain ⟨res, hres⟩ := MultiLevelAllocate_isSome (allocLevel fileSize) (allocLevel_le _) freeMap
    disk (divRoundUp fileSize 128) { this with numBytes := fileSize } (by omega) hbm hfree
  obtain ⟨use, b, dk, hd⟩ := res
  exact ⟨b, dk, hd, by rw [show SectorSize = 128 from rfl, hres]; rfl⟩
theorem divRoundUp_eq_ceil_general (n c : Int) (hc : 0 < c) :
    divRoundUp n c = ⌈(n : ℚ) / (c : ℚ)⌉ := by
  symm
  rw [Int.ceil_eq_iff]
  have hcq : (0 : ℚ) < (c : ℚ) := by exact_mod_cast hc
  have hdm := Int.emod_add_ediv n c
  have hm0 := Int.emod_nonneg n (ne_of_gt hc)
  have hm1 := Int.emod_lt_of_pos n hc
  have hn : (n : ℚ) = (n % c : Int) + (c : ℚ) * ((n / c : Int) : ℚ) := by
    rw [← Int.cast_mul, ← Int.cast_add, hdm]
  have hm0q : (0 : ℚ) ≤ ((n % c : Int) : ℚ) := by exact_mod_cast hm0
  have hm1q : ((n % c : Int) : ℚ) < (c : ℚ) := by exact_mod_cast hm1
  rw [lt_div_iff₀ hcq, div_le_iff₀ hcq]
  unfold divRoundUp
  by_cases hpos : n % c > 0
  · have hposq : (0 : ℚ) < ((n % c : Int) : ℚ) := by exact_mod_cast hpos
    rw [if_pos hpos]
    push_cast
    constructor <;> nlinarith
  · have hz : n % c = 0 := by omega
    rw [if_neg hpos]
    rw [hz] at hn
    push_cast at hn ⊢
    constructor <;> nlinarith

theorem Tree.numBytes_eq {disk : Disk} {P : Int → Prop} (d : Nat) (h : FileHeader) (n : Int)
    (ht : Tree disk P d h n) : h.numBytes = n * 128 := by
  cases d with
  | zero => exact ht.2.1
  | succ d => exact ht.1

/-- A request for `30^4 + 1` sectors on an all-clear bitmap of `n` bits. -/
theorem Allocate_beyond_capacity (n : Nat) (hn : 837930 ≤ n) (hn1 : n < 2147483648) :
    ∃ bm1 disk1 hdr1,
      Allocate (List.replicate n false) zeroDisk FileHeader.new 103680001
        = some (true, bm1, disk1, hdr1) ∧
      ((leafSectors disk1 (allocLevel 103680001) hdr1).length : Int) = 810000 ∧
      ⌈((103680001 : Int) : ℚ) / 128⌉ = 810001 := by
  have hT : divRoundUp 103680001 128 = 810001 := by decide
  have hL : allocLevel 103680001 = 3 := by decide
  have hN : NumClear (List.replicate n false) = n := by
    rw [NumClear, List.count_replicate_self]
  have hlen : (((List.replicate n false : Bitmap).length : Nat) : Int) < 2147483648 := by
    rw [List.length_replicate]; omega
  have hneed : sectorsNeeded 3 (min 810001 (30 ^ (3 + 1))) = 837930 := by decide
  obtain ⟨bm1, disk1, hdr1, h⟩ := Allocate_isSome (List.replicate n false) zeroDisk
    FileHeader.new 103680001 (by decide) hlen (by rw [hT, hN]; omega)
    (by rw [hL, hT, hN, hneed]; omega)
  have post := (Allocate_post _ zeroDisk FileHeader.new 103680001 _ _ _ (by decide) hlen rfl h).2
  have hlenL := Tree.leafSectors_length _ _ _ post.2.2.2.2.1
  simp only at hlenL
  rw [hT, hL] at hlenL
  refine ⟨bm1, disk1, hdr1, h, ?_, ?_⟩
  · rw [hL, hlenL]; decide
  · rw [← divRoundUp_eq_ceil]; exact hT
/-! ## Runs with a record erase to plain runs -/

theorem leafLoopTr_erase (k : Nat) : ∀ (i : Nat) (bm : Bitmap) (hdr : FileHeader),
    (leafLoopTr k i bm hdr).map (fun v => (v.1, v.2.1)) = leafLoop k i bm hdr := by
  induction k with
  | zero => intro i bm hdr; rfl
  | succ k ih =>
    intro i bm hdr
    simp only [leafLoopTr, leafLoop]
    by_cases hs : (FindAndSet bm).1 ≥ 0
    · simp only [hs, if_true, Option.map_map]
      rw [← ih]
      rfl
    · simp only [hs, if_false, Option.map_none']

theorem childLoopTr_succ (sub : Bitmap → Disk → Int → FileHeader → Option (AllocResult × Trace))
    (fuel time : Nat) (left use : Int) (bm : Bitmap) (disk : Disk) (hdr : FileHeader) :
    childLoopTr sub (fuel + 1) time left use bm disk hdr =
      if left > 0 ∧ time < 30 then
        match sub (FindAndSet bm).2 disk left FileHeader.new with
        | none => none
        | some ((have_use, freeMap2, disk2, subHdr), tr1) =>
          (childLoopTr sub fuel (time + 1) (left - have_use) (use + have_use) freeMap2
            (WriteBack disk2 (FindAndSet bm).1 subHdr)
            { hdr with dataSectors := hdr.dataSectors.set time (FindAndSet bm).1 }).map
            (fun v => (v.1, ((false, (FindAndSet bm).1) :: (tr1.1 ++ v.2.1),
              tr1.2 ++ ((FindAndSet bm).1, subHdr) :: v.2.2)))
      else some ((use, bm, disk, { hdr with numSectors := time, numBytes := use * 128 }),
        ([], [])) := rfl

theorem MultiLevelAllocateTr_succ (d : Nat) (bm : Bitmap) (disk : Disk) (r : Int)
    (hdr : FileHeader) :
    MultiLevelAllocateTr (d + 1) bm disk r hdr =
      childLoopTr (MultiLevelAllocateTr d) 30 0 r 0 bm disk hdr := rfl

theorem childLoopTr_erase
    (subTr : Bitmap → Disk → Int → FileHeader → Option (AllocResult × Trace))
    (sub : Bitmap → Disk → Int → FileHeader → Option AllocResult)
    (hsub : ∀ bm disk r hdr, (subTr bm disk r hdr).map Prod.fst = sub bm disk r hdr)
    (fuel : Nat) :
    ∀ (time : Nat) (left use : Int) (bm : Bitmap) (disk : Disk) (hdr : FileHeader),
      (childLoopTr subTr fuel time left use bm disk hdr).map Prod.fst =
        childLoop sub fuel time left use bm disk hdr := by
  induction fuel with
  | zero => intro time left use bm disk hdr; rfl
  | succ fuel ih =>
    intro time left use bm disk hdr
    rw [childLoopTr_succ, childLoop_succ]
    by_cases hc : left > 0 ∧ time < 30
    · simp only [hc, and_self, if_true]
      rw [← hsub]
      cases subTr (FindAndSet bm).2 disk left FileHeader.new with
      | none => rfl
      | some v =>
        obtain ⟨⟨u, bm2, disk2, subHdr⟩, tr1⟩ := v
        simp only [Option.map_some', Option.map_map]
        rw [← ih]
        rfl
    · simp only [hc, if_false, Option.map_some']

theorem MultiLevelAllocateTr_erase (d : Nat) : ∀ (bm : Bitmap) (disk : Disk) (r : Int)
    (hdr : FileHeader),
    (MultiLevelAllocateTr d bm disk r hdr).map Prod.fst = MultiLevelAllocate d bm disk r hdr := by
  induction d with
  | zero =>
    intro bm disk r hdr
    simp only [MultiLevelAllocateTr, MultiLevelAllocate]
    rw [← leafLoopTr_erase]
    cases leafLoopTr (if r > 30 then (30 : Int) else r).toNat 0 bm hdr with
    | none => rfl
    | some v => rfl
  | succ d ih =>
    intro bm disk r hdr
    rw [MultiLevelAllocateTr_succ, MultiLevelAllocate_succ]
    exact childLoopTr_erase _ _ ih 30 0 r 0 bm disk hdr

theorem AllocateTr_erase (freeMap : Bitmap) (disk : Disk) (this : FileHeader) (fileSize : Int) :
    (AllocateTr freeMap disk this fileSize).map Prod.fst = Allocate freeMap disk this fileSize := by
  unfold AllocateTr Allocate
  by_cases hc : NumClear freeMap < divRoundUp fileSize SectorSize
  · simp only [hc, if_true, Option.map_some']
  · simp only [hc, if_false]
    simp only [← MultiLevelAllocateTr_erase]
    split_ifs
    all_goals
      cases MultiLevelAllocateTr _ freeMap disk _ _ with
      | none => rfl
      | some v => rfl

theorem AllocateTr_eq_level (freeMap : Bitmap) (disk : Disk) (this : FileHeader)
    (fileSize : Int) :
    AllocateTr freeMap disk this fileSize =
      if NumClear freeMap < divRoundUp fileSize SectorSize then
        some ((false, freeMap, disk, { this with numBytes := fileSize }), ([], []))
      else
        Option.map (fun r => ((true, r.1.2), r.2))
          (MultiLevelAllocateTr (allocLevel fileSize) freeMap disk
            (divRoundUp fileSize SectorSize) { this with numBytes := fileSize }) := by
  unfold AllocateTr allocLevel
  by_cases hc : NumClear freeMap < divRoundUp fileSize SectorSize
  · simp [hc]
  · simp only [hc, if_false]
    split_ifs
    all_goals
      cases MultiLevelAllocateTr _ freeMap disk _ _ with
      | none => rfl
      | some v => rfl

theorem FindSectorTr_erase (disk : Disk) (d : Nat) : ∀ (s : Int) (h : FileHeader),
    (FindSectorTr disk s d h).map Prod.fst = FindSector disk s d h := by
  induction d with
  | zero =>
    intro s h
    simp only [FindSectorTr, FindSector, Option.map_map]
    cases readAt h.dataSectors s <;> rfl
  | succ d ih =>
    intro s h
    simp only [FindSectorTr, FindSector]
    split_ifs
    · cases readAt h.dataSectors (s / 27000) with
      | none => rfl
      | some p => simp only [Option.map_map]; rw [← ih]; rfl
    · cases readAt h.dataSectors (s / 900) with
      | none => rfl
      | some p => simp only [Option.map_map]; rw [← ih]; rfl
    · cases readAt h.dataSectors (s / 30) with
      | none => rfl
      | some p => simp only [Option.map_map]; rw [← ih]; rfl
    · simp only [Option.map_map]
      cases readAt h.dataSectors s <;> rfl

theorem ByteToSectorTr_erase (disk : Disk) (this : FileHeader) (s : Int) :
    (ByteToSectorTr disk this s).map Prod.fst = ByteToSector disk this s := by
  unfold ByteToSectorTr ByteToSector
  split_ifs <;> exact FindSectorTr_erase disk _ s this

/-- The number of sectors `FindSector` fetches is the level it is called at. -/
theorem FindSectorTr_reads (disk : Disk) (d : Nat) (hd : d ≤ 3) :
    ∀ (s : Int) (h : FileHeader) (p : Int) (reads : List Int),
      FindSectorTr disk s d h = some (p, reads) → reads.length = d := by
  induction d with
  | zero =>
    intro s h p reads hr
    simp only [FindSectorTr] at hr
    cases hq : readAt h.dataSectors s with
    | none => rw [hq] at hr; cases hr
    | some q =>
      rw [hq] at hr
      simp only [Option.map_some', Option.some.injEq, Prod.mk.injEq] at hr
      rw [← hr.2]; rfl
  | succ d ih =>
    intro s h p reads hr
    have step : ∀ (c : Int), (match readAt h.dataSectors (s / c) with
        | none => none
        | some q => (FindSectorTr disk (s % c) d (FetchFrom disk q)).map
            (fun v => (v.1, q :: v.2))) = some (p, reads) → reads.length = d + 1 := by
      intro c hc
      cases hq : readAt h.dataSectors (s / c) with
      | none => rw [hq] at hc; cases hc
      | some q =>
        rw [hq] at hc
        simp only at hc
        cases hv : FindSectorTr disk (s % c) d (FetchFrom disk q) with
        | none => rw [hv] at hc; cases hc
        | some v =>
          rw [hv] at hc
          simp only [Option.map_some', Option.some.injEq, Prod.mk.injEq] at hc
          rw [← hc.2, List.length_cons, ih (by omega) _ _ v.1 v.2 hv]
    simp only [FindSectorTr] at hr
    split_ifs at hr with h3 h2 h1
    · exact step 27000 hr
    · exact step 900 hr
    · exact step 30 hr
    · omega
/-! ## What a run consumes, whatever the bitmap -/

theorem childLoop_use (C : Int) (hC : 0 < C)
    (sub : Bitmap → Disk → Int → FileHeader → Option AllocResult)
    (hsub : ∀ bm disk r hdr res, 0 ≤ r → sub bm disk r hdr = some res → res.1 = min r C)
    (fuel : Nat) :
    ∀ (time : Nat) (left use : Int) (bm : Bitmap) (disk : Disk) (hdr : FileHeader)
      (res : AllocResult),
      childLoop sub fuel time left use bm disk hdr = some res → time + fuel = 30 → 0 ≤ left →
      res.1 - use = min left ((fuel : Int) * C) ∧ res.2.2.2.numBytes = res.1 * 128 := by
  induction fuel with
  | zero =>
    intro time left use bm disk hdr res h _ hleft
    simp only [childLoop, Option.some.injEq] at h
    subst h
    refine ⟨?_, rfl⟩
    simp only [sub_self, Nat.cast_zero, zero_mul]; omega
  | succ fuel ih =>
    intro time left use bm disk hdr res h htime hleft
    rw [childLoop_succ] at h
    have hX : (0 : Int) ≤ (fuel : Int) * C := by positivity
    have hX1 : ((fuel + 1 : Nat) : Int) * C = (fuel : Int) * C + C := by push_cast; ring
    by_cases hc : left > 0 ∧ time < 30
    · simp only [hc, and_self, if_true] at h
      cases hs : sub (FindAndSet bm).2 disk left FileHeader.new with
      | none => rw [hs] at h; cases h
      | some r1 =>
        obtain ⟨u, bm2, disk2, subHdr⟩ := r1
        rw [hs] at h
        simp only at h
        have hu : u = min left C := hsub _ _ _ _ _ hleft hs
        have hul : u ≤ left := by rw [hu]; exact min_le_left _ _
        obtain ⟨e1, e2⟩ := ih _ _ _ _ _ _ res h (by omega) (by omega)
        refine ⟨?_, e2⟩
        rw [hX1, min_loop_split left C _ hX, ← hu]
        omega
    · simp only [hc, if_false, Option.some.injEq] at h
      subst h
      have hl0 : left = 0 := by
        by_contra hne
        exact hc ⟨by omega, by omega⟩
      refine ⟨?_, rfl⟩
      simp only [sub_self, hl0]
      rw [hX1]; exact (min_eq_left (by omega)).symm

/-- A completed run at level `d` asked for `r ≥ 0` sectors has consumed
`min r 30^(d+1)` and recorded as many sectors of bytes. -/
theorem MultiLevelAllocate_use (d : Nat) : ∀ (bm : Bitmap) (disk : Disk) (r : Int)
    (hdr : FileHeader) (res : AllocResult), MultiLevelAllocate d bm disk r hdr = some res →
    0 ≤ r → res.1 = min r (30 ^ (d + 1)) ∧ res.2.2.2.numBytes = res.1 * 128 := by
  induction d with
  | zero =>
    intro bm disk r hdr res h hr
    simp only [MultiLevelAllocate] at h
    have hn : (if r > 30 then (30 : Int) else r) = min r 30 := by
      split <;> omega
    rw [hn] at h
    cases hl : leafLoop (min r 30).toNat 0 bm hdr with
    | none => rw [hl] at h; cases h
    | some v =>
      rw [hl] at h
      simp only [Option.some.injEq] at h
      subst h
      exact ⟨by norm_num, rfl⟩
  | succ d ih =>
    intro bm disk r hdr res h hr
    rw [MultiLevelAllocate_succ] at h
    obtain ⟨e1, e2⟩ := childLoop_use (30 ^ (d + 1)) (pow30_pos _) (MultiLevelAllocate d)
      (fun bm disk r hdr res h1 h2 => (ih bm disk r hdr res h2 h1).1) 30 0 r 0 bm disk hdr res h
      rfl hr
    refine ⟨?_, e2⟩
    rw [sub_zero] at e1
    rw [e1]; push_cast; ring_nf

theorem Allocate_use (freeMap : Bitmap) (disk : Disk) (this : FileHeader) (fileSize : Int)
    (bm1 : Bitmap) (disk1 : Disk) (hdr1 : FileHeader) (h0 : 0 ≤ fileSize)
    (h : Allocate freeMap disk this fileSize = some (true, bm1, disk1, hdr1)) :
    hdr1.numBytes = min (divRoundUp fileSize 128) (30 ^ (allocLevel fileSize + 1)) * 128 := by
  rw [Allocate_eq_level] at h
  have hT := divRoundUp_128 fileSize
  by_cases hc : NumClear freeMap < divRoundUp fileSize SectorSize
  · simp [hc] at h
  · simp only [hc, if_false] at h
    cases hm : MultiLevelAllocate (allocLevel fileSize) freeMap disk
        (divRoundUp fileSize SectorSize) { this with numBytes := fileSize } with
    | none => rw [hm] at h; cases h
    | some v =>
      obtain ⟨use, b, dk, hd⟩ := v
      rw [hm] at h
      simp only [Option.map_some', Option.some.injEq, Prod.mk.injEq, true_and] at h
      obtain ⟨rfl, rfl, rfl⟩ := h
      obtain ⟨e1, e2⟩ := MultiLevelAllocate_use _ _ _ (divRoundUp fileSize 128) _ _ hm (by omega)
      simp only at e1 e2
      rw [e2, e1]

theorem ByteToSector_eq_allocLevel (disk : Disk) (this : FileHeader) (s : Int) :
    ByteToSector disk this s = FindSector disk s (allocLevel this.numBytes) this := by
  unfold ByteToSector allocLevel
  split_ifs <;> rfl

theorem ByteToSectorTr_eq_allocLevel (disk : Disk) (this : FileHeader) (s : Int) :
    ByteToSectorTr disk this s = FindSectorTr disk s (allocLevel this.numBytes) this := by
  unfold ByteToSectorTr allocLevel
  split_ifs <;> rfl

theorem allocLevel_numBytes (nb fileSize : Int)
    (h : nb = min (divRoundUp fileSize 128) (30 ^ (allocLevel fileSize + 1)) * 128) :
    allocLevel nb = allocLevel fileSize := by
  rcases allocLevel_spec fileSize with hl | hl | hl | hl <;> rw [hl.1] at h ⊢ <;>
    norm_num at h <;> unfold allocLevel MaxFileSize1 MaxFileSize2 MaxFileSize3 <;>
    split_ifs <;> first | rfl | (exfalso; omega)

/-! ## Well-formedness and sector counts -/

theorem Children.sum_numBytes {disk : Disk} {P : Int → Prop} {T : FileHeader → Int → Prop}
    {C : Int} (hT : ∀ h m, T h m → h.numBytes = m * 128) :
    ∀ (ptrs : List Int) (n : Int), Children disk P T C ptrs n →
      (ptrs.map (fun p => (FetchFrom disk p).numBytes)).sum = n * 128 := by
  intro ptrs
  induction ptrs with
  | nil => intro n h; simp only [Children] at h; simp [h]
  | cons p ps ih =>
    intro n h
    obtain ⟨_, _, h3, h4⟩ := h
    rw [List.map_cons, List.sum_cons, hT _ _ h3, ih _ h4]; ring

theorem Children.forall_child {disk : Disk} {P : Int → Prop} {T : FileHeader → Int → Prop}
    {C : Int} :
    ∀ (ptrs : List Int) (n : Int), Children disk P T C ptrs n →
      ∀ p ∈ ptrs, P p ∧ ∃ m, T (FetchFrom disk p) m := by
  intro ptrs
  induction ptrs with
  | nil => intro n _ p hp; cases hp
  | cons q qs ih =>
    intro n h p hp
    obtain ⟨_, h2, h3, h4⟩ := h
    rcases List.mem_cons.mp hp with rfl | hp
    · exact ⟨h2, _, h3⟩
    · exact ih _ h4 p hp

theorem Tree.wellFormed {disk : Disk} {P : Int → Prop} :
    ∀ (d : Nat) (h : FileHeader) (n : Int), Tree disk P d h n → WellFormed disk d h := by
  intro d
  induction d with
  | zero =>
    intro h n ht
    obtain ⟨h1, h2, h3, h4, _, _⟩ := ht
    exact ⟨by omega, by omega, by rw [h2, h1]⟩
  | succ d ih =>
    intro h n ht
    obtain ⟨h1, h2, h3, _, h5⟩ := ht
    refine ⟨h2, h3, ?_, ?_⟩
    · rw [h1, Children.sum_numBytes (fun h m ht => Tree.numBytes_eq d h m ht) _ _ h5]
    · intro p hp
      obtain ⟨_, m, hm⟩ := Children.forall_child _ _ h5 p hp
      exact ih _ _ hm

theorem sectorsNeeded_eq_sum (d : Nat) (r : Int) :
    sectorsNeeded d r = r + ∑ j ∈ Finset.Icc 1 d, divRoundUp r (30 ^ j) := by
  induction d with
  | zero => simp [sectorsNeeded]
  | succ d ih =>
    rw [Finset.sum_Icc_succ_top (by omega), sectorsNeeded, ih]; ring
/-- After a successful `Allocate`, `ByteToSector` at an index below the
sectors recorded returns that entry of the in-order list of leaf sectors. -/
theorem Allocate_ByteToSector (freeMap : Bitmap) (disk : Disk) (this : FileHeader)
    (fileSize : Int) (bm1 : Bitmap) (disk1 : Disk) (hdr1 : FileHeader) (h0 : 0 ≤ fileSize)
    (hbm : (freeMap.length : Int) < 2147483648) (hlen : this.dataSectors.length = NumDirect)
    (h : Allocate freeMap disk this fileSize = some (true, bm1, disk1, hdr1))
    (s : Int) (hs0 : 0 ≤ s) (hs1 : s * 128 < hdr1.numBytes) :
    ∃ p, ByteToSector disk1 hdr1 s = some p ∧
      (leafSectors disk1 (allocLevel fileSize) hdr1).get? s.toNat = some p := by
  have post := (Allocate_post _ _ _ _ _ _ _ h0 hbm hlen h).2
  have htree := post.2.2.2.2.1
  simp only at htree
  have hnb := Tree.numBytes_eq _ _ _ htree
  have hlenL := Tree.leafSectors_length _ _ _ htree
  rw [hnb] at hs1
  have hs2 : s < min (divRoundUp fileSize 128) (30 ^ (allocLevel fileSize + 1)) := by omega
  rw [ByteToSector_eq disk1 hdr1 _ fileSize hnb,
    Tree.FindSector_eq _ (allocLevel_le _) _ _ _ htree hs0 hs2]
  have hlt : s.toNat < (leafSectors disk1 (allocLevel fileSize) hdr1).length := by omega
  exact ⟨_, List.get?_eq_get hlt, List.get?_eq_get hlt⟩
/-! ## Successive `FindAndSet` calls and replayed writes -/

theorem findSeq_length (n : Nat) : ∀ bm : Bitmap, (findSeq n bm).length = n := by
  induction n with
  | zero => intro bm; rfl
  | succ n ih => intro bm; simp [findSeq, ih]

theorem findSeq_add (a b : Nat) : ∀ bm : Bitmap,
    findSeq (a + b) bm = findSeq a bm ++ findSeq b (findIter a bm) := by
  induction a with
  | zero => intro bm; simp [findSeq, findIter]
  | succ a ih =>
    intro bm
    rw [show a + 1 + b = (a + b) + 1 by omega]
    simp only [findSeq, findIter, ih, List.cons_append]

theorem findIter_add (a b : Nat) : ∀ bm : Bitmap,
    findIter (a + b) bm = findIter b (findIter a bm) := by
  induction a with
  | zero => intro bm; simp [findIter]
  | succ a ih =>
    intro bm
    rw [show a + 1 + b = (a + b) + 1 by omega]
    simp only [findIter, ih]

/-- Successive `FindAndSet` calls that all succeed return distinct sectors, each
clear before the first call and set after the last; set bits stay set. -/
theorem findSeq_nodup (n : Nat) : ∀ bm : Bitmap, (∀ x ∈ findSeq n bm, 0 ≤ x) →
    (findSeq n bm).Nodup ∧ (∀ x ∈ findSeq n bm, Fresh bm (findIter n bm) x) ∧
      Extends bm (findIter n bm) := by
  induction n with
  | zero =>
    intro bm _
    exact ⟨List.nodup_nil, fun x hx => absurd hx (List.not_mem_nil x), Extends.refl _⟩
  | succ n ih =>
    intro bm hpos
    have hs : 0 ≤ (FindAndSet bm).1 := hpos _ (List.mem_cons_self _ _)
    obtain ⟨i, he, hfresh, hext, _⟩ := FindAndSet_spec bm ((FindAndSet_nonneg_iff bm).mp hs)
    simp only [findSeq, findIter] at hpos ⊢
    rw [he] at hpos ⊢
    simp only at hpos ⊢
    obtain ⟨n1, n2, n3⟩ := ih (bm.set i true) (fun x hx => hpos x (List.mem_cons_of_mem _ hx))
    refine ⟨List.nodup_cons.mpr ⟨fun hmem => hfresh.not_next (n2 _ hmem), n1⟩, ?_, hext.trans n3⟩
    intro x hx
    rcases List.mem_cons.mp hx with rfl | hx
    · exact hfresh.mono (Extends.refl _) n3
    · exact (n2 x hx).mono hext (Extends.refl _)

theorem replayWrites_append (disk : Disk) (ws1 ws2 : List (Int × FileHeader)) :
    replayWrites disk (ws1 ++ ws2) = replayWrites (replayWrites disk ws1) ws2 := by
  simp [replayWrites, List.foldl_append]

theorem replayWrites_cons (disk : Disk) (w : Int × FileHeader) (ws : List (Int × FileHeader)) :
    replayWrites disk (w :: ws) = replayWrites (WriteBack disk w.1 w.2) ws := rfl

theorem replayWrites_other (ws : List (Int × FileHeader)) : ∀ (disk : Disk) (s : Int),
    s ∉ ws.map Prod.fst → replayWrites disk ws s = disk s := by
  induction ws with
  | nil => intro disk s _; rfl
  | cons w ws ih =>
    intro disk s hs
    simp only [List.map_cons, List.mem_cons, not_or] at hs
    rw [replayWrites_cons, ih _ _ hs.2, WriteBack_other _ _ _ _ hs.1]

theorem leafLoopTr_replay (k : Nat) : ∀ (i : Nat) (bm : Bitmap) (hdr : FileHeader)
    (bm1 : Bitmap) (hdr1 : FileHeader) (fs : List (Bool × Int)),
    leafLoopTr k i bm hdr = some (bm1, hdr1, fs) →
    fs.length = k ∧ fs.map Prod.snd = findSeq k bm ∧ bm1 = findIter k bm ∧
      ∀ e ∈ fs, e.1 = true := by
  induction k with
  | zero =>
    intro i bm hdr bm1 hdr1 fs h
    simp only [leafLoopTr, Option.some.injEq, Prod.mk.injEq] at h
    obtain ⟨rfl, rfl, rfl⟩ := h
    exact ⟨rfl, rfl, rfl, fun e he => absurd he (List.not_mem_nil e)⟩
  | succ k ih =>
    intro i bm hdr bm1 hdr1 fs h
    simp only [leafLoopTr] at h
    by_cases hs : (FindAndSet bm).1 ≥ 0
    · simp only [hs, if_true] at h
      cases hv : leafLoopTr k (i + 1) (FindAndSet bm).2
          { hdr with dataSectors := hdr.dataSectors.set i (FindAndSet bm).1 } with
      | none => rw [hv] at h; cases h
      | some v =>
        obtain ⟨b, hd, fs1⟩ := v
        rw [hv] at h
        simp only [Option.map_some', Option.some.injEq, Prod.mk.injEq] at h
        obtain ⟨rfl, rfl, rfl⟩ := h
        obtain ⟨e1, e2, e3, e4⟩ := ih _ _ _ _ _ _ hv
        refine ⟨by simp [e1], by simp [findSeq, e2], by simp [findIter, e3], ?_⟩
        intro e he
        rcases List.mem_cons.mp he with rfl | he
        · rfl
        · exact e4 e he
    · simp only [hs, if_false] at h
      cases h

theorem childLoopTr_replay
    (sub : Bitmap → Disk → Int → FileHeader → Option (AllocResult × Trace))
    (hsub : ∀ bm disk r hdr res tr, sub bm disk r hdr = some (res, tr) →
      ReplayPost bm disk res tr)
    (fuel : Nat) :
    ∀ (time : Nat) (left use : Int) (bm : Bitmap) (disk : Disk) (hdr : FileHeader)
      (res : AllocResult) (tr : Trace),
      childLoopTr sub fuel time left use bm disk hdr = some (res, tr) →
      ReplayPost bm disk res tr := by
  induction fuel with
  | zero =>
    intro time left use bm disk hdr res tr h
    simp only [childLoopTr, Option.some.injEq, Prod.mk.injEq] at h
    obtain ⟨rfl, rfl⟩ := h
    exact ⟨rfl, rfl, rfl⟩
  | succ fuel ih =>
    intro time left use bm disk hdr res tr h
    rw [childLoopTr_succ] at h
    by_cases hc : left > 0 ∧ time < 30
    · simp only [hc, and_self, if_true] at h
      cases hs : sub (FindAndSet bm).2 disk left FileHeader.new with
      | none => rw [hs] at h; cases h
      | some r1 =>
        obtain ⟨⟨u, bm2, disk2, subHdr⟩, tr1⟩ := r1
        rw [hs] at h
        simp only at h
        obtain ⟨p1, p2, p3⟩ := hsub _ _ _ _ _ _ hs
        simp only at p1 p2 p3
        cases hv : childLoopTr sub fuel (time + 1) (left - u) (use + u) bm2
            (WriteBack disk2 (FindAndSet bm).1 subHdr)
            { hdr with dataSectors := hdr.dataSectors.set time (FindAndSet bm).1 } with
        | none => rw [hv] at h; cases h
        | some v =>
          obtain ⟨res1, tr2⟩ := v
          rw [hv] at h
          simp only [Option.map_some', Option.some.injEq, Prod.mk.injEq] at h
          obtain ⟨rfl, rfl⟩ := h
          obtain ⟨q1, q2, q3⟩ := ih _ _ _ _ _ _ _ _ hv
          refine ⟨?_, ?_, ?_⟩
          · simp only [List.map_cons, List.map_append, List.length_cons, List.length_append]
            rw [show tr1.1.length + tr2.1.length + 1 = (tr1.1.length + tr2.1.length) + 1 by rfl]
            simp only [findSeq]
            rw [findSeq_add, p1, q1, p2]
          · simp only [List.length_cons, List.length_append, findIter]
            rw [findIter_add, q2, p2]
          · show res1.2.2.1 = replayWrites disk (tr1.2 ++ ((FindAndSet bm).1, subHdr) :: tr2.2)
            rw [replayWrites_append, replayWrites_cons, q3, p3]
    · simp only [hc, if_false, Option.some.injEq, Prod.mk.injEq] at h
      obtain ⟨rfl, rfl⟩ := h
      exact ⟨rfl, rfl, rfl⟩

/-- The record of a run replays to its bitmap and disk. -/
theorem MultiLevelAllocateTr_replay (d : Nat) : ∀ (bm : Bitmap) (disk : Disk) (r : Int)
    (hdr : FileHeader) (res : AllocResult) (tr : Trace),
    MultiLevelAllocateTr d bm disk r hdr = some (res, tr) → ReplayPost bm disk res tr := by
  induction d with
  | zero =>
    intro bm disk r hdr res tr h
    simp only [MultiLevelAllocateTr] at h
    cases hl : leafLoopTr (if r > 30 then (30 : Int) else r).toNat 0 bm hdr with
    | none => rw [hl] at h; cases h
    | some v =>
      obtain ⟨bm1, hdr1, fs⟩ := v
      rw [hl] at h
      simp only [Option.some.injEq, Prod.mk.injEq] at h
      obtain ⟨rfl, rfl⟩ := h
      obtain ⟨e1, e2, e3, _⟩ := leafLoopTr_replay _ _ _ _ _ _ _ hl
      exact ⟨by simp only; rw [e1]; exact e2, by simp only; rw [e1]; exact e3, rfl⟩
  | succ d ih =>
    intro bm disk r hdr res tr h
    rw [MultiLevelAllocateTr_succ] at h
    exact childLoopTr_replay _ ih 30 0 r 0 bm disk hdr res tr h
/-! ## The record of a run and the tree it built -/

theorem Children.flatMap_events_P {disk : Disk} {P : Int → Prop} {T : FileHeader → Int → Prop}
    {C : Int} (f : FileHeader → List (Bool × Int))
    (hT : ∀ h m, T h m → ∀ e ∈ f h, P e.2) :
    ∀ (ptrs : List Int) (n : Int), Children disk P T C ptrs n →
      ∀ e ∈ ptrs.flatMap (fun p => (false, p) :: f (FetchFrom disk p)), P e.2 := by
  intro ptrs
  induction ptrs with
  | nil => intro n _ e he; simp at he
  | cons p ps ih =>
    intro n h e he
    obtain ⟨_, h2, h3, h4⟩ := h
    rw [List.flatMap_cons] at he
    rcases List.mem_append.mp he with he | he
    · rcases List.mem_cons.mp he with rfl | he
      · exact h2
      · exact hT _ _ h3 e he
    · exact ih _ h4 e he

/-- Every block pointer of a tree satisfies the tree's pointer property. -/
theorem Tree.events_P {disk : Disk} {P : Int → Prop} :
    ∀ (d : Nat) (h : FileHeader) (n : Int), Tree disk P d h n →
      ∀ e ∈ treeEvents disk d h, P e.2 := by
  intro d
  induction d with
  | zero =>
    intro h n ht e he
    obtain ⟨h1, _, _, _, _, h6⟩ := ht
    simp only [treeEvents, List.mem_map] at he
    obtain ⟨s, hs, rfl⟩ := he
    rw [h1] at hs
    exact h6 s hs
  | succ d ih =>
    intro h n ht e he
    obtain ⟨_, _, _, _, h5⟩ := ht
    exact Children.flatMap_events_P (treeEvents disk d) ih _ _ h5 e he

theorem Children.flatMap_events_congr {disk disk1 : Disk} {P : Int → Prop}
    {T : FileHeader → Int → Prop} {C : Int} (f f1 : FileHeader → List (Bool × Int))
    (hP : ∀ s, P s → disk1 s = disk s) (hT : ∀ h m, T h m → f1 h = f h) :
    ∀ (ptrs : List Int) (n : Int), Children disk P T C ptrs n →
      ptrs.flatMap (fun p => (false, p) :: f1 (FetchFrom disk1 p)) =
        ptrs.flatMap (fun p => (false, p) :: f (FetchFrom disk p)) := by
  intro ptrs
  induction ptrs with
  | nil => intro n _; rfl
  | cons p ps ih =>
    intro n h
    obtain ⟨_, h2, h3, h4⟩ := h
    rw [List.flatMap_cons, List.flatMap_cons, ih _ h4, FetchFrom_congr disk disk1 p (hP p h2),
      hT _ _ h3]

/-- The pointers of a tree do not change when the disk changes outside the
sectors its pointers name. -/
theorem Tree.events_congr {disk disk1 : Disk} {P : Int → Prop}
    (hP : ∀ s, P s → disk1 s = disk s) :
    ∀ (d : Nat) (h : FileHeader) (n : Int), Tree disk P d h n →
      treeEvents disk1 d h = treeEvents disk d h := by
  intro d
  induction d with
  | zero => intro h n _; rfl
  | succ d ih =>
    intro h n ht
    obtain ⟨_, _, _, _, h5⟩ := ht
    exact Children.flatMap_events_congr (treeEvents disk d) (treeEvents disk1 d) hP ih _ _ h5

theorem leafLoopTr_events (k : Nat) : ∀ (i : Nat) (bm : Bitmap) (hdr : FileHeader)
    (bm1 : Bitmap) (hdr1 : FileHeader) (fs : List (Bool × Int)),
    leafLoopTr k i bm hdr = some (bm1, hdr1, fs) → i + k ≤ hdr.dataSectors.length →
    fs = ((hdr1.dataSectors.drop i).take k).map (fun s => (true, s)) := by
  induction k with
  | zero =>
    intro i bm hdr bm1 hdr1 fs h _
    simp only [leafLoopTr, Option.some.injEq, Prod.mk.injEq] at h
    obtain ⟨rfl, rfl, rfl⟩ := h
    simp
  | succ k ih =>
    intro i bm hdr bm1 hdr1 fs h hlen
    simp only [leafLoopTr] at h
    by_cases hs : (FindAndSet bm).1 ≥ 0
    · simp only [hs, if_true] at h
      cases hv : leafLoopTr k (i + 1) (FindAndSet bm).2
          { hdr with dataSectors := hdr.dataSectors.set i (FindAndSet bm).1 } with
      | none => rw [hv] at h; cases h
      | some v =>
        obtain ⟨b, hd, fs1⟩ := v
        rw [hv] at h
        simp only [Option.map_some', Option.some.injEq, Prod.mk.injEq] at h
        obtain ⟨rfl, rfl, rfl⟩ := h
        have hlen1 : i + 1 + k ≤
            ({ hdr with dataSectors := hdr.dataSectors.set i (FindAndSet bm).1 } :
              FileHeader).dataSectors.length := by
          simp; omega
        have hvE : leafLoop k (i + 1) (FindAndSet bm).2
            { hdr with dataSectors := hdr.dataSectors.set i (FindAndSet bm).1 } = some (b, hd) := by
          rw [← leafLoopTr_erase, hv]; rfl
        obtain ⟨_, _, _, _, _, e6, _, _⟩ := leafLoop_spec _ _ _ _ _ _ hvE hlen1
        have hget : hd.dataSectors.get? i = some (FindAndSet bm).1 := by
          rw [e6 i (by omega)]
          simp only [List.get?_eq_getElem?]
          rw [List.getElem?_set_self (by omega)]
        rw [take_succ_drop _ _ _ _ hget, List.map_cons, ← ih _ _ _ _ _ _ hv hlen1]
    · simp only [hs, if_false] at h
      cases h

theorem map_fst_eq_some {α β : Type} (o : Option (α × β)) (a : α)
    (h : o.map Prod.fst = some a) : ∃ b, o = some (a, b) := by
  cases o with
  | none => cases h
  | some v =>
    obtain ⟨x, y⟩ := v
    simp only [Option.map_some', Option.some.injEq] at h
    subst h
    exact ⟨y, rfl⟩

theorem childLoopTr_spec (d : Nat)
    (subTr : Bitmap → Disk → Int → FileHeader → Option (AllocResult × Trace))
    (sub : Bitmap → Disk → Int → FileHeader → Option AllocResult)
    (herase : ∀ bm disk r hdr, (subTr bm disk r hdr).map Prod.fst = sub bm disk r hdr)
    (hsub : ∀ bm disk r res, 0 ≤ r → (bm.length : Int) < 2147483648 →
      sub bm disk r FileHeader.new = some res → AllocPost d bm disk r FileHeader.new res)
    (hfull : ∀ bm disk r, NumClear bm = 0 → 0 < r → sub bm disk r FileHeader.new = none)
    (hsubTr : ∀ bm disk r res tr, 0 ≤ r → (bm.length : Int) < 2147483648 →
      subTr bm disk r FileHeader.new = some (res, tr) → TracePost d res tr)
    (fuel : Nat) :
    ∀ (time : Nat) (left use : Int) (bm : Bitmap) (disk : Disk) (hdr : FileHeader)
      (res : AllocResult) (tr : Trace),
      childLoopTr subTr fuel time left use bm disk hdr = some (res, tr) → time + fuel = 30 →
      0 ≤ left → (bm.length : Int) < 2147483648 → hdr.dataSectors.length = NumDirect →
      tr.1 = ((res.2.2.2.dataSectors.drop time).take (res.2.2.2.numSectors.toNat - time)).flatMap
          (fun p => (false, p) :: treeEvents res.2.2.1 d (FetchFrom res.2.2.1 p)) ∧
        (∀ w ∈ tr.2, res.2.2.1 w.1 = w.2.toBytes ∧ FetchFrom res.2.2.1 w.1 = w.2) ∧
        List.Perm (tr.2.map Prod.fst) ((tr.1.filter (fun e => !e.1)).map Prod.snd) := by
  induction fuel with
  | zero =>
    intro time left use bm disk hdr res tr h _ _ _ _
    simp only [childLoopTr, Option.some.injEq, Prod.mk.injEq] at h
    obtain ⟨rfl, rfl⟩ := h
    refine ⟨by simp, fun w hw => absurd hw (List.not_mem_nil w), by simp⟩
  | succ fuel ih =>
    intro time left use bm disk hdr res tr h htime hleft hbm hlen
    rw [childLoopTr_succ] at h
    by_cases hc : left > 0 ∧ time < 30
    · simp only [hc, and_self, if_true] at h
      rcases eq_or_lt_of_le (NumClear_nonneg bm) with h0 | hpos
      · have hn := hfull bm disk left h0.symm hc.1
        rw [FindAndSet_full bm h0.symm] at h
        simp only at h
        rw [← herase] at hn
        cases hx : subTr bm disk left FileHeader.new with
        | none => rw [hx] at h; cases h
        | some v => rw [hx] at hn; cases hn
      · obtain ⟨i, he, hfresh, hext, _⟩ := FindAndSet_spec bm hpos
        rw [he] at h
        simp only at h
        have hbm1 : ((bm.set i true).length : Int) < 2147483648 := by simpa using hbm
        cases hs : subTr (bm.set i true) disk left FileHeader.new with
        | none => rw [hs] at h; cases h
        | some r1 =>
          obtain ⟨⟨u, bm2, disk2, subHdr⟩, tr1⟩ := r1
          rw [hs] at h
          simp only at h
          have hsE : sub (bm.set i true) disk left FileHeader.new = some (u, bm2, disk2, subHdr) := by
            rw [← herase, hs]; rfl
          obtain ⟨p1, p2, _, _, p5, p6⟩ := hsub _ _ _ _ (le_of_lt hc.1) hbm1 hsE
          simp only at p1 p2 p5 p6
          obtain ⟨t1, t2, t3⟩ := hsubTr _ _ _ _ _ (le_of_lt hc.1) hbm1 hs
          simp only at t1 t2 t3
          have hsubR : subHdr.InRange := p6 FileHeader.new_inRange
          have hbm2 : (bm2.length : Int) < 2147483648 := by rw [← p2.1]; exact hbm1
          have hu : u ≤ left := by rw [p1]; exact min_le_left _ _
          cases hv : childLoopTr subTr fuel (time + 1) (left - u) (use + u) bm2
              (WriteBack disk2 (i : Int) subHdr)
              { hdr with dataSectors := hdr.dataSectors.set time (i : Int) } with
          | none => rw [hv] at h; cases h
          | some v =>
            obtain ⟨res1, tr2⟩ := v
            rw [hv] at h
            simp only [Option.map_some', Option.some.injEq, Prod.mk.injEq] at h
            obtain ⟨rfl, rfl⟩ := h
            have hvE : childLoop sub fuel (time + 1) (left - u) (use + u) bm2
                (WriteBack disk2 (i : Int) subHdr)
                { hdr with dataSectors := hdr.dataSectors.set time (i : Int) } = some res1 := by
              rw [← childLoopTr_erase subTr sub herase, hv]; rfl
            obtain ⟨k, e1, _, _, _, _, e6, _, e8, e9, _, _⟩ :=
              childLoop_spec d sub hsub hfull fuel (time + 1) (left - u) (use + u) bm2
                (WriteBack disk2 (i : Int) subHdr)
                { hdr with dataSectors := hdr.dataSectors.set time (i : Int) } res1 hvE
                (by omega) (by omega) hbm2 (by simpa using hlen)
            obtain ⟨c1, c2, c3⟩ := ih (time + 1) (left - u) (use + u) bm2
              (WriteBack disk2 (i : Int) subHdr)
              { hdr with dataSectors := hdr.dataSectors.set time (i : Int) } res1 tr2 hv
              (by omega) (by omega) hbm2 (by simpa using hlen)
            obtain ⟨use1, bmF, diskF, hdrF⟩ := res1
            simp only at e1 e6 e8 e9 c1 c2 c3 ⊢
            have hdisk1 : ∀ s, Fresh (bm.set i true) bm2 s → diskF s = disk2 s := by
              intro s hs2
              rw [e8 s hs2.not_next]
              apply WriteBack_other
              rintro rfl
              have h1 := hs2.2.1
              rw [hfresh.2.2] at h1; cases h1
            have hni : ¬ Fresh bm2 bmF (i : Int) := by
              intro hf
              have h1 := hf.2.1
              rw [p2.2 _ hfresh.2.2] at h1; cases h1
            have hbytes : diskF (i : Int) = subHdr.toBytes := by
              rw [e8 _ hni]; simp [WriteBack, WriteSector]
            have hfetch : FetchFrom diskF (i : Int) = subHdr := by
              rw [FetchFrom_congr _ diskF (i : Int) (e8 _ hni)]
              exact FetchFrom_WriteBack_same _ _ _ hsubR
            have hget : hdrF.dataSectors.get? time = some (i : Int) := by
              rw [e9 time (by omega)]
              simp only [List.get?_eq_getElem?]
              rw [List.getElem?_set_self (by rw [hlen]; simp [NumDirect]; omega)]
            have hk : hdrF.numSectors.toNat - time = (hdrF.numSectors.toNat - (time + 1)) + 1 := by
              rw [e1]; omega
            have hev : treeEvents diskF d subHdr = treeEvents disk2 d subHdr :=
              Tree.events_congr hdisk1 d _ _ p5
            refine ⟨?_, ?_, ?_⟩
            · rw [hk, take_succ_drop _ _ _ _ hget, List.flatMap_cons, hfetch, hev, ← t1, ← c1]
              rfl
            · intro w hw
              rcases List.mem_append.mp hw with hw | hw
              · have hmem : w.1 ∈ tr1.2.map Prod.fst := List.mem_map_of_mem _ hw
                have hmem2 := t3.subset hmem
                obtain ⟨e, he1, he2⟩ := List.mem_map.mp hmem2
                have he3 : e ∈ treeEvents disk2 d subHdr := by
                  rw [← t1]; exact (List.mem_filter.mp he1).1
                have hfr : Fresh (bm.set i true) bm2 w.1 := by
                  rw [← he2]; exact Tree.events_P d _ _ p5 e he3
                refine ⟨by rw [hdisk1 _ hfr]; exact (t2 w hw).1, ?_⟩
                rw [FetchFrom_congr _ diskF w.1 (hdisk1 _ hfr)]
                exact (t2 w hw).2
              · rcases List.mem_cons.mp hw with rfl | hw
                · exact ⟨hbytes, hfetch⟩
                · exact c2 w hw
            · simp only [List.map_append, List.map_cons, List.filter_cons, List.filter_append,
                Bool.not_false, if_true]
              exact List.perm_middle.trans (List.Perm.cons _ (List.Perm.append t3 c3))
    · simp only [hc, if_false, Option.some.injEq, Prod.mk.injEq] at h
      obtain ⟨rfl, rfl⟩ := h
      refine ⟨by simp, fun w hw => absurd hw (List.not_mem_nil w), by simp⟩

/-- The record of a completed run against the tree it built (levels 0..3). -/
theorem MultiLevelAllocateTr_post (d : Nat) : d ≤ 3 → ∀ (bm : Bitmap) (disk : Disk) (r : Int)
    (hdr : FileHeader) (res : AllocResult) (tr : Trace), 0 ≤ r →
    (bm.length : Int) < 2147483648 → hdr.dataSectors.length = NumDirect →
    MultiLevelAllocateTr d bm disk r hdr = some (res, tr) → TracePost d res tr := by
  induction d with
  | zero =>
    intro _ bm disk r hdr res tr hr _ hlen h
    simp only [MultiLevelAllocateTr] at h
    have hn : (if r > 30 then (30 : Int) else r) = min r 30 := by
      split <;> omega
    rw [hn] at h
    cases hl : leafLoopTr (min r 30).toNat 0 bm hdr with
    | none => rw [hl] at h; cases h
    | some v =>
      obtain ⟨bm1, hdr1, fs⟩ := v
      rw [hl] at h
      simp only [Option.some.injEq, Prod.mk.injEq] at h
      obtain ⟨rfl, rfl⟩ := h
      have hev := leafLoopTr_events _ 0 bm hdr bm1 hdr1 fs hl
        (by rw [hlen]; simp [NumDirect])
      obtain ⟨_, _, _, e4⟩ := leafLoopTr_replay _ _ _ _ _ _ _ hl
      refine ⟨?_, fun w hw => absurd hw (List.not_mem_nil w), ?_⟩
      · simp only [treeEvents]
        rw [hev, List.drop_zero]
      · simp only [List.map_nil]
        have : fs.filter (fun e => !e.1) = [] := by
          apply List.filter_eq_nil_iff.mpr
          intro e he
          simp [e4 e he]
        rw [this]; exact List.Perm.refl _
  | succ d ih =>
    intro hd bm disk r hdr res tr hr hbm hlen h
    rw [MultiLevelAllocateTr_succ] at h
    obtain ⟨c1, c2, c3⟩ := childLoopTr_spec d (MultiLevelAllocateTr d) (MultiLevelAllocate d)
      (MultiLevelAllocateTr_erase d)
      (fun bm disk r res h1 h2 h3 =>
        MultiLevelAllocate_post d (by omega) bm disk r FileHeader.new res h1 h2 rfl h3)
      (fun bm disk r h1 h2 => MultiLevelAllocate_full d bm disk r FileHeader.new h1 h2)
      (fun bm disk r res tr h1 h2 h3 => ih (by omega) bm disk r FileHeader.new res tr h1 h2 rfl h3)
      30 0 r 0 bm disk hdr res tr h rfl hr hbm hlen
    refine ⟨?_, c2, c3⟩
    rw [c1]
    simp only [List.drop_zero, Nat.sub_zero, treeEvents]
/-- A successful `Allocate` with its record: the calls recorded replay to the
final bitmap and disk and list the tree that was built. -/
theorem AllocateTr_post (freeMap : Bitmap) (disk : Disk) (this : FileHeader) (fileSize : Int)
    (bm1 : Bitmap) (disk1 : Disk) (hdr1 : FileHeader) (h0 : 0 ≤ fileSize)
    (hbm : (freeMap.length : Int) < 2147483648) (hlen : this.dataSectors.length = NumDirect)
    (h : Allocate freeMap disk this fileSize = some (true, bm1, disk1, hdr1)) :
    ∃ tr, AllocateTr freeMap disk this fileSize = some ((true, bm1, disk1, hdr1), tr) ∧
      ReplayPost freeMap disk
        (min (divRoundUp fileSize 128) (30 ^ (allocLevel fileSize + 1)), bm1, disk1, hdr1) tr ∧
      TracePost (allocLevel fileSize)
        (min (divRoundUp fileSize 128) (30 ^ (allocLevel fileSize + 1)), bm1, disk1, hdr1) tr := by
  have hT := divRoundUp_128 fileSize
  have he := AllocateTr_erase freeMap disk this fileSize
  rw [h] at he
  obtain ⟨tr, htr⟩ := map_fst_eq_some _ _ he
  refine ⟨tr, htr, ?_⟩
  rw [AllocateTr_eq_level, show SectorSize = 128 from rfl] at htr
  by_cases hc : NumClear freeMap < divRoundUp fileSize 128
  · simp [hc] at htr
  · simp only [hc, if_false] at htr
    cases hm : MultiLevelAllocateTr (allocLevel fileSize) freeMap disk
        (divRoundUp fileSize 128) { this with numBytes := fileSize } with
    | none => rw [hm] at htr; cases htr
    | some v =>
      obtain ⟨⟨use, b, dk, hd⟩, tr2⟩ := v
      rw [hm] at htr
      simp only [Option.map_some', Option.some.injEq, Prod.mk.injEq, true_and] at htr
      obtain ⟨⟨rfl, rfl, rfl⟩, rfl⟩ := htr
      have hr0 : 0 ≤ divRoundUp fileSize 128 := by omega
      have hmE : MultiLevelAllocate (allocLevel fileSize) freeMap disk
          (divRoundUp fileSize 128) { this with numBytes := fileSize } = some (use, b, dk, hd) := by
        rw [← MultiLevelAllocateTr_erase, hm]; rfl
      have huse := (MultiLevelAllocate_use _ _ _ _ _ _ hmE hr0).1
      simp only at huse
      subst huse
      exact ⟨MultiLevelAllocateTr_replay _ _ _ _ _ _ _ hm,
        MultiLevelAllocateTr_post _ (allocLevel_le _) _ _ _
          { this with numBytes := fileSize } _ _ hr0 hbm hlen hm⟩

theorem flatMap_leaf_events (f : Int → List Int) (g : Int → List (Bool × Int))
    (hfg : ∀ p, f p = ((g p).filter (fun e => e.1)).map Prod.snd) :
    ∀ ptrs : List Int,
      ptrs.flatMap f =
        ((ptrs.flatMap (fun p => (false, p) :: g p)).filter (fun e => e.1)).map Prod.snd := by
  intro ptrs
  induction ptrs with
  | nil => rfl
  | cons p ps ih =>
    simp only [List.flatMap_cons, List.cons_append, List.filter_cons, List.filter_append,
      List.map_append]
    rw [ih, hfg]
    simp

/-- The leaf data sectors of a tree are the data-sector pointers of its
pre-order listing, in the same order. -/
theorem leafSectors_eq_events (disk : Disk) : ∀ (d : Nat) (h : FileHeader),
    leafSectors disk d h = ((treeEvents disk d h).filter (fun e => e.1)).map Prod.snd := by
  intro d
  induction d with
  | zero =>
    intro h
    simp only [leafSectors, treeEvents]
    induction h.dataSectors.take h.numSectors.toNat with
    | nil => rfl
    | cons p ps ih => simp only [List.map_cons, List.filter_cons, if_true]; rw [← ih]
  | succ d ih =>
    intro h
    simp only [leafSectors, treeEvents]
    exact flatMap_leaf_events _ _ (fun p => ih _) _

theorem sublist_flatMap_cons (g : Int → List (Bool × Int)) : ∀ ptrs : List Int,
    List.Sublist ptrs ((ptrs.flatMap (fun p => (false, p) :: g p)).map Prod.snd) := by
  intro ptrs
  induction ptrs with
  | nil => exact List.Sublist.slnil
  | cons p ps ih =>
    simp only [List.flatMap_cons, List.cons_append, List.map_cons, List.map_append]
    exact List.Sublist.cons₂ _ (List.sublist_append_of_sublist_right ih)

/-- The valid entries of the root table are among the sectors of the tree. -/
theorem rootPtrs_sublist (disk : Disk) (d : Nat) (h : FileHeader) :
    List.Sublist (h.dataSectors.take h.numSectors.toNat) (treeSectors disk d h) := by
  cases d with
  | zero =>
    simp only [treeSectors, treeEvents, List.map_map]
    have : (Prod.snd ∘ fun s : Int => (true, s)) = id := rfl
    rw [this, List.map_id]
  | succ d => exact sublist_flatMap_cons _ _

theorem Test_of_get? (bm : Bitmap) (s : Int) (b : Bool) (hs : 0 ≤ s)
    (h : bm.get? s.toNat = some b) : Test bm s = b := by
  simp only [Test, hs, decide_True, Bool.true_and, List.getD_eq_getElem?_getD]
  rw [List.get?_eq_getElem?] at h
  rw [h]; rfl

theorem Fresh.test {bm bm1 : Bitmap} {s : Int} (h : Fresh bm bm1 s) :
    0 ≤ s ∧ Test bm s = false ∧ Test bm1 s = true :=
  ⟨h.1, Test_of_get? _ _ _ h.1 h.2.1, Test_of_get? _ _ _ h.1 h.2.2⟩

theorem Extends.test_mono {bm bm1 : Bitmap} (h : Extends bm bm1) (s : Int)
    (hs : Test bm s = true) : Test bm1 s = true := by
  simp only [Test, Bool.and_eq_true, decide_eq_true_eq] at hs
  obtain ⟨h0, h1⟩ := hs
  apply Test_of_get? _ _ _ h0
  apply h.2
  rw [List.getD_eq_getElem?_getD] at h1
  rw [List.get?_eq_getElem?]
  cases hv : bm[s.toNat]? with
  | none => rw [hv] at h1; cases h1
  | some v => rw [hv] at h1; simp at h1; rw [h1]

/-- After a successful `Allocate` the sectors of the tree are pairwise distinct
and each was taken from the bitmap during the call. -/
theorem Allocate_treeSectors (freeMap : Bitmap) (disk : Disk) (this : FileHeader)
    (fileSize : Int) (bm1 : Bitmap) (disk1 : Disk) (hdr1 : FileHeader) (h0 : 0 ≤ fileSize)
    (hbm : (freeMap.length : Int) < 2147483648) (hlen : this.dataSectors.length = NumDirect)
    (h : Allocate freeMap disk this fileSize = some (true, bm1, disk1, hdr1)) :
    (treeSectors disk1 (allocLevel fileSize) hdr1).Nodup ∧
      (∀ s ∈ treeSectors disk1 (allocLevel fileSize) hdr1, Fresh freeMap bm1 s) ∧
      Extends freeMap bm1 := by
  obtain ⟨tr, _, ⟨r1, _, _⟩, ⟨t1, _, _⟩⟩ := AllocateTr_post _ _ _ _ _ _ _ h0 hbm hlen h
  have post := (Allocate_post _ _ _ _ _ _ _ h0 hbm hlen h).2
  have htree := post.2.2.2.2.1
  simp only at t1 r1 htree
  have hP : ∀ s ∈ treeSectors disk1 (allocLevel fileSize) hdr1, Fresh freeMap bm1 s := by
    intro s hs
    obtain ⟨e, he, rfl⟩ := List.mem_map.mp hs
    exact Tree.events_P _ _ _ htree e he
  refine ⟨?_, hP, post.2.1⟩
  have hseq : treeSectors disk1 (allocLevel fileSize) hdr1 = findSeq tr.1.length freeMap := by
    rw [← r1, t1]; rfl
  rw [hseq]
  apply (findSeq_nodup _ _ _).1
  intro x hx
  rw [← hseq] at hx
  exact (hP x hx).1
/-! ## Deallocation of distinct, marked sectors -/

theorem NumClear_set_false (bm : Bitmap) (i : Nat) (h : bm.get? i = some true) :
    NumClear (bm.set i false) = NumClear bm + 1 := by
  have hi : i < bm.length := by
    rcases Nat.lt_or_ge i bm.length with hlt | hge
    · exact hlt
    · rw [List.get?_eq_none.mpr hge] at h; cases h
  have hget : bm[i] = true := by
    rw [List.get?_eq_getElem?, List.getElem?_eq_getElem hi] at h
    exact Option.some.inj h
  unfold NumClear
  rw [List.count_set _ _ _ _ hi]
  simp [hget]

theorem Tree.table {disk : Disk} {P : Int → Prop} (d : Nat) (h : FileHeader) (n : Int)
    (ht : Tree disk P d h n) :
    h.dataSectors.length = NumDirect ∧ 0 ≤ h.numSectors ∧ h.numSectors ≤ 30 := by
  cases d with
  | zero =>
    obtain ⟨h1, _, h3, h4, h5, _⟩ := ht
    exact ⟨h5, by omega, by omega⟩
  | succ d =>
    obtain ⟨_, h2, h3, h4, _⟩ := ht
    exact ⟨h4, h2, h3⟩

theorem deallocLoop_spec (hdr : FileHeader) (k : Nat) : ∀ (i : Nat) (bm : Bitmap),
    (∀ p ∈ (hdr.dataSectors.drop i).take k, 0 ≤ p ∧ bm.get? p.toNat = some true) →
    ((hdr.dataSectors.drop i).take k).Nodup → i + k ≤ hdr.dataSectors.length →
    ∃ bm2, deallocLoop k i bm hdr = some bm2 ∧ bm2.length = bm.length ∧
      (∀ p ∈ (hdr.dataSectors.drop i).take k, bm2.get? p.toNat = some false) ∧
      (∀ n : Nat, (n : Int) ∉ (hdr.dataSectors.drop i).take k → bm2.get? n = bm.get? n) ∧
      NumClear bm2 = NumClear bm + k := by
  induction k with
  | zero =>
    intro i bm _ _ _
    exact ⟨bm, rfl, rfl, fun p hp => by simp at hp, fun _ _ => rfl, by simp⟩
  | succ k ih =>
    intro i bm hset hnd hlen
    have hi : i < hdr.dataSectors.length := by omega
    have hget : hdr.dataSectors.get? i = some (hdr.dataSectors[i]) := by
      rw [List.get?_eq_getElem?]; exact List.getElem?_eq_getElem hi
    have hsplit := take_succ_drop hdr.dataSectors i k _ hget
    rw [hsplit] at hset hnd ⊢
    generalize hdr.dataSectors[i] = p0 at hget hsplit hset hnd ⊢
    obtain ⟨hp0, hp0set⟩ := hset p0 (List.mem_cons_self _ _)
    obtain ⟨hnot, hnd1⟩ := List.nodup_cons.mp hnd
    have hp0lt : p0.toNat < bm.length := by
      rcases Nat.lt_or_ge p0.toNat bm.length with hlt | hge
      · exact hlt
      · rw [List.get?_eq_none.mpr hge] at hp0set; cases hp0set
    have hread : readAt hdr.dataSectors (i : Int) = some p0 := by
      simp only [readAt, Int.toNat_ofNat, Int.ofNat_nonneg, if_true]
      exact hget
    have htest : Test bm p0 = true := Test_of_get? _ _ _ hp0 hp0set
    have hclear : Clear bm p0 = bm.set p0.toNat false := by simp [Clear, hp0]
    have hset1 : ∀ p ∈ (hdr.dataSectors.drop (i + 1)).take k,
        0 ≤ p ∧ (bm.set p0.toNat false).get? p.toNat = some true := by
      intro p hp
      obtain ⟨h1, h2⟩ := hset p (List.mem_cons_of_mem _ hp)
      refine ⟨h1, ?_⟩
      have hne : p0.toNat ≠ p.toNat := by
        intro heq
        apply hnot
        have : p = p0 := by omega
        rw [← this]; exact hp
      simp only [List.get?_eq_getElem?] at h2 ⊢
      rw [List.getElem?_set_ne hne]; exact h2
    obtain ⟨bm2, r1, r2, r3, r4, r5⟩ := ih (i + 1) (bm.set p0.toNat false) hset1 hnd1 (by omega)
    refine ⟨bm2, ?_, by rw [r2]; simp, ?_, ?_, ?_⟩
    · simp only [deallocLoop, hread, htest, if_true, hclear]
      exact r1
    · intro p hp
      rcases List.mem_cons.mp hp with rfl | hp
      · rw [r4 p.toNat (by rw [Int.toNat_of_nonneg hp0]; exact hnot)]
        simp only [List.get?_eq_getElem?]
        rw [List.getElem?_set_self hp0lt]
      · exact r3 p hp
    · intro n hn
      simp only [List.mem_cons, not_or] at hn
      rw [r4 n hn.2]
      simp only [List.get?_eq_getElem?]
      rw [List.getElem?_set_ne (by omega)]
    · rw [r5, NumClear_set_false _ _ hp0set]; push_cast; ring

theorem Test_congr (bm bm2 : Bitmap) (s : Int) (h : bm2.get? s.toNat = bm.get? s.toNat) :
    Test bm2 s = Test bm s := by
  simp only [Test, List.getD_eq_getElem?_getD]
  simp only [List.get?_eq_getElem?] at h
  rw [h]
/-! ## Rejection, depth selection and persistence -/

/-- C1: for `fileSize ≥ 0`, `Allocate` returns FALSE exactly when
`NumClear() < ceil(fileSize / 128)`, and whenever it returns FALSE the bitmap
and the disk are the ones it was called with. -/
theorem Allocate_false_iff (freeMap : Bitmap) (disk : Disk) (this : FileHeader)
    (fileSize : Int) (h0 : 0 ≤ fileSize) :
    ((∃ r, Allocate freeMap disk this fileSize = some (false, r)) ↔
        NumClear freeMap < ⌈(fileSize : ℚ) / 128⌉) ∧
      ∀ bm1 disk1 hdr1, Allocate freeMap disk this fileSize = some (false, bm1, disk1, hdr1) →
        bm1 = freeMap ∧ disk1 = disk := by
  have _ := h0
  rw [← divRoundUp_eq_ceil, Allocate_eq_level]
  by_cases hc : NumClear freeMap < divRoundUp fileSize SectorSize
  · have hc1 : NumClear freeMap < divRoundUp fileSize 128 := hc
    simp only [hc, if_true]
    refine ⟨⟨fun _ => hc1, fun _ => ⟨_, rfl⟩⟩, ?_⟩
    intro bm1 disk1 hdr1 h
    simp only [Option.some.injEq, Prod.mk.injEq, true_and] at h
    exact ⟨h.1.symm, h.2.1.symm⟩
  · have hc1 : ¬ NumClear freeMap < divRoundUp fileSize 128 := hc
    simp only [hc, if_false]
    refine ⟨⟨?_, fun h => absurd h hc1⟩, ?_⟩
    · rintro ⟨r, hr⟩
      cases hm : MultiLevelAllocate (allocLevel fileSize) freeMap disk
        (divRoundUp fileSize SectorSize) { this with numBytes := fileSize } with
      | none => rw [hm] at hr; simp at hr
      | some v => rw [hm] at hr; simp at hr
    · intro bm1 disk1 hdr1 hr
      cases hm : MultiLevelAllocate (allocLevel fileSize) freeMap disk
        (divRoundUp fileSize SectorSize) { this with numBytes := fileSize } with
      | none => rw [hm] at hr; simp at hr
      | some v => rw [hm] at hr; simp at hr

theorem Allocate_false_iff_witness :
    (0 : Int) ≤ 300 ∧
    (((∃ r, Allocate [true, false, false] zeroDisk FileHeader.new 300 = some (false, r)) ↔
        NumClear [true, false, false] < ⌈((300 : Int) : ℚ) / 128⌉) ∧
      ∀ bm1 disk1 hdr1,
        Allocate [true, false, false] zeroDisk FileHeader.new 300 = some (false, bm1, disk1, hdr1) →
        bm1 = [true, false, false] ∧ disk1 = zeroDisk) :=
  ⟨by decide, Allocate_false_iff [true, false, false] zeroDisk FileHeader.new 300 (by decide)⟩

/-- C6: once the space check has passed, `Allocate` runs `MultiLevelAllocate` at
level `allocLevel fileSize`; a size of exactly `128 * 30^(k+1)` bytes
(`k = 0, 1, 2`) selects level `k` and one byte more selects level `k + 1`; and
whenever `ceil(fileSize / 128) ≤ 30^4` the level selected is the least `d` with
`ceil(fileSize / 128) ≤ 30^(d+1)`. -/
theorem Allocate_level_selection (fileSize : Int) (h0 : 0 ≤ fileSize) :
    (∀ freeMap disk this, ¬ NumClear freeMap < ⌈(fileSize : ℚ) / 128⌉ →
        Allocate freeMap disk this fileSize =
          Option.map (fun r => (true, r.2))
            (MultiLevelAllocate (allocLevel fileSize) freeMap disk ⌈(fileSize : ℚ) / 128⌉
              { this with numBytes := fileSize })) ∧
      (∀ k : Nat, k < 3 → fileSize = 128 * 30 ^ (k + 1) → allocLevel fileSize = k) ∧
      (∀ k : Nat, k < 3 → fileSize = 128 * 30 ^ (k + 1) + 1 → allocLevel fileSize = k + 1) ∧
      (⌈(fileSize : ℚ) / 128⌉ ≤ 30 ^ 4 →
        allocLevel fileSize ≤ 3 ∧
        ⌈(fileSize : ℚ) / 128⌉ ≤ 30 ^ (allocLevel fileSize + 1) ∧
        ∀ d : Nat, ⌈(fileSize : ℚ) / 128⌉ ≤ 30 ^ (d + 1) → allocLevel fileSize ≤ d) := by
  have _ := h0
  rw [← divRoundUp_eq_ceil]
  refine ⟨?_, ?_, ?_, ?_⟩
  · intro freeMap disk this hc
    rw [Allocate_eq_level]
    have hc1 : ¬ NumClear freeMap < divRoundUp fileSize SectorSize := hc
    simp only [hc1, if_false]
    rfl
  · intro k hk hf
    subst hf
    interval_cases k <;> decide
  · intro k hk hf
    subst hf
    interval_cases k <;> decide
  · intro hT
    refine ⟨allocLevel_le _, ?_, ?_⟩
    · rcases allocLevel_spec fileSize with h | h | h | h <;> rw [h.1] <;> norm_num <;> omega
    · intro d hd
      rcases allocLevel_spec fileSize with h | h | h | h
      · omega
      · rcases Nat.eq_zero_or_pos d with rfl | hpos
        · norm_num at hd; omega
        · omega
      · by_contra hlt
        have hd1 : d ≤ 1 := by omega
        have : (30 : Int) ^ (d + 1) ≤ 30 ^ 2 := pow_le_pow_right₀ (by norm_num) (by omega)
        norm_num at this; omega
      · by_contra hlt
        have hd1 : d ≤ 2 := by omega
        have : (30 : Int) ^ (d + 1) ≤ 30 ^ 3 := pow_le_pow_right₀ (by norm_num) (by omega)
        norm_num at this; omega

theorem Allocate_level_selection_witness :
    (0 : Int) ≤ 3841 ∧ allocLevel 3841 = 0 + 1 :=
  ⟨by decide, (Allocate_level_selection 3841 (by decide)).2.2.1 0 (by decide) (by decide)⟩

/-- C7: for a header whose fields are 32-bit `int`s and whose table has 30
entries, `WriteBack(s)` followed by `FetchFrom(s)` gives back the header
(`numBytes`, `numSectors` and every block pointer); the record written is
exactly 128 bytes, `4 + 4 + 30 * 4`, and no other sector of the disk changes. -/
theorem WriteBack_FetchFrom_roundtrip (h : FileHeader) (s : Int) (disk : Disk)
    (hr : h.InRange) :
    FetchFrom (WriteBack disk s h) s = h ∧
      h.toBytes.length = 128 ∧ h.toBytes.length = 4 + 4 + 30 * 4 ∧
      ∀ t, t ≠ s → WriteBack disk s h t = disk t := by
  refine ⟨FetchFrom_WriteBack_same disk s h hr, ?_, ?_, fun t ht => WriteBack_other disk s t h ht⟩
  · unfold FileHeader.toBytes
    rw [length_encodeInts]
    simp [hr.2.2.1, NumDirect]
  · unfold FileHeader.toBytes
    rw [length_encodeInts]
    simp [hr.2.2.1, NumDirect]

theorem WriteBack_FetchFrom_roundtrip_witness :
    FetchFrom (WriteBack zeroDisk 7
        { numBytes := 3968, numSectors := 2, dataSectors := 0 :: 31 :: List.replicate 28 (-1) }) 7
      = { numBytes := 3968, numSectors := 2, dataSectors := 0 :: 31 :: List.replicate 28 (-1) } :=
  (WriteBack_FetchFrom_roundtrip
    { numBytes := 3968, numSectors := 2, dataSectors := 0 :: 31 :: List.replicate 28 (-1) }
    7 zeroDisk (by decide)).1

/-- C8 as stated fails: on a bitmap with no clear sector, `Allocate` of one
sector returns FALSE and the header's `numBytes` has changed from `-1` to the
requested size. -/
theorem Allocate_false_changes_numBytes :
    ∃ r, Allocate [true, true] zeroDisk FileHeader.new 128 = some (false, r) ∧
      NumClear [true, true] < ⌈((128 : Int) : ℚ) / 128⌉ ∧
      r.2.2.numBytes = 128 ∧ FileHeader.new.numBytes = -1 ∧
      FileLength r.2.2 ≠ FileLength FileHeader.new :=
  ⟨_, rfl, by rw [← divRoundUp_eq_ceil]; decide, rfl, rfl, by decide⟩

/-- C8, amended: when `NumClear() < ceil(fileSize / 128)`, `Allocate` returns
FALSE with the bitmap and the disk untouched and with `numSectors` and the
block pointers as before the call; `numBytes`, assigned before the check, holds
`fileSize`, which is what `FileLength()` then returns. -/
theorem Allocate_false_header (freeMap : Bitmap) (disk : Disk) (this : FileHeader)
    (fileSize : Int) (h : NumClear freeMap < ⌈(fileSize : ℚ) / 128⌉) :
    ∃ hdr1, Allocate freeMap disk this fileSize = some (false, freeMap, disk, hdr1) ∧
      hdr1.numSectors = this.numSectors ∧ hdr1.dataSectors = this.dataSectors ∧
      hdr1.numBytes = fileSize ∧ FileLength hdr1 = fileSize := by
  rw [← divRoundUp_eq_ceil] at h
  have hc : NumClear freeMap < divRoundUp fileSize SectorSize := h
  refine ⟨{ this with numBytes := fileSize }, ?_, rfl, rfl, rfl, rfl⟩
  rw [Allocate_eq_level]
  simp only [hc, if_true]

theorem Allocate_false_header_witness :
    ∃ hdr1, Allocate [true, true] zeroDisk FileHeader.new 128
        = some (false, [true, true], zeroDisk, hdr1) ∧
      hdr1.numSectors = FileHeader.new.numSectors ∧
      hdr1.dataSectors = FileHeader.new.dataSectors ∧
      hdr1.numBytes = 128 ∧ FileLength hdr1 = 128 :=
  Allocate_false_header [true, true] zeroDisk FileHeader.new 128
    (by rw [← divRoundUp_eq_ceil]; decide)


/-! ## What a successful allocation builds -/

/-- C2 as stated fails beyond the capacity of the deepest tree: a request for
810001 sectors (`fileSize = 128 * 30^4 + 1`) on a bitmap of 900000 clear
sectors succeeds, and the tree holds `30^4 = 810000` leaf data sectors. -/
theorem Allocate_truncates_beyond_capacity :
    ∃ bm1 disk1 hdr1,
      Allocate (List.replicate 900000 false) zeroDisk FileHeader.new 103680001
        = some (true, bm1, disk1, hdr1) ∧
      ((leafSectors disk1 (allocLevel 103680001) hdr1).length : Int) = 810000 ∧
      ⌈((103680001 : Int) : ℚ) / 128⌉ = 810001 :=
  Allocate_beyond_capacity 900000 (by decide) (by decide)

/-- C2, amended: for `fileSize ≥ 0` with `ceil(fileSize / 128) ≤ 30^4`, after
`Allocate` returns TRUE the tree rooted at the header (read at the level
`Allocate` selected) holds exactly `ceil(fileSize / 128)` leaf data sectors,
which cover at least `fileSize` bytes. The bitmap has fewer than `2^31` bits
and the header's table `NumDirect` entries, as the C++ types have it. -/
theorem Allocate_leaf_count (freeMap : Bitmap) (disk : Disk) (this : FileHeader)
    (fileSize : Int) (bm1 : Bitmap) (disk1 : Disk) (hdr1 : FileHeader) (h0 : 0 ≤ fileSize)
    (hcap : ⌈(fileSize : ℚ) / 128⌉ ≤ 30 ^ 4)
    (hbm : (freeMap.length : Int) < 2147483648) (hlen : this.dataSectors.length = NumDirect)
    (h : Allocate freeMap disk this fileSize = some (true, bm1, disk1, hdr1)) :
    ((leafSectors disk1 (allocLevel fileSize) hdr1).length : Int) = ⌈(fileSize : ℚ) / 128⌉ ∧
      fileSize ≤ ((leafSectors disk1 (allocLevel fileSize) hdr1).length : Int) * 128 := by
  rw [← divRoundUp_eq_ceil] at hcap ⊢
  have post := (Allocate_post _ _ _ _ _ _ _ h0 hbm hlen h).2
  have hlenL := Tree.leafSectors_length _ _ _ post.2.2.2.2.1
  simp only at hlenL
  have hT := divRoundUp_128 fileSize
  have hmin : min (divRoundUp fileSize 128) (30 ^ (allocLevel fileSize + 1)) =
      divRoundUp fileSize 128 := by
    apply min_eq_left
    rcases allocLevel_spec fileSize with hl | hl | hl | hl <;> rw [hl.1] <;> norm_num <;> omega
  rw [hlenL, hmin]
  exact ⟨rfl, by omega⟩

theorem Allocate_leaf_count_witness :
    ∃ bm1 disk1 hdr1,
      Allocate (List.replicate 40 false) zeroDisk FileHeader.new 3968
        = some (true, bm1, disk1, hdr1) ∧
      ((leafSectors disk1 (allocLevel 3968) hdr1).length : Int) = ⌈((3968 : Int) : ℚ) / 128⌉ ∧
      (3968 : Int) ≤ ((leafSectors disk1 (allocLevel 3968) hdr1).length : Int) * 128 :=
  ⟨_, _, _, rfl,
    Allocate_leaf_count (List.replicate 40 false) zeroDisk FileHeader.new 3968 _ _ _ (by decide)
      (by rw [← divRoundUp_eq_ceil]; decide) (by decide) rfl rfl⟩

/-- C3 as stated fails: `ByteToSector` uses its argument as a sector index, not
as a byte offset. On the 24-sector leaf file (3000 bytes), byte offset 1 lies in
the leaf data sector of index `1 / 128 = 0`, which is sector 0, but
`ByteToSector(1)` returns `dataSectors[1]`, sector 1; and `ByteToSector(3071)`
reads `dataSectors[3071]`, outside the table, where `dataSectors[23]` is
sector 23. -/
theorem ByteToSector_is_not_by_byte :
    ∃ bm1 disk1 hdr1,
      Allocate (List.replicate 64 false) zeroDisk FileHeader.new 3000
        = some (true, bm1, disk1, hdr1) ∧
      hdr1.numBytes = 3072 ∧ hdr1.numSectors = 24 ∧
      (leafSectors disk1 0 hdr1).get? ((1 : Int) / 128).toNat = some 0 ∧
      ByteToSector disk1 hdr1 1 = some 1 ∧
      hdr1.dataSectors.get? 23 = some 23 ∧
      ByteToSector disk1 hdr1 3071 = none :=
  ⟨_, _, _, rfl, by decide, by decide, by decide, by decide, by decide, by decide⟩

/-- C3, amended: for a header produced by a successful `Allocate` and every byte
offset with `0 ≤ offset < numBytes`, `ByteToSector` called with the sector
index `offset / 128` returns the leaf data sector of file-relative index
`offset / 128`, that is, that entry of the in-order list of leaf data sectors of
the tree. The bitmap has fewer than `2^31` bits and the header's table
`NumDirect` entries. -/
theorem ByteToSector_sector_index (freeMap : Bitmap) (disk : Disk) (this : FileHeader)
    (fileSize : Int) (bm1 : Bitmap) (disk1 : Disk) (hdr1 : FileHeader) (h0 : 0 ≤ fileSize)
    (hbm : (freeMap.length : Int) < 2147483648) (hlen : this.dataSectors.length = NumDirect)
    (h : Allocate freeMap disk this fileSize = some (true, bm1, disk1, hdr1))
    (offset : Int) (ho0 : 0 ≤ offset) (ho1 : offset < hdr1.numBytes) :
    ∃ p, ByteToSector disk1 hdr1 (offset / 128) = some p ∧
      (leafSectors disk1 (allocLevel fileSize) hdr1).get? (offset / 128).toNat = some p := by
  have post := (Allocate_post _ _ _ _ _ _ _ h0 hbm hlen h).2
  have htree := post.2.2.2.2.1
  simp only at htree
  have hnb := Tree.numBytes_eq _ _ _ htree
  have hlenL := Tree.leafSectors_length _ _ _ htree
  rw [hnb] at ho1
  have hs0 : 0 ≤ offset / 128 := by omega
  have hs1 : offset / 128 < min (divRoundUp fileSize 128) (30 ^ (allocLevel fileSize + 1)) := by
    omega
  rw [ByteToSector_eq disk1 hdr1 _ fileSize hnb,
    Tree.FindSector_eq _ (allocLevel_le _) _ _ _ htree hs0 hs1]
  have hlt : (offset / 128).toNat < (leafSectors disk1 (allocLevel fileSize) hdr1).length := by
    omega
  exact ⟨_, List.get?_eq_get hlt, List.get?_eq_get hlt⟩

theorem ByteToSector_sector_index_witness :
    (∃ bm1 disk1 hdr1,
      Allocate (List.replicate 64 false) zeroDisk FileHeader.new 3000
        = some (true, bm1, disk1, hdr1) ∧
      (∃ p, ByteToSector disk1 hdr1 ((3071 : Int) / 128) = some p ∧
        (leafSectors disk1 (allocLevel 3000) hdr1).get? ((3071 : Int) / 128).toNat = some p) ∧
      ByteToSector disk1 hdr1 23 = hdr1.dataSectors.get? 23) ∧
    (∃ bm1 disk1 hdr1,
      Allocate (List.replicate 40 false) zeroDisk FileHeader.new 3968
        = some (true, bm1, disk1, hdr1) ∧
      (∃ p, ByteToSector disk1 hdr1 ((30 * 128 : Int) / 128) = some p ∧
        (leafSectors disk1 (allocLevel 3968) hdr1).get? ((30 * 128 : Int) / 128).toNat = some p) ∧
      hdr1.numSectors = 2 ∧
      ByteToSector disk1 hdr1 30 =
        (hdr1.dataSectors.get? 1).bind (fun c => (FetchFrom disk1 c).dataSectors.get? 0) ∧
      ByteToSector disk1 hdr1 30 = some 32) :=
  ⟨⟨_, _, _, rfl,
      ByteToSector_sector_index (List.replicate 64 false) zeroDisk FileHeader.new 3000 _ _ _
        (by decide) (by decide) rfl rfl 3071 (by decide) (by decide),
      by decide⟩,
    ⟨_, _, _, rfl,
      ByteToSector_sector_index (List.replicate 40 false) zeroDisk FileHeader.new 3968 _ _ _
        (by decide) (by decide) rfl rfl (30 * 128) (by decide) (by decide),
      by decide, by decide, by decide⟩⟩

/-- C4: on a bitmap of 40 clear sectors, allocating a 31-sector file (level 1)
takes 33 sectors, and `Deallocate` on the resulting header gives back only the
two index sectors named in the root: `NumClear()` is 9 where it was 40, and all
31 data sectors of the file are still marked. -/
theorem Deallocate_leaves_data_sectors_marked :
    ∃ bm1 disk1 hdr1 bm2,
      Allocate (List.replicate 40 false) zeroDisk FileHeader.new 3968
        = some (true, bm1, disk1, hdr1) ∧
      Deallocate bm1 hdr1 = some bm2 ∧
      NumClear (List.replicate 40 false) = 40 ∧ NumClear bm1 = 7 ∧ NumClear bm2 = 9 ∧
      (leafSectors disk1 1 hdr1).length = 31 ∧
      ∀ s ∈ leafSectors disk1 1 hdr1, Test bm2 s = true :=
  ⟨_, _, _, _, rfl, rfl, by decide, by decide, by decide, by decide, by decide⟩

/-- C5: with exactly 31 clear sectors the up-front check passes for a 31-sector
file, yet the run aborts: the first child's index sector and its 30 data
sectors use the bitmap up, `FindAndSet` then returns `-1` for the second
child's index sector and for its data sector, and the leaf `ASSERT` fires. -/
theorem Allocate_aborts_without_index_sectors :
    ¬ NumClear (List.replicate 31 false) < ⌈((3968 : Int) : ℚ) / 128⌉ ∧
      allocLevel 3968 = 1 ∧
      Allocate (List.replicate 31 false) zeroDisk FileHeader.new 3968 = none ∧
      (MultiLevelAllocate 0 (FindAndSet (List.replicate 31 false)).2 zeroDisk 31
          FileHeader.new).map (fun res => (res.1, res.2.1))
        = some (30, List.replicate 31 true) ∧
      (FindAndSet (List.replicate 31 true)).1 = -1 :=
  ⟨by rw [← divRoundUp_eq_ceil]; decide, by decide, rfl, by decide, by decide⟩

/-- C9: for `fileSize ≥ 0` with `T = ceil(fileSize / 128) ≤ 30` and a bitmap
with at least `T` clear sectors, `Allocate` returns TRUE, writes nothing to
disk, and leaves `numSectors = T`, `numBytes = FileLength() = T * 128`, and
`dataSectors[i]`, for `i < T`, equal to the result of the `i`-th successive
`FindAndSet` on the bitmap, which is a valid sector number. -/
theorem Allocate_leaf_level (freeMap : Bitmap) (disk : Disk) (this : FileHeader)
    (fileSize : Int) (h0 : 0 ≤ fileSize) (hT : ⌈(fileSize : ℚ) / 128⌉ ≤ 30)
    (hfree : ⌈(fileSize : ℚ) / 128⌉ ≤ NumClear freeMap)
    (hlen : this.dataSectors.length = NumDirect) :
    ∃ bm1 hdr1, Allocate freeMap disk this fileSize = some (true, bm1, disk, hdr1) ∧
      allocLevel fileSize = 0 ∧
      hdr1.numSectors = ⌈(fileSize : ℚ) / 128⌉ ∧
      hdr1.numBytes = ⌈(fileSize : ℚ) / 128⌉ * 128 ∧
      FileLength hdr1 = ⌈(fileSize : ℚ) / 128⌉ * 128 ∧
      ∀ i : Nat, (i : Int) < ⌈(fileSize : ℚ) / 128⌉ →
        hdr1.dataSectors.get? i = some (FindAndSet ((fun b => (FindAndSet b).2)^[i] freeMap)).1 ∧
        0 ≤ (FindAndSet ((fun b => (FindAndSet b).2)^[i] freeMap)).1 := by
  rw [← divRoundUp_eq_ceil] at hT hfree ⊢
  have hb := divRoundUp_128 fileSize
  have hL : allocLevel fileSize = 0 := by
    rcases allocLevel_spec fileSize with hl | hl | hl | hl
    · exact hl.1
    all_goals omega
  have hc : ¬ NumClear freeMap < divRoundUp fileSize SectorSize := not_lt.mpr hfree
  have hT0 : 0 ≤ divRoundUp fileSize 128 := by omega
  have hn : (if divRoundUp fileSize SectorSize > 30 then (30 : Int)
      else divRoundUp fileSize SectorSize) = divRoundUp fileSize 128 := by
    have hS : SectorSize = 128 := rfl
    rw [hS, if_neg (not_lt.mpr hT)]
  obtain ⟨⟨bm1, hdr1⟩, hl⟩ := leafLoop_isSome (divRoundUp fileSize 128).toNat 0 freeMap
    { this with numBytes := fileSize } (by rw [Int.toNat_of_nonneg hT0]; exact hfree)
  obtain ⟨_, _, _, _, _, _, _, e8⟩ := leafLoop_spec _ 0 freeMap _ bm1 hdr1 hl
    (by show 0 + _ ≤ this.dataSectors.length; rw [hlen]; simp only [NumDirect]; omega)
  refine ⟨bm1, ⟨divRoundUp fileSize 128 * 128, divRoundUp fileSize 128, hdr1.dataSectors⟩, ?_,
    hL, rfl, rfl, rfl, ?_⟩
  · rw [Allocate_eq_level]
    simp only [hc, if_false, hL, MultiLevelAllocate, hn, hl, Option.map_some']
  · intro i hi
    have := e8 i (by omega)
    rw [Nat.zero_add] at this
    exact ⟨this.1, this.2.1⟩

theorem Allocate_leaf_level_witness :
    (∃ bm1 hdr1,
      Allocate (List.replicate 64 false) zeroDisk FileHeader.new 3000
        = some (true, bm1, zeroDisk, hdr1) ∧
      allocLevel 3000 = 0 ∧
      hdr1.numSectors = ⌈((3000 : Int) : ℚ) / 128⌉ ∧
      hdr1.numBytes = ⌈((3000 : Int) : ℚ) / 128⌉ * 128 ∧
      FileLength hdr1 = ⌈((3000 : Int) : ℚ) / 128⌉ * 128 ∧
      ∀ i : Nat, (i : Int) < ⌈((3000 : Int) : ℚ) / 128⌉ →
        hdr1.dataSectors.get? i =
          some (FindAndSet ((fun b => (FindAndSet b).2)^[i] (List.replicate 64 false))).1 ∧
        0 ≤ (FindAndSet ((fun b => (FindAndSet b).2)^[i] (List.replicate 64 false))).1) ∧
    ⌈((3000 : Int) : ℚ) / 128⌉ = 24 ∧ (24 : Int) * 128 = 3072 :=
  ⟨Allocate_leaf_level (List.replicate 64 false) zeroDisk FileHeader.new 3000 (by decide)
      (by rw [← divRoundUp_eq_ceil]; decide) (by rw [← divRoundUp_eq_ceil]; decide) rfl,
    by rw [← divRoundUp_eq_ceil]; decide, by decide⟩

/-- C10: for a level `d` in `{1, 2, 3}`, a request of `r` sectors with
`0 < r ≤ 30^(d+1)` and a bitmap with clear sectors for all the data and index
sectors (`sectorsNeeded d r`), `MultiLevelAllocate` completes, consumes `r`
sectors and leaves a node with `numSectors = ceil(r / 30^d)` children and
`numBytes = r * 128`; every child but the last holds exactly `30^d` leaf
sectors and the last holds `r - 30^d * (numSectors - 1)`, both by its persisted
`numBytes` and by the leaf sectors reachable from it. -/
theorem MultiLevelAllocate_interior_shape (d : Nat) (hd1 : 1 ≤ d) (hd3 : d ≤ 3) (r : Int)
    (hr0 : 0 < r) (hr1 : r ≤ 30 ^ (d + 1)) (freeMap : Bitmap) (disk : Disk) (hdr : FileHeader)
    (hbm : (freeMap.length : Int) < 2147483648) (hlen : hdr.dataSectors.length = NumDirect)
    (hfree : sectorsNeeded d r ≤ NumClear freeMap) :
    ∃ bm1 disk1 hdr1, MultiLevelAllocate d freeMap disk r hdr = some (r, bm1, disk1, hdr1) ∧
      hdr1.numSectors = ⌈(r : ℚ) / ((30 ^ d : Int) : ℚ)⌉ ∧ hdr1.numBytes = r * 128 ∧
      ∀ i : Nat, (i : Int) < hdr1.numSectors →
        ∃ p, hdr1.dataSectors.get? i = some p ∧
          (FetchFrom disk1 p).numBytes =
            (if (i : Int) + 1 < hdr1.numSectors then 30 ^ d
              else r - 30 ^ d * (hdr1.numSectors - 1)) * 128 ∧
          ((leafSectors disk1 (d - 1) (FetchFrom disk1 p)).length : Int) =
            (if (i : Int) + 1 < hdr1.numSectors then 30 ^ d
              else r - 30 ^ d * (hdr1.numSectors - 1)) := by
  obtain ⟨e, rfl⟩ : ∃ e, d = e + 1 := ⟨d - 1, by omega⟩
  have hmin : min r (30 ^ (e + 1 + 1)) = r := min_eq_left hr1
  obtain ⟨res, hres⟩ := MultiLevelAllocate_isSome (e + 1) hd3 freeMap disk r hdr (le_of_lt hr0)
    hbm (by rw [hmin]; exact hfree)
  have post := MultiLevelAllocate_post (e + 1) hd3 freeMap disk r hdr res (le_of_lt hr0) hbm hlen
    hres
  obtain ⟨use, bm1, disk1, hdr1⟩ := res
  obtain ⟨p1, _, _, _, p5, _⟩ := post
  simp only at p1 p5
  rw [hmin] at p1
  subst p1
  obtain ⟨t1, t2, t3, t4, t5⟩ := p5
  obtain ⟨s1, s2⟩ := Children.shape (pow30_pos (e + 1)) _ _ t5
  have hk : ((hdr1.dataSectors.take hdr1.numSectors.toNat).length : Int) = hdr1.numSectors := by
    rw [List.length_take, t4]; simp only [NumDirect]; omega
  rw [hk] at s1 s2
  refine ⟨bm1, disk1, hdr1, hres, ?_, t1, ?_⟩
  · rw [← divRoundUp_eq_ceil_general _ _ (pow30_pos _)]; exact s1
  · intro i hi
    have hlt : i < (hdr1.dataSectors.take hdr1.numSectors.toNat).length := by omega
    have hget : (hdr1.dataSectors.take hdr1.numSectors.toNat).get? i =
        some ((hdr1.dataSectors.take hdr1.numSectors.toNat).get ⟨i, hlt⟩) :=
      List.get?_eq_get hlt
    have hT := s2 i _ hget
    refine ⟨_, (get?_of_take _ _ _ _ hget).1, ?_, ?_⟩
    · exact Tree.numBytes_eq _ _ _ hT
    · exact Tree.leafSectors_length _ _ _ hT

theorem MultiLevelAllocate_interior_shape_witness :
    (∃ bm1 disk1 hdr1,
      MultiLevelAllocate 1 (List.replicate 40 false) zeroDisk 31 FileHeader.new
        = some (31, bm1, disk1, hdr1) ∧
      hdr1.numSectors = ⌈((31 : Int) : ℚ) / ((30 ^ 1 : Int) : ℚ)⌉ ∧ hdr1.numBytes = 31 * 128 ∧
      ∀ i : Nat, (i : Int) < hdr1.numSectors →
        ∃ p, hdr1.dataSectors.get? i = some p ∧
          (FetchFrom disk1 p).numBytes =
            (if (i : Int) + 1 < hdr1.numSectors then 30 ^ 1
              else 31 - 30 ^ 1 * (hdr1.numSectors - 1)) * 128 ∧
          ((leafSectors disk1 (1 - 1) (FetchFrom disk1 p)).length : Int) =
            (if (i : Int) + 1 < hdr1.numSectors then 30 ^ 1
              else 31 - 30 ^ 1 * (hdr1.numSectors - 1))) ∧
    (MultiLevelAllocate 1 (List.replicate 40 false) zeroDisk 31 FileHeader.new).map
        (fun res => (res.2.2.2.numSectors,
          (FetchFrom res.2.2.1 (res.2.2.2.dataSectors.getD 0 0)).numSectors,
          (FetchFrom res.2.2.1 (res.2.2.2.dataSectors.getD 1 0)).numSectors))
      = some (2, 30, 1) :=
  ⟨MultiLevelAllocate_interior_shape 1 (by decide) (by decide) 31 (by decide) (by decide)
      (List.replicate 40 false) zeroDisk FileHeader.new (by decide) rfl (by decide),
    by decide⟩

/-! ## The empty file, the level read back, well-formedness, cost and accounting -/

/-- C12: for every bitmap, also one with no clear sector, `Allocate` with
`fileSize = 0` returns TRUE at level 0 and leaves `numSectors = 0` and
`numBytes = 0`; the bitmap and the disk are unchanged, and the run makes no
`FindAndSet` and no `WriteBack` call. -/
theorem Allocate_empty_file (freeMap : Bitmap) (disk : Disk) (this : FileHeader) :
    Allocate freeMap disk this 0 =
        some (true, freeMap, disk, { this with numBytes := 0, numSectors := 0 }) ∧
      allocLevel 0 = 0 ∧
      AllocateTr freeMap disk this 0 =
        some ((true, freeMap, disk, { this with numBytes := 0, numSectors := 0 }), ([], [])) := by
  have hn : ¬ NumClear freeMap < 0 := not_lt.mpr (NumClear_nonneg freeMap)
  have hT : divRoundUp 0 SectorSize = 0 := by decide
  have hL : allocLevel 0 = 0 := by decide
  refine ⟨?_, hL, ?_⟩
  · rw [Allocate_eq_level, hT, hL]
    simp [hn, MultiLevelAllocate, leafLoop]
  · rw [AllocateTr_eq_level, hT, hL]
    simp [hn, MultiLevelAllocateTr, leafLoopTr]

/-- C13: for `fileSize ≥ 0`, after `Allocate` returns TRUE the level that
`ByteToSector` derives from the stored `numBytes` by the thresholds
`MaxFileSize1/2/3` is the level `Allocate` derived from `fileSize` by the same
thresholds, so `ByteToSector` runs `FindSector` at the level the tree was
built at. -/
theorem ByteToSector_level_agrees (freeMap : Bitmap) (disk : Disk) (this : FileHeader)
    (fileSize : Int) (bm1 : Bitmap) (disk1 : Disk) (hdr1 : FileHeader) (h0 : 0 ≤ fileSize)
    (h : Allocate freeMap disk this fileSize = some (true, bm1, disk1, hdr1)) :
    allocLevel hdr1.numBytes = allocLevel fileSize ∧
      (∀ s, ByteToSector disk1 hdr1 s = FindSector disk1 s (allocLevel hdr1.numBytes) hdr1) ∧
      (∀ s, ByteToSector disk1 hdr1 s = FindSector disk1 s (allocLevel fileSize) hdr1) := by
  have hnb := Allocate_use _ _ _ _ _ _ _ h0 h
  have hl := allocLevel_numBytes _ _ hnb
  refine ⟨hl, fun s => ByteToSector_eq_allocLevel _ _ _, fun s => ?_⟩
  rw [ByteToSector_eq_allocLevel, hl]

theorem ByteToSector_level_agrees_witness :
    ∃ bm1 disk1 hdr1,
      Allocate (List.replicate 40 false) zeroDisk FileHeader.new 3841
        = some (true, bm1, disk1, hdr1) ∧
      hdr1.numBytes = 3968 ∧ allocLevel 3841 = 1 ∧
      (allocLevel hdr1.numBytes = allocLevel 3841 ∧
        (∀ s, ByteToSector disk1 hdr1 s = FindSector disk1 s (allocLevel hdr1.numBytes) hdr1) ∧
        (∀ s, ByteToSector disk1 hdr1 s = FindSector disk1 s (allocLevel 3841) hdr1)) :=
  ⟨_, _, _, rfl, by decide, by decide,
    ByteToSector_level_agrees (List.replicate 40 false) zeroDisk FileHeader.new 3841 _ _ _
      (by decide) rfl⟩

/-- C14: for `fileSize ≥ 0`, after `Allocate` returns TRUE at level `d`, the
root and every node read from disk below it have `0 ≤ numSectors ≤ 30`; every
level-0 node has `numBytes = numSectors * 128` and every interior node has
`numBytes` equal to the sum of the `numBytes` of its `numSectors` children. The
bitmap has fewer than `2^31` bits and the header's table `NumDirect` entries. -/
theorem Allocate_wellFormed (freeMap : Bitmap) (disk : Disk) (this : FileHeader)
    (fileSize : Int) (bm1 : Bitmap) (disk1 : Disk) (hdr1 : FileHeader) (h0 : 0 ≤ fileSize)
    (hbm : (freeMap.length : Int) < 2147483648) (hlen : this.dataSectors.length = NumDirect)
    (h : Allocate freeMap disk this fileSize = some (true, bm1, disk1, hdr1)) :
    WellFormed disk1 (allocLevel fileSize) hdr1 :=
  Tree.wellFormed _ _ _ (Allocate_post _ _ _ _ _ _ _ h0 hbm hlen h).2.2.2.2.2.1

theorem Allocate_wellFormed_witness :
    ∃ bm1 disk1 hdr1,
      Allocate (List.replicate 40 false) zeroDisk FileHeader.new 3968
        = some (true, bm1, disk1, hdr1) ∧
      WellFormed disk1 (allocLevel 3968) hdr1 ∧
      hdr1.numBytes = 3968 ∧ hdr1.numSectors = 2 ∧
      (hdr1.dataSectors.take 2).map (fun p => (FetchFrom disk1 p).numBytes) = [3840, 128] ∧
      (hdr1.dataSectors.take 2).map (fun p => (FetchFrom disk1 p).numSectors) = [30, 1] :=
  ⟨_, _, _, rfl,
    Allocate_wellFormed (List.replicate 40 false) zeroDisk FileHeader.new 3968 _ _ _
      (by decide) (by decide) rfl rfl,
    by decide, by decide, by decide, by decide⟩

/-- C16: `ByteToSector` fetches exactly as many sectors as the level `d` it
recomputes from `numBytes` (`d ≤ 3`), one per level descended: whenever a call
returns, on any header and disk, the list of sectors it fetched has length
`d`; and on a header produced by a successful `Allocate` the call returns for
every sector index below the sectors recorded. The call takes no bitmap and
returns no disk or header: it writes nothing and changes no field. -/
theorem ByteToSector_reads (freeMap : Bitmap) (disk : Disk) (this : FileHeader)
    (fileSize : Int) (bm1 : Bitmap) (disk1 : Disk) (hdr1 : FileHeader) (h0 : 0 ≤ fileSize)
    (hbm : (freeMap.length : Int) < 2147483648) (hlen : this.dataSectors.length = NumDirect)
    (h : Allocate freeMap disk this fileSize = some (true, bm1, disk1, hdr1))
    (s : Int) (hs0 : 0 ≤ s) (hs1 : s * 128 < hdr1.numBytes) :
    (∃ p reads, ByteToSectorTr disk1 hdr1 s = some (p, reads) ∧
        ByteToSector disk1 hdr1 s = some p ∧ reads.length = allocLevel hdr1.numBytes) ∧
      (∀ (dk : Disk) (hd : FileHeader) (x p : Int) (reads : List Int),
        ByteToSectorTr dk hd x = some (p, reads) →
          reads.length = allocLevel hd.numBytes ∧ allocLevel hd.numBytes ≤ 3 ∧
          ByteToSector dk hd x = some p) := by
  have hgen : ∀ (dk : Disk) (hd : FileHeader) (x p : Int) (reads : List Int),
      ByteToSectorTr dk hd x = some (p, reads) →
        reads.length = allocLevel hd.numBytes ∧ allocLevel hd.numBytes ≤ 3 ∧
        ByteToSector dk hd x = some p := by
    intro dk hd x p reads hr
    refine ⟨?_, allocLevel_le _, ?_⟩
    · rw [ByteToSectorTr_eq_allocLevel] at hr
      exact FindSectorTr_reads dk _ (allocLevel_le _) _ _ _ _ hr
    · rw [← ByteToSectorTr_erase, hr]; rfl
  refine ⟨?_, hgen⟩
  obtain ⟨p, hp, _⟩ := Allocate_ByteToSector _ _ _ _ _ _ _ h0 hbm hlen h s hs0 hs1
  have he := ByteToSectorTr_erase disk1 hdr1 s
  rw [hp] at he
  cases hv : ByteToSectorTr disk1 hdr1 s with
  | none => rw [hv] at he; cases he
  | some v =>
    obtain ⟨q, reads⟩ := v
    rw [hv] at he
    simp only [Option.map_some', Option.some.injEq] at he
    subst he
    exact ⟨q, reads, rfl, hp, (hgen _ _ _ _ _ hv).1⟩

theorem ByteToSector_reads_witness :
    ∃ bm1 disk1 hdr1,
      Allocate (List.replicate 40 false) zeroDisk FileHeader.new 3968
        = some (true, bm1, disk1, hdr1) ∧
      ByteToSectorTr disk1 hdr1 30 = some (32, [31]) ∧
      ((∃ p reads, ByteToSectorTr disk1 hdr1 30 = some (p, reads) ∧
          ByteToSector disk1 hdr1 30 = some p ∧ reads.length = allocLevel hdr1.numBytes) ∧
        (∀ (dk : Disk) (hd : FileHeader) (x p : Int) (reads : List Int),
          ByteToSectorTr dk hd x = some (p, reads) →
            reads.length = allocLevel hd.numBytes ∧ allocLevel hd.numBytes ≤ 3 ∧
            ByteToSector dk hd x = some p)) :=
  ⟨_, _, _, rfl, by decide,
    ByteToSector_reads (List.replicate 40 false) zeroDisk FileHeader.new 3968 _ _ _
      (by decide) (by decide) rfl rfl 30 (by decide) (by decide)⟩

/-- C18: for `fileSize ≥ 0` with `T = ceil(fileSize / 128)` and the selected
level `d` with `T ≤ 30^(d+1)`, a successful `Allocate` lowers `NumClear()` by
exactly `T + Σ_{j=1..d} ceil(T / 30^j)`, which is more than `T` whenever
`d ≥ 1`. The bitmap has fewer than `2^31` bits and the header's table
`NumDirect` entries. -/
theorem Allocate_numClear (freeMap : Bitmap) (disk : Disk) (this : FileHeader)
    (fileSize : Int) (bm1 : Bitmap) (disk1 : Disk) (hdr1 : FileHeader) (h0 : 0 ≤ fileSize)
    (hcap : ⌈(fileSize : ℚ) / 128⌉ ≤ 30 ^ (allocLevel fileSize + 1))
    (hbm : (freeMap.length : Int) < 2147483648) (hlen : this.dataSectors.length = NumDirect)
    (h : Allocate freeMap disk this fileSize = some (true, bm1, disk1, hdr1)) :
    NumClear freeMap - NumClear bm1 =
        ⌈(fileSize : ℚ) / 128⌉ +
          ∑ j ∈ Finset.Icc 1 (allocLevel fileSize),
            ⌈((⌈(fileSize : ℚ) / 128⌉ : Int) : ℚ) / (((30 : Int) ^ j : Int) : ℚ)⌉ ∧
      (1 ≤ allocLevel fileSize → ⌈(fileSize : ℚ) / 128⌉ < NumClear freeMap - NumClear bm1) := by
  rw [← divRoundUp_eq_ceil] at hcap ⊢
  have post := (Allocate_post _ _ _ _ _ _ _ h0 hbm hlen h).2
  have hnum := post.2.2.1
  simp only at hnum
  rw [min_eq_left hcap] at hnum
  have hT := divRoundUp_128 fileSize
  have hsum : sectorsNeeded (allocLevel fileSize) (divRoundUp fileSize 128) =
      divRoundUp fileSize 128 + ∑ j ∈ Finset.Icc 1 (allocLevel fileSize),
        ⌈((divRoundUp fileSize 128 : Int) : ℚ) / (((30 : Int) ^ j : Int) : ℚ)⌉ := by
    rw [sectorsNeeded_eq_sum]
    congr 1
    apply Finset.sum_congr rfl
    intro j _
    exact divRoundUp_eq_ceil_general _ _ (pow30_pos j)
  refine ⟨by rw [← hsum]; omega, ?_⟩
  intro hd
  obtain ⟨e, he⟩ : ∃ e, allocLevel fileSize = e + 1 := ⟨allocLevel fileSize - 1, by omega⟩
  have hTpos : 0 < divRoundUp fileSize 128 := by
    rcases allocLevel_spec fileSize with hl | hl | hl | hl <;> omega
  rw [he] at hnum
  simp only [sectorsNeeded] at hnum
  have h1 := sectorsNeeded_ge e (divRoundUp fileSize 128) (by omega)
  have h2 := divRoundUp_pos (divRoundUp fileSize 128) (30 ^ (e + 1)) hTpos (pow30_pos _)
  omega

theorem Allocate_numClear_witness :
    ∃ bm1 disk1 hdr1,
      Allocate (List.replicate 40 false) zeroDisk FileHeader.new 3968
        = some (true, bm1, disk1, hdr1) ∧
      NumClear (List.replicate 40 false) = 40 ∧ NumClear bm1 = 7 ∧
      (NumClear (List.replicate 40 false) - NumClear bm1 =
          ⌈((3968 : Int) : ℚ) / 128⌉ +
            ∑ j ∈ Finset.Icc 1 (allocLevel 3968),
              ⌈((⌈((3968 : Int) : ℚ) / 128⌉ : Int) : ℚ) / (((30 : Int) ^ j : Int) : ℚ)⌉ ∧
        (1 ≤ allocLevel 3968 →
          ⌈((3968 : Int) : ℚ) / 128⌉ < NumClear (List.replicate 40 false) - NumClear bm1)) :=
  ⟨_, _, _, rfl, by decide, by decide,
    Allocate_numClear (List.replicate 40 false) zeroDisk FileHeader.new 3968 _ _ _ (by decide)
      (by rw [← divRoundUp_eq_ceil]; decide) (by decide) rfl rfl⟩

/-! ## Persistence, sharing, allocation order and deallocation -/

/-- C11: after a successful `Allocate` (`fileSize ≥ 0`), the sectors written by
the run are the sectors of the non-root nodes of the tree; each such sector
holds exactly the record passed to `WriteBack` for it, which is the child's
record once its own allocation has returned, and `FetchFrom` gives it back;
every other sector of the disk has the content it had before the call: the leaf
data sectors, and every sector that was marked in the bitmap before the call,
as the root's own sector is. The bitmap has fewer than `2^31` bits and the
header's table `NumDirect` entries. -/
theorem Allocate_persistence_frame (freeMap : Bitmap) (disk : Disk) (this : FileHeader)
    (fileSize : Int) (bm1 : Bitmap) (disk1 : Disk) (hdr1 : FileHeader) (h0 : 0 ≤ fileSize)
    (hbm : (freeMap.length : Int) < 2147483648) (hlen : this.dataSectors.length = NumDirect)
    (h : Allocate freeMap disk this fileSize = some (true, bm1, disk1, hdr1)) :
    ∃ tr, AllocateTr freeMap disk this fileSize = some ((true, bm1, disk1, hdr1), tr) ∧
      List.Perm (tr.2.map Prod.fst) (indexSectors disk1 (allocLevel fileSize) hdr1) ∧
      (∀ p ∈ indexSectors disk1 (allocLevel fileSize) hdr1,
        ∃ rec, (p, rec) ∈ tr.2 ∧ disk1 p = rec.toBytes ∧ FetchFrom disk1 p = rec) ∧
      (∀ w ∈ tr.2, disk1 w.1 = w.2.toBytes ∧ FetchFrom disk1 w.1 = w.2) ∧
      (∀ s, s ∉ indexSectors disk1 (allocLevel fileSize) hdr1 → disk1 s = disk s) ∧
      (∀ s ∈ leafSectors disk1 (allocLevel fileSize) hdr1,
        s ∉ indexSectors disk1 (allocLevel fileSize) hdr1 ∧ disk1 s = disk s) ∧
      (∀ s, Test freeMap s = true → disk1 s = disk s) := by
  obtain ⟨tr, htr, ⟨_, _, r3⟩, ⟨t1, t2, t3⟩⟩ := AllocateTr_post _ _ _ _ _ _ _ h0 hbm hlen h
  obtain ⟨hnd, hfresh, _⟩ := Allocate_treeSectors _ _ _ _ _ _ _ h0 hbm hlen h
  simp only at r3 t1 t2 t3
  have hperm : List.Perm (tr.2.map Prod.fst) (indexSectors disk1 (allocLevel fileSize) hdr1) := by
    rw [t1] at t3; exact t3
  have hframe : ∀ s, s ∉ indexSectors disk1 (allocLevel fileSize) hdr1 → disk1 s = disk s := by
    intro s hs
    rw [r3]
    exact replayWrites_other _ _ _ (fun hmem => hs (hperm.subset hmem))
  have hindex : ∀ s ∈ indexSectors disk1 (allocLevel fileSize) hdr1,
      (false, s) ∈ treeEvents disk1 (allocLevel fileSize) hdr1 := by
    intro s hs
    obtain ⟨e, he, rfl⟩ := List.mem_map.mp hs
    obtain ⟨he1, he2⟩ := List.mem_filter.mp he
    obtain ⟨b, x⟩ := e
    cases b with
    | false => exact he1
    | true => simp at he2
  refine ⟨tr, htr, hperm, ?_, t2, hframe, ?_, ?_⟩
  · intro p hp
    obtain ⟨w, hw, rfl⟩ := List.mem_map.mp (hperm.symm.subset hp)
    exact ⟨w.2, hw, t2 w hw⟩
  · intro s hs
    rw [leafSectors_eq_events] at hs
    obtain ⟨e, he, rfl⟩ := List.mem_map.mp hs
    obtain ⟨he1, he2⟩ := List.mem_filter.mp he
    have hnot : e.2 ∉ indexSectors disk1 (allocLevel fileSize) hdr1 := by
      intro hmem
      have heq := List.inj_on_of_nodup_map hnd he1 (hindex _ hmem) rfl
      rw [heq] at he2
      simp at he2
    exact ⟨hnot, hframe _ hnot⟩
  · intro s hs
    apply hframe
    intro hmem
    have hmem2 : s ∈ treeSectors disk1 (allocLevel fileSize) hdr1 :=
      List.mem_map.mpr ⟨_, hindex s hmem, rfl⟩
    have := (hfresh s hmem2).test.2.1
    rw [hs] at this
    cases this

theorem Allocate_persistence_frame_witness :
    ∃ bm1 disk1 hdr1,
      Allocate (List.replicate 40 false) zeroDisk FileHeader.new 3968
        = some (true, bm1, disk1, hdr1) ∧
      indexSectors disk1 (allocLevel 3968) hdr1 = [0, 31] ∧
      (FetchFrom disk1 0).numSectors = 30 ∧ (FetchFrom disk1 31).numSectors = 1 ∧
      ∃ tr, AllocateTr (List.replicate 40 false) zeroDisk FileHeader.new 3968
          = some ((true, bm1, disk1, hdr1), tr) ∧
        List.Perm (tr.2.map Prod.fst) (indexSectors disk1 (allocLevel 3968) hdr1) ∧
        (∀ p ∈ indexSectors disk1 (allocLevel 3968) hdr1,
          ∃ rec, (p, rec) ∈ tr.2 ∧ disk1 p = rec.toBytes ∧ FetchFrom disk1 p = rec) ∧
        (∀ w ∈ tr.2, disk1 w.1 = w.2.toBytes ∧ FetchFrom disk1 w.1 = w.2) ∧
        (∀ s, s ∉ indexSectors disk1 (allocLevel 3968) hdr1 → disk1 s = zeroDisk s) ∧
        (∀ s ∈ leafSectors disk1 (allocLevel 3968) hdr1,
          s ∉ indexSectors disk1 (allocLevel 3968) hdr1 ∧ disk1 s = zeroDisk s) ∧
        (∀ s, Test (List.replicate 40 false) s = true → disk1 s = zeroDisk s) :=
  ⟨_, _, _, rfl, by decide, by decide, by decide,
    Allocate_persistence_frame (List.replicate 40 false) zeroDisk FileHeader.new 3968 _ _ _
      (by decide) (by decide) rfl rfl⟩

/-- C15: after a successful `Allocate` (`fileSize ≥ 0`), the sector numbers
stored below `numSectors` in all the nodes of the tree, child-node sectors and
data sectors together, are pairwise distinct; each was clear in the bitmap
before the call and is set after it; and every bit set before the call is still
set, in a bitmap of the same size. The bitmap has fewer than `2^31` bits and the
header's table `NumDirect` entries. -/
theorem Allocate_no_sharing (freeMap : Bitmap) (disk : Disk) (this : FileHeader)
    (fileSize : Int) (bm1 : Bitmap) (disk1 : Disk) (hdr1 : FileHeader) (h0 : 0 ≤ fileSize)
    (hbm : (freeMap.length : Int) < 2147483648) (hlen : this.dataSectors.length = NumDirect)
    (h : Allocate freeMap disk this fileSize = some (true, bm1, disk1, hdr1)) :
    (treeSectors disk1 (allocLevel fileSize) hdr1).Nodup ∧
      (∀ s ∈ treeSectors disk1 (allocLevel fileSize) hdr1,
        0 ≤ s ∧ Test freeMap s = false ∧ Test bm1 s = true) ∧
      bm1.length = freeMap.length ∧
      (∀ s, Test freeMap s = true → Test bm1 s = true) := by
  obtain ⟨hnd, hfresh, hext⟩ := Allocate_treeSectors _ _ _ _ _ _ _ h0 hbm hlen h
  exact ⟨hnd, fun s hs => (hfresh s hs).test, hext.1.symm, fun s hs => hext.test_mono s hs⟩

theorem Allocate_no_sharing_witness :
    ∃ bm1 disk1 hdr1,
      Allocate ([true, false, true] ++ List.replicate 40 false) zeroDisk FileHeader.new 3968
        = some (true, bm1, disk1, hdr1) ∧
      treeSectors disk1 (allocLevel 3968) hdr1 =
        1 :: 3 :: ((List.range 29).map (fun i => (i : Int) + 4) ++ [33, 34]) ∧
      ((treeSectors disk1 (allocLevel 3968) hdr1).Nodup ∧
        (∀ s ∈ treeSectors disk1 (allocLevel 3968) hdr1,
          0 ≤ s ∧ Test ([true, false, true] ++ List.replicate 40 false) s = false ∧
            Test bm1 s = true) ∧
        bm1.length = ([true, false, true] ++ List.replicate 40 false).length ∧
        (∀ s, Test ([true, false, true] ++ List.replicate 40 false) s = true →
          Test bm1 s = true)) :=
  ⟨_, _, _, rfl, by decide,
    Allocate_no_sharing ([true, false, true] ++ List.replicate 40 false) zeroDisk FileHeader.new
      3968 _ _ _ (by decide) (by decide) rfl rfl⟩

/-- C17: for `fileSize ≥ 0` with `T = ceil(fileSize / 128) ≤ 30^4` and a sector
index `0 ≤ s < T`, after a successful `Allocate` both `ByteToSector(s)` and
`FindSector(s, level, root)` return entry `s` (counting from 0) of the data
sectors in the order the run obtained them from `FindAndSet`; the record of the
run lists the results of its successive `FindAndSet` calls on the bitmap. The
bitmap has fewer than `2^31` bits and the header's table `NumDirect` entries. -/
theorem ByteToSector_allocation_order (freeMap : Bitmap) (disk : Disk) (this : FileHeader)
    (fileSize : Int) (bm1 : Bitmap) (disk1 : Disk) (hdr1 : FileHeader) (h0 : 0 ≤ fileSize)
    (hcap : ⌈(fileSize : ℚ) / 128⌉ ≤ 30 ^ 4)
    (hbm : (freeMap.length : Int) < 2147483648) (hlen : this.dataSectors.length = NumDirect)
    (h : Allocate freeMap disk this fileSize = some (true, bm1, disk1, hdr1))
    (s : Int) (hs0 : 0 ≤ s) (hs1 : s < ⌈(fileSize : ℚ) / 128⌉) :
    ∃ tr p, AllocateTr freeMap disk this fileSize = some ((true, bm1, disk1, hdr1), tr) ∧
      tr.1.map Prod.snd = findSeq tr.1.length freeMap ∧
      ((tr.1.filter (fun e => e.1)).map Prod.snd).get? s.toNat = some p ∧
      ByteToSector disk1 hdr1 s = some p ∧
      FindSector disk1 s (allocLevel fileSize) hdr1 = some p := by
  rw [← divRoundUp_eq_ceil] at hcap hs1
  obtain ⟨tr, htr, ⟨r1, _, _⟩, ⟨t1, _, _⟩⟩ := AllocateTr_post _ _ _ _ _ _ _ h0 hbm hlen h
  simp only at r1 t1
  have hnb0 := Allocate_use _ _ _ _ _ _ _ h0 h
  have hmin : min (divRoundUp fileSize 128) (30 ^ (allocLevel fileSize + 1)) =
      divRoundUp fileSize 128 := by
    apply min_eq_left
    rcases allocLevel_spec fileSize with hl | hl | hl | hl <;> rw [hl.1] <;> norm_num <;> omega
  have hnb := hnb0
  rw [hmin] at hnb
  obtain ⟨p, hp1, hp2⟩ := Allocate_ByteToSector _ _ _ _ _ _ _ h0 hbm hlen h s hs0 (by omega)
  refine ⟨tr, p, htr, r1, ?_, hp1, ?_⟩
  · rw [t1, ← leafSectors_eq_events]; exact hp2
  · rw [← hp1, ByteToSector_eq_allocLevel, allocLevel_numBytes _ fileSize hnb0]

theorem ByteToSector_allocation_order_witness :
    ∃ bm1 disk1 hdr1,
      Allocate (List.replicate 40 false) zeroDisk FileHeader.new 3968
        = some (true, bm1, disk1, hdr1) ∧
      (AllocateTr (List.replicate 40 false) zeroDisk FileHeader.new 3968).map
          (fun r => (r.2.1.filter (fun e => e.1)).map Prod.snd)
        = some ((List.range 30).map (fun i => (i : Int) + 1) ++ [32]) ∧
      ByteToSector disk1 hdr1 30 = some 32 ∧
      ∃ tr p, AllocateTr (List.replicate 40 false) zeroDisk FileHeader.new 3968
          = some ((true, bm1, disk1, hdr1), tr) ∧
        tr.1.map Prod.snd = findSeq tr.1.length (List.replicate 40 false) ∧
        ((tr.1.filter (fun e => e.1)).map Prod.snd).get? (30 : Int).toNat = some p ∧
        ByteToSector disk1 hdr1 30 = some p ∧
        FindSector disk1 30 (allocLevel 3968) hdr1 = some p :=
  ⟨_, _, _, rfl, by decide, by decide,
    ByteToSector_allocation_order (List.replicate 40 false) zeroDisk FileHeader.new 3968 _ _ _
      (by decide) (by rw [← divRoundUp_eq_ceil]; decide) (by decide) rfl rfl 30 (by decide)
      (by rw [← divRoundUp_eq_ceil]; decide)⟩

/-- C19: on a header produced by a successful `Allocate` (`fileSize ≥ 0`) and
the bitmap it left, `Deallocate` completes, so every
`ASSERT(freeMap->Test(...))` holds when it is reached: the `numSectors` entries
it visits are pairwise distinct and marked. Afterwards exactly these bits are
clear: each of them tests clear, every other sector tests as before, the bitmap
has its size, and `NumClear()` has grown by `numSectors`. `Deallocate` has no
header to return: it assigns no field. The bitmap has fewer than `2^31` bits
and the header's table `NumDirect` entries. -/
theorem Deallocate_after_Allocate (freeMap : Bitmap) (disk : Disk) (this : FileHeader)
    (fileSize : Int) (bm1 : Bitmap) (disk1 : Disk) (hdr1 : FileHeader) (h0 : 0 ≤ fileSize)
    (hbm : (freeMap.length : Int) < 2147483648) (hlen : this.dataSectors.length = NumDirect)
    (h : Allocate freeMap disk this fileSize = some (true, bm1, disk1, hdr1)) :
    ∃ bm2, Deallocate bm1 hdr1 = some bm2 ∧ bm2.length = bm1.length ∧
      (hdr1.dataSectors.take hdr1.numSectors.toNat).Nodup ∧
      (∀ p ∈ hdr1.dataSectors.take hdr1.numSectors.toNat,
        Test bm1 p = true ∧ Test bm2 p = false) ∧
      (∀ s, s ∉ hdr1.dataSectors.take hdr1.numSectors.toNat → Test bm2 s = Test bm1 s) ∧
      NumClear bm2 = NumClear bm1 + hdr1.numSectors := by
  obtain ⟨hnd, hfresh, _⟩ := Allocate_treeSectors _ _ _ _ _ _ _ h0 hbm hlen h
  have post := (Allocate_post _ _ _ _ _ _ _ h0 hbm hlen h).2
  obtain ⟨tl, tn0, tn30⟩ := Tree.table _ _ _ post.2.2.2.2.1
  simp only at tl tn0 tn30
  have hsub := rootPtrs_sublist disk1 (allocLevel fileSize) hdr1
  have hnd1 := hsub.nodup hnd
  have hmem : ∀ p ∈ hdr1.dataSectors.take hdr1.numSectors.toNat, Fresh freeMap bm1 p :=
    fun p hp => hfresh p (hsub.subset hp)
  obtain ⟨bm2, r1, r2, r3, r4, r5⟩ := deallocLoop_spec hdr1 hdr1.numSectors.toNat 0 bm1
    (by rw [List.drop_zero]; exact fun p hp => ⟨(hmem p hp).1, (hmem p hp).2.2⟩)
    (by rw [List.drop_zero]; exact hnd1)
    (by rw [tl]; simp only [NumDirect]; omega)
  rw [List.drop_zero] at r3 r4
  refine ⟨bm2, r1, r2, hnd1, ?_, ?_, ?_⟩
  · intro p hp
    exact ⟨(hmem p hp).test.2.2, Test_of_get? _ _ _ (hmem p hp).1 (r3 p hp)⟩
  · intro s hs
    by_cases hs0 : 0 ≤ s
    · apply Test_congr
      apply r4
      rw [Int.toNat_of_nonneg hs0]; exact hs
    · simp [Test, hs0]
  · rw [r5, Int.toNat_of_nonneg tn0]

theorem Deallocate_after_Allocate_witness :
    ∃ bm1 disk1 hdr1,
      Allocate (List.replicate 64 false) zeroDisk FileHeader.new 3000
        = some (true, bm1, disk1, hdr1) ∧
      Deallocate bm1 hdr1 = some (List.replicate 64 false) ∧
      ∃ bm2, Deallocate bm1 hdr1 = some bm2 ∧ bm2.length = bm1.length ∧
        (hdr1.dataSectors.take hdr1.numSectors.toNat).Nodup ∧
        (∀ p ∈ hdr1.dataSectors.take hdr1.numSectors.toNat,
          Test bm1 p = true ∧ Test bm2 p = false) ∧
        (∀ s, s ∉ hdr1.dataSectors.take hdr1.numSectors.toNat → Test bm2 s = Test bm1 s) ∧
        NumClear bm2 = NumClear bm1 + hdr1.numSectors :=
  ⟨_, _, _, rfl, by decide,
    Deallocate_after_Allocate (List.replicate 64 false) zeroDisk FileHeader.new 3000 _ _ _
      (by decide) (by decide) rfl rfl⟩
end NachOS
